import Mathlib

/-!
# pep440-cpp: parsing, ordering and range matching of PEP 440 versions

A shallow embedding of `include/pep440/version.hpp` and `src/pep440/version.cpp`.

* `std::string` is embedded as `List Char`.
* `int` is embedded as `Int`; `std::stoi` reports `std::out_of_range` outside
  `[INT_MIN, INT_MAX]`, and `++` on an `int` equal to `INT_MAX` overflows, which has no
  defined behaviour and is modelled as an error.
* A C++ function that may throw returns `Except Error`.
* `std::regex_match` is embedded as a backtracking matcher over the syntax tree of the
  pattern: the matcher enumerates the ways a pattern can consume a prefix of the input in
  priority order (greedy quantifiers first, left alternative first) and `regex_match`
  takes the first way that consumes the whole input.
-/

namespace Pep440

/-- The model of `std::string`. -/
abbrev Str := List Char

/-! ## The regular-expression engine -/

/-- One item of a bracket expression such as `[-_\.]` or `[a-z0-9]`. -/
inductive ClassItem where
  | single (c : Char)
  | range (lo hi : Char)
  deriving DecidableEq, Repr

/-- Syntax tree of the fragment of ECMAScript patterns that `VERSION_REGEX` uses.
Non-capturing groups `(?:...)` only give structure and have no node of their own. -/
inductive Regex where
  | eps
  | bol
  | eol
  | chr (c : Char)
  | digit
  | cls (items : List ClassItem)
  | seq (a b : Regex)
  | alt (a b : Regex)
  | opt (a : Regex)
  | star (a : Regex)
  | plus (a : Regex)
  | group (i : Nat) (a : Regex)
  deriving Repr

/-- The sub-matches of a match: `none` is a group that did not take part. -/
abbrev Caps := Nat → Option Str

/-- The sub-matches after group `i` has captured `x`. -/
def setCap (c : Caps) (i : Nat) (x : Str) : Caps := fun j => if j = i then some x else c j

/-- One way a pattern can match at a position: the characters taken, the input left,
and the capture groups recorded so far. -/
structure Thread where
  taken : Str
  rest : Str
  caps : Caps

/-- A literal character against an input character (`icase` compares the lowered
characters, as `regex_traits::translate_nocase` does). -/
def chrOk (ic : Bool) (p x : Char) : Bool :=
  if ic then x.toLower == p.toLower else x == p

/-- Membership of an input character in one bracket item. With `icase` a range accepts
a character when its lower-case or its upper-case form lies in the range. -/
def itemOk (ic : Bool) : ClassItem → Char → Bool
  | .single p, x => chrOk ic p x
  | .range lo hi, x =>
    (decide (lo ≤ x) && decide (x ≤ hi)) ||
      (ic && ((decide (lo ≤ x.toLower) && decide (x.toLower ≤ hi)) ||
        (decide (lo ≤ x.toUpper) && decide (x.toUpper ≤ hi))))

/-- Consume one character satisfying `p`. -/
def oneChar (p : Char → Bool) (rest : Str) (caps : Caps) : List Thread :=
  match rest with
  | [] => []
  | x :: xs => if p x then [⟨[x], xs, caps⟩] else []

/-- Run `k` after the thread `t` and glue the characters taken. -/
def andThen (t : Thread) (k : Str → Caps → List Thread) : List Thread :=
  (k t.rest t.caps).map fun u => ⟨t.taken ++ u.taken, u.rest, u.caps⟩

/-- Greedy repetition: first one more iteration (which has to consume input, as the
ECMAScript RepeatMatcher demands), then stopping here. The fuel is the input length. -/
def starAux (step : Str → Caps → List Thread) : Nat → Str → Caps → List Thread
  | 0, rest, caps => [⟨[], rest, caps⟩]
  | fuel + 1, rest, caps =>
    ((step rest caps).flatMap fun t =>
      if t.rest.length < rest.length then andThen t (starAux step fuel) else []) ++
      [⟨[], rest, caps⟩]

/-- All the ways `re` matches a prefix of `rest`, best first. `w` is the whole input
(for `^`), `ic` the `icase` flag. -/
def matchR (ic : Bool) (w : Str) : Regex → Str → Caps → List Thread
  | .eps, rest, caps => [⟨[], rest, caps⟩]
  | .bol, rest, caps => if rest.length = w.length then [⟨[], rest, caps⟩] else []
  | .eol, rest, caps => if rest = [] then [⟨[], rest, caps⟩] else []
  | .chr c, rest, caps => oneChar (chrOk ic c) rest caps
  | .digit, rest, caps => oneChar Char.isDigit rest caps
  | .cls items, rest, caps => oneChar (fun x => items.any fun it => itemOk ic it x) rest caps
  | .seq a b, rest, caps =>
    (matchR ic w a rest caps).flatMap fun t => andThen t (matchR ic w b)
  | .alt a b, rest, caps => matchR ic w a rest caps ++ matchR ic w b rest caps
  | .opt a, rest, caps => matchR ic w a rest caps ++ [⟨[], rest, caps⟩]
  | .star a, rest, caps => starAux (matchR ic w a) rest.length rest caps
  | .plus a, rest, caps =>
    (matchR ic w a rest caps).flatMap fun t =>
      andThen t fun r c => starAux (matchR ic w a) r.length r c
  | .group i a, rest, caps =>
    (matchR ic w a rest caps).map fun t => ⟨t.taken, t.rest, setCap t.caps i t.taken⟩

/-- The model of `std::regex_match(input, match, re)`: the captures of the first way to
match that leaves no input, `none` when there is no such way. -/
def regex_match (ic : Bool) (re : Regex) (input : Str) : Option Caps :=
  ((matchR ic input re input fun _ => none).find? fun t => t.rest.isEmpty).map Thread.caps

/-- A literal word, character by character. -/
def Regex.word : Str → Regex
  | [] => .eps
  | [c] => .chr c
  | c :: cs => .seq (.chr c) (Regex.word cs)

/-- The bracket expression `[-_\.]`. -/
def reSep : Regex := .cls [.single '-', .single '_', .single '.']

/-- The bracket expression `[a-z0-9]`. -/
def reAlnum : Regex := .cls [.range 'a' 'z', .range '0' '9']

/-- Pattern part `(?:v)?`. -/
def reV : Regex := .opt (.chr 'v')

/-- Pattern part `(?:(\d+)!)?`. -/
def reEpoch : Regex := .opt (.seq (.group 1 (.plus .digit)) (.chr '!'))

/-- Pattern part `(\d+(?:\.\d+)*)`. -/
def reRelease : Regex :=
  .group 2 (.seq (.plus .digit) (.star (.seq (.chr '.') (.plus .digit))))

/-- Pattern part `(a|b|c|rc|alpha|beta|pre|preview)`. -/
def rePreLabel : Regex :=
  .group 3 (.alt (.chr 'a') (.alt (.chr 'b') (.alt (.chr 'c')
    (.alt (Regex.word ['r', 'c']) (.alt (Regex.word ['a', 'l', 'p', 'h', 'a'])
    (.alt (Regex.word ['b', 'e', 't', 'a']) (.alt (Regex.word ['p', 'r', 'e'])
    (Regex.word ['p', 'r', 'e', 'v', 'i', 'e', 'w']))))))))

/-- Pattern part `(?:(?:[-_\.]?)(a|b|c|rc|alpha|beta|pre|preview)(?:[-_\.]?)(\d*))?`. -/
def rePre : Regex :=
  .opt (.seq (.opt reSep) (.seq rePreLabel (.seq (.opt reSep) (.group 4 (.star .digit)))))

/-- Pattern part `(post|rev|r)`. -/
def rePostLabel : Regex :=
  .group 6 (.alt (Regex.word ['p', 'o', 's', 't'])
    (.alt (Regex.word ['r', 'e', 'v']) (.chr 'r')))

/-- Pattern part `(?:-(\d+)|(?:[-_\.]?(post|rev|r)(?:[-_\.]?)(\d*)))?`. -/
def rePost : Regex :=
  .opt (.alt (.seq (.chr '-') (.group 5 (.plus .digit)))
    (.seq (.opt reSep) (.seq rePostLabel (.seq (.opt reSep) (.group 7 (.star .digit))))))

/-- Pattern part `(?:[-_\.]?(dev)(?:[-_\.]?)(\d*))?`. -/
def reDev : Regex :=
  .opt (.seq (.opt reSep) (.seq (.group 8 (Regex.word ['d', 'e', 'v']))
    (.seq (.opt reSep) (.group 9 (.star .digit)))))

/-- Pattern part `([a-z0-9]+(?:[-_\.][a-z0-9]+)*)`. -/
def reLocalBody : Regex :=
  .group 10 (.seq (.plus reAlnum) (.star (.seq reSep (.plus reAlnum))))

/-- Pattern part `(?:\+([a-z0-9]+(?:[-_\.][a-z0-9]+)*))?`. -/
def reLocal : Regex := .opt (.seq (.chr '+') reLocalBody)

/-- The pattern of `VERSION_REGEX`, part after part:
`^(?:v)?(?:(\d+)!)?(\d+(?:\.\d+)*)(?:(?:[-_\.]?)(a|b|c|rc|alpha|beta|pre|preview)(?:[-_\.]?)(\d*))?`
`(?:-(\d+)|(?:[-_\.]?(post|rev|r)(?:[-_\.]?)(\d*)))?(?:[-_\.]?(dev)(?:[-_\.]?)(\d*))?`
`(?:\+([a-z0-9]+(?:[-_\.][a-z0-9]+)*))?$`. It is compiled with `std::regex::icase`. -/
def VERSION_REGEX : Regex :=
  .seq .bol (.seq reV (.seq reEpoch (.seq reRelease (.seq rePre (.seq rePost
    (.seq reDev (.seq reLocal .eol)))))))

/-! ## Errors and library functions -/

/-- The exceptions that leave the library. `VersionParseError` carries its message;
`out_of_range` and `invalid_argument` are the standard exceptions of `std::stoi`,
`std::string::substr` and `parse_op`; `out_of_bounds` stands for an access outside a
vector and `signed_overflow` for the overflow of an `int`, neither of which has a defined
behaviour. -/
inductive Error where
  | VersionParseError (msg : Str)
  | out_of_range
  | invalid_argument
  | out_of_bounds
  | signed_overflow
  deriving DecidableEq, Repr

/-- Equality of results is decidable, so that a call can be evaluated and compared. -/
instance instDecidableEqExcept {ε α : Type} [DecidableEq ε] [DecidableEq α] :
    DecidableEq (Except ε α)
  | .ok a, .ok b => if h : a = b then isTrue (by rw [h]) else isFalse (fun e => h (by cases e; rfl))
  | .error a, .error b =>
    if h : a = b then isTrue (by rw [h]) else isFalse (fun e => h (by cases e; rfl))
  | .ok _, .error _ => isFalse (fun e => by cases e)
  | .error _, .ok _ => isFalse (fun e => by cases e)

/-- Largest `int`. -/
def INT_MAX : Int := 2147483647

/-- Smallest `int`. -/
def INT_MIN : Int := -2147483648

/-- Value of a run of decimal digits. -/
def readNat (ds : Str) : Nat :=
  ds.foldl (fun acc c => 10 * acc + (c.toNat - 48)) 0

/-- The model of `isspace` in the "C" locale: space, `\t`, `\n`, `\v`, `\f`, `\r`. -/
def isspace (c : Char) : Bool :=
  c == ' ' || c == '\t' || c == '\n' || c == '\x0b' || c == '\x0c' || c == '\r'

/-- The model of `std::stoi(s)`: leading white space is skipped, a sign is accepted, the
longest run of digits is read; without a digit the call throws `std::invalid_argument`,
and a value that does not fit an `int` throws `std::out_of_range`. -/
def stoi (s : Str) : Except Error Int :=
  let s1 := s.dropWhile isspace
  let neg := s1.head? == some '-'
  let s2 := if s1.head? == some '-' || s1.head? == some '+' then s1.drop 1 else s1
  let ds := s2.takeWhile Char.isDigit
  if ds = [] then .error .invalid_argument
  else
    let v : Int := if neg then -(readNat ds : Int) else (readNat ds : Int)
    if v < INT_MIN ∨ INT_MAX < v then .error .out_of_range else .ok v

/-- The pieces `while (std::getline(ss, part, delim))` yields: the input is cut at every
`delim`; a call that finds the stream already at its end yields nothing, so a final
delimiter does not open an empty last piece. `cur` is the piece being read. -/
def getlineAux (delim : Char) : Str → Str → List Str
  | cur, [] => if cur = [] then [] else [cur]
  | cur, c :: cs =>
    if c = delim then cur :: getlineAux delim [] cs else getlineAux delim (cur ++ [c]) cs

/-- The pieces of `s` that the `std::getline` loop with delimiter `delim` yields. -/
def getlines (delim : Char) (s : Str) : List Str := getlineAux delim [] s

/-- The model of `ss << n` for an `int`. -/
def showInt (n : Int) : Str :=
  if n < 0 then '-' :: Nat.toDigits 10 n.natAbs else Nat.toDigits 10 n.natAbs

/-- The model of `s.find_first_not_of(chars)`: `none` is `npos`. -/
def find_first_not_of (s chars : Str) : Option Nat :=
  let i := s.findIdx fun c => !chars.contains c
  if i < s.length then some i else none

/-- The model of `s.substr(pos)`, which throws `std::out_of_range` when `pos > size()`
(`npos` always is). -/
def substr (s : Str) (pos : Option Nat) : Except Error Str :=
  match pos with
  | none => .error .out_of_range
  | some p => if s.length < p then .error .out_of_range else .ok (s.drop p)

/-! ## Version -/

/-- The model of `struct Version` (`local_` is the field `local`). -/
structure Version where
  epoch : Int := 0
  release : List Int := []
  pre : Option (Str × Int) := none
  post : Option Int := none
  dev : Option Int := none
  local_ : Option Str := none
  deriving DecidableEq, Repr

/-- The model of `normalize_release`: `pop_back` while the last element is zero. -/
def normalize_release (r : List Int) : List Int :=
  (r.reverse.dropWhile fun x => x == 0).reverse

/-- The model of `normalize_pre_label`. -/
def normalize_pre_label (label : Str) : Str :=
  let l := label.map Char.toLower
  if l = ['a', 'l', 'p', 'h', 'a'] then ['a']
  else if l = ['b', 'e', 't', 'a'] then ['b']
  else if l = ['c'] ∨ l = ['r', 'c'] ∨ l = ['p', 'r', 'e'] ∨
      l = ['p', 'r', 'e', 'v', 'i', 'e', 'w'] then ['r', 'c']
  else l

/-- The loop `while (std::getline(ss, segment, '.')) v.release.push_back(std::stoi(segment))`
over the pieces already cut. -/
def stoiAll : List Str → Except Error (List Int)
  | [] => .ok []
  | s :: ss =>
    match stoi s with
    | .error e => .error e
    | .ok n =>
      match stoiAll ss with
      | .error e => .error e
      | .ok ns => .ok (n :: ns)

/-- The expression `m[i].matched && !m[i].str().empty() ? std::stoi(m[i].str()) : 0`. -/
def stoiOrZero (g : Option Str) : Except Error Int :=
  match g with
  | some d => if d ≠ [] then stoi d else .ok 0
  | none => .ok 0

/-- The block `if (match[1].matched) v.epoch = std::stoi(match[1].str());` (the default
of `epoch` is 0). -/
def parseEpoch (m : Caps) : Except Error Int :=
  match m 1 with
  | some e => stoi e
  | none => .ok 0

/-- The `std::getline` loop over `match[2].str()` that fills `release` (the string of a
group that did not take part is empty). -/
def parseRelease (m : Caps) : Except Error (List Int) :=
  stoiAll (getlines '.' ((m 2).getD []))

/-- The block `if (match[3].matched) ...` that fills `pre`. -/
def parsePre (m : Caps) : Except Error (Option (Str × Int)) :=
  match m 3 with
  | some l =>
    match stoiOrZero (m 4) with
    | .ok pre_n => .ok (some (normalize_pre_label l, pre_n))
    | .error e => .error e
  | none => .ok none

/-- The block `if (match[5].matched) ... else if (match[6].matched || match[7].matched) ...`
that fills `post`. -/
def parsePost (m : Caps) : Except Error (Option Int) :=
  match m 5 with
  | some p =>
    match stoi p with
    | .ok n => .ok (some n)
    | .error e => .error e
  | none =>
    if (m 6).isSome ∨ (m 7).isSome then
      match stoiOrZero (m 7) with
      | .ok post_n => .ok (some post_n)
      | .error e => .error e
    else .ok none

/-- The block `if (match[8].matched) ...` that fills `dev`. -/
def parseDev (m : Caps) : Except Error (Option Int) :=
  match m 8 with
  | some _ =>
    match stoiOrZero (m 9) with
    | .ok dev_n => .ok (some dev_n)
    | .error e => .error e
  | none => .ok none

/-- The body of `Version::parse` after a successful `std::regex_match`: the fields are
filled from the sub-matches, in the order of the source. -/
def Version.ofMatch (m : Caps) : Except Error Version :=
  match parseEpoch m with
  | .error e => .error e
  | .ok epoch =>
    match parseRelease m with
    | .error e => .error e
    | .ok release =>
      match parsePre m with
      | .error e => .error e
      | .ok pre =>
        match parsePost m with
        | .error e => .error e
        | .ok post =>
          match parseDev m with
          | .error e => .error e
          | .ok dev =>
            .ok { epoch := epoch, release := release, pre := pre, post := post, dev := dev,
                  local_ := m 10 }

/-- The model of `Version::parse`. -/
def Version.parse (input : Str) : Except Error Version :=
  match regex_match true VERSION_REGEX input with
  | none => .error (.VersionParseError ("invalid version: ".toList ++ input))
  | some m => Version.ofMatch m

/-- The release segments joined by dots, as the loop of `to_string` writes them. -/
def showRelease : List Int → Str
  | [] => []
  | [x] => showInt x
  | x :: xs => showInt x ++ '.' :: showRelease xs

/-- The statement `if (epoch != 0) ss << epoch << "!";`. -/
def showEpoch (e : Int) : Str := if e ≠ 0 then showInt e ++ ['!'] else []

/-- The statement `if (pre.has_value()) ss << pre->first << pre->second;`. -/
def showPre (o : Option (Str × Int)) : Str :=
  match o with
  | some (l, n) => l ++ showInt n
  | none => []

/-- The statement `if (post.has_value()) ss << ".post" << post.value();`. -/
def showPost (o : Option Int) : Str :=
  match o with
  | some n => '.' :: 'p' :: 'o' :: 's' :: 't' :: showInt n
  | none => []

/-- The statement `if (dev.has_value()) ss << ".dev" << dev.value();`. -/
def showDev (o : Option Int) : Str :=
  match o with
  | some n => '.' :: 'd' :: 'e' :: 'v' :: showInt n
  | none => []

/-- The statement `if (local.has_value()) ss << "+" << local.value();`. -/
def showLocal (o : Option Str) : Str :=
  match o with
  | some l => '+' :: l
  | none => []

/-- The model of `Version::to_string`. -/
def Version.to_string (v : Version) : Str :=
  showEpoch v.epoch ++ (showRelease v.release ++ (showPre v.pre ++ (showPost v.post ++
    (showDev v.dev ++ showLocal v.local_))))

/-- The model of `Version::operator==`. -/
def Version.opEq (a b : Version) : Bool :=
  decide (a.epoch = b.epoch) &&
  decide (normalize_release a.release = normalize_release b.release) &&
  decide (a.pre = b.pre) && decide (a.post = b.post) && decide (a.dev = b.dev)

/-- The model of `Version::operator!=`. -/
def Version.opNe (a b : Version) : Bool := !(a.opEq b)

/-- The model of `Version::strict_eq`. -/
def Version.strict_eq (a b : Version) : Bool :=
  decide (a.epoch = b.epoch) &&
  decide (normalize_release a.release = normalize_release b.release) &&
  decide (a.pre = b.pre) && decide (a.post = b.post) && decide (a.dev = b.dev) &&
  decide (a.local_ = b.local_)

/-- The model of `pre_release_rank`. -/
def pre_release_rank (label : Str) : Int :=
  if label = ['a'] ∨ label = ['a', 'l', 'p', 'h', 'a'] then 0
  else if label = ['b'] ∨ label = ['b', 'e', 't', 'a'] then 1
  else if label = ['r', 'c'] ∨ label = ['c'] ∨ label = ['p', 'r', 'e'] ∨
      label = ['p', 'r', 'e', 'v', 'i', 'e', 'w'] then 2
  else 3

/-- The model of `operator<` on `std::vector<int>` (`std::lexicographical_compare`). -/
def vecLt : List Int → List Int → Bool
  | _, [] => false
  | [], _ :: _ => true
  | a :: as, b :: bs => if a < b then true else if b < a then false else vecLt as bs

/-- The model of `Version::operator<`. -/
def Version.opLt (a b : Version) : Bool :=
  if a.epoch ≠ b.epoch then decide (a.epoch < b.epoch)
  else if a.release ≠ b.release then vecLt a.release b.release
  else if a.dev ≠ b.dev then
    match a.dev, b.dev with
    | none, _ => false
    | some _, none => true
    | some x, some y => decide (x < y)
  else if a.pre ≠ b.pre then
    match a.pre, b.pre with
    | none, _ => false
    | some _, none => true
    | some (l1, n1), some (l2, n2) =>
      if pre_release_rank l1 ≠ pre_release_rank l2 then
        decide (pre_release_rank l1 < pre_release_rank l2)
      else decide (n1 < n2)
  else if a.post ≠ b.post then
    match a.post, b.post with
    | none, _ => true
    | some _, none => false
    | some x, some y => decide (x < y)
  else false

/-- The model of `Version::operator>`. -/
def Version.opGt (a b : Version) : Bool := b.opLt a

/-- The model of `Version::operator<=`. -/
def Version.opLe (a b : Version) : Bool := !(b.opLt a)

/-- The model of `Version::operator>=`. -/
def Version.opGe (a b : Version) : Bool := !(a.opLt b)

/-! ## Range and RangeSet -/

/-- The model of `enum class Operator`. -/
inductive Operator where
  | Eq | NotEq | Lt | Lte | Gt | Gte | Compatible
  deriving DecidableEq, Repr

/-- The model of `struct Range`. -/
structure Range where
  op : Operator
  version : Version
  deriving DecidableEq, Repr

/-- The model of `struct RangeSet`. -/
structure RangeSet where
  specs : List Range := []
  deriving DecidableEq, Repr

/-- The model of `parse_op`. -/
def parse_op (o : Str) : Except Error Operator :=
  if o = ['=', '='] then .ok .Eq
  else if o = ['!', '='] then .ok .NotEq
  else if o = ['<', '='] then .ok .Lte
  else if o = ['>', '='] then .ok .Gte
  else if o = ['<'] then .ok .Lt
  else if o = ['>'] then .ok .Gt
  else if o = ['~', '='] then .ok .Compatible
  else .error .invalid_argument

/-- The test `trimmed.rfind(p, 0) == 0`: `p` is found at position 0. -/
def startsWith (s p : Str) : Bool := p.isPrefixOf s

/-- The operator text and the remainder that the `if` chain of `Range::parse` picks. -/
def splitOp (s trimmed : Str) : Except Error (Str × Str) :=
  if startsWith trimmed ['~', '='] then do
    let ver ← substr trimmed (some 2)
    pure (['~', '='], ver)
  else if startsWith trimmed ['>', '='] then do
    let ver ← substr trimmed (some 2)
    pure (['>', '='], ver)
  else if startsWith trimmed ['<', '='] then do
    let ver ← substr trimmed (some 2)
    pure (['<', '='], ver)
  else if startsWith trimmed ['!', '='] then do
    let ver ← substr trimmed (some 2)
    pure (['!', '='], ver)
  else if startsWith trimmed ['=', '='] then do
    let ver ← substr trimmed (some 2)
    pure (['=', '='], ver)
  else if startsWith trimmed ['>'] then do
    let ver ← substr trimmed (some 1)
    pure (['>'], ver)
  else if startsWith trimmed ['<'] then do
    let ver ← substr trimmed (some 1)
    pure (['<'], ver)
  else .error (.VersionParseError ("bad range: ".toList ++ s))

/-- The model of `Range::parse`. -/
def Range.parse (s : Str) : Except Error Range := do
  let pos := find_first_not_of s [' ', '\t']
  let trimmed ← substr s pos
  let (op, ver) ← splitOp s trimmed
  let o ← parse_op op
  let v ← Version.parse ver
  pure { op := o, version := v }

/-- The part of `Range::parse` after the trimming: the operator is recognised and the
remainder parsed (`s` is the whole input, for the error message). -/
def Range.parseTrimmed (s trimmed : Str) : Except Error Range := do
  let (op, ver) ← splitOp s trimmed
  let o ← parse_op op
  let v ← Version.parse ver
  pure { op := o, version := v }

/-- The model of `x++` on an `int`: at `INT_MAX` the increment overflows, which has no
defined behaviour. -/
def incr (x : Int) : Except Error Int :=
  if x < INT_MAX then .ok (x + 1) else .error .signed_overflow

/-- The statement `high.release.back()++` (for `i` the last index) or
`high.release[0]++` (for `i = 0`); outside the vector it has no defined behaviour. -/
def incrAt (r : List Int) (i : Nat) : Except Error (List Int) :=
  match r[i]? with
  | none => .error .out_of_bounds
  | some x =>
    match incr x with
    | .error e => .error e
    | .ok y => .ok (r.set i y)

/-- The model of `Range::matches`. -/
def Range.«matches» (r : Range) (v : Version) : Except Error Bool :=
  match r.op with
  | .Eq => .ok (v.opEq r.version)
  | .NotEq => .ok (v.opNe r.version)
  | .Lt => .ok (v.opLt r.version)
  | .Lte => .ok (v.opLe r.version)
  | .Gt => .ok (v.opGt r.version)
  | .Gte => .ok (v.opGe r.version)
  | .Compatible => do
    let rel := r.version.release
    let _pref ← Version.parse r.version.to_string
    let low := r.version
    let hrel ← if rel.length > 1 then incrAt rel (rel.length - 1) else incrAt rel 0
    let high := { r.version with release := hrel }
    pure (v.opGe low && v.opLt high)

/-- The model of `Range::to_string`. -/
def Range.to_string (r : Range) : Str :=
  (match r.op with
    | .Eq => ['=', '=']
    | .NotEq => ['!', '=']
    | .Lt => ['<']
    | .Lte => ['<', '=']
    | .Gt => ['>']
    | .Gte => ['>', '=']
    | .Compatible => ['~', '=']) ++ r.version.to_string

/-- The loop of `RangeSet::parse` over the pieces that `std::getline(ss, part, ',')`
yields: a piece with a character other than space and tab is parsed, the others are
skipped. -/
def RangeSet.parseParts : List Str → Except Error (List Range)
  | [] => .ok []
  | part :: parts =>
    if (find_first_not_of part [' ', '\t']).isSome then
      match Range.parse part with
      | .error e => .error e
      | .ok r =>
        match RangeSet.parseParts parts with
        | .error e => .error e
        | .ok rs => .ok (r :: rs)
    else RangeSet.parseParts parts

/-- The model of `RangeSet::parse`. -/
def RangeSet.parse (s : Str) : Except Error RangeSet :=
  match RangeSet.parseParts (getlines ',' s) with
  | .error e => .error e
  | .ok rs => .ok { specs := rs }

/-- The loop of `RangeSet::matches`: the first range that does not match ends it. -/
def RangeSet.matchesAll (v : Version) : List Range → Except Error Bool
  | [] => .ok true
  | r :: rs =>
    match Range.«matches» r v with
    | .error e => .error e
    | .ok false => .ok false
    | .ok true => RangeSet.matchesAll v rs

/-- The model of `RangeSet::matches`. -/
def RangeSet.«matches» (rs : RangeSet) (v : Version) : Except Error Bool :=
  RangeSet.matchesAll v rs.specs

/-- The ranges joined by commas, as the loop of `RangeSet::to_string` writes them. -/
def showRanges : List Range → Str
  | [] => []
  | [r] => r.to_string
  | r :: rs => r.to_string ++ ',' :: showRanges rs

/-- The model of `RangeSet::to_string`. -/
def RangeSet.to_string (rs : RangeSet) : Str := showRanges rs.specs

/-! ## Notions of the specification -/

/-- The release "after stripping trailing zeros", read from the front: a segment is kept
unless it is zero and nothing is kept behind it. -/
def stripTrailingZeros : List Int → List Int
  | [] => []
  | x :: xs => if x = 0 ∧ stripTrailingZeros xs = [] then [] else x :: stripTrailingZeros xs

/-- A space or a tab. -/
def isBlankChar (c : Char) : Bool := c == ' ' || c == '\t'

/-- Removal of the leading spaces and tabs. -/
def ltrim (s : Str) : Str := s.dropWhile isBlankChar

/-- Removal of the trailing spaces and tabs. -/
def rtrim (s : Str) : Str := (s.reverse.dropWhile isBlankChar).reverse

/-- Removal of the leading and trailing spaces and tabs. -/
def trim (s : Str) : Str := rtrim (ltrim s)

/-- The comma-separated pieces of `s` whose trim is non-empty, in input order. -/
def keptPieces (s : Str) : List Str :=
  (s.splitOn ',').filter fun p => decide (trim p ≠ [])

/-- The upper bound of a compatible-release range in the words of the specification:
the bound with its last release segment incremented by one when the release has more
than one segment, and with its only segment incremented by one otherwise. -/
def compatibleUpper (b : Version) : Version :=
  if b.release.length > 1 then
    { b with release := b.release.dropLast ++ (b.release.getLast?.map fun x => x + 1).toList }
  else
    { b with release := (b.release.head?.map fun x => x + 1).toList }

/-- A pre-release label in normal form: one of `a`, `b`, `rc`. -/
def isNormalLabel (l : Str) : Prop := l = ['a'] ∨ l = ['b'] ∨ l = ['r', 'c']

/-- The first (best) way `re` matches at `input` takes `taken`, leaves `rest` and records
`caps'`. -/
def First (ic : Bool) (w : Str) (re : Regex) (input : Str) (caps : Caps)
    (taken rest : Str) (caps' : Caps) : Prop :=
  ∃ tl, matchR ic w re input caps = ⟨taken, rest, caps'⟩ :: tl

/-- The sub-matches after group `i` has captured `o`, or has not taken part (`none`). -/
def setOpt (c : Caps) (i : Nat) (o : Option Str) : Caps :=
  match o with
  | some x => setCap c i x
  | none => c

/-- A run of decimal digits (possibly empty). -/
def allDigits (ds : Str) : Prop := ∀ c ∈ ds, c.isDigit = true

/-- Segments written one after the other, each behind its separator character. -/
def joinTail : List (Char × Str) → Str
  | [] => []
  | (x, s) :: ss => x :: s ++ joinTail ss

/-- Every segment has a separator satisfying `ps` and a non-empty body of characters
satisfying `pa`. -/
def Segs (ps pa : Char → Bool) (segs : List (Char × Str)) : Prop :=
  ∀ p ∈ segs, ps p.1 = true ∧ p.2 ≠ [] ∧ ∀ c ∈ p.2, pa c = true

/-- The characters that `[-_\.]` accepts. -/
def isSepChar (x : Char) : Bool :=
  [ClassItem.single '-', .single '_', .single '.'].any fun it => itemOk true it x

/-- The characters that `[a-z0-9]` accepts under `icase`. -/
def isAlnumChar (x : Char) : Bool :=
  [ClassItem.range 'a' 'z', .range '0' '9'].any fun it => itemOk true it x

/-- The strings that `\d+(?:\.\d+)*` takes: non-empty runs of digits joined by dots. -/
def RelShape (r : Str) : Prop :=
  ∃ d0 segs, r = d0 ++ joinTail segs ∧ d0 ≠ [] ∧ allDigits d0 ∧
    Segs (fun x => x == '.') Char.isDigit segs

/-- The strings that `[a-z0-9]+(?:[-_\.][a-z0-9]+)*` takes: non-empty runs of letters and
digits joined by single separators. -/
def LocalShape (l : Str) : Prop :=
  ∃ s0 segs, l = s0 ++ joinTail segs ∧ s0 ≠ [] ∧ (∀ c ∈ s0, isAlnumChar c = true) ∧
    Segs isSepChar isAlnumChar segs

/-- What can follow the dev part of a display form: nothing, or the local part. -/
def TailL (T : Str) : Prop := T = [] ∨ ∃ l, T = '+' :: l

/-- What can follow the post part of a display form: also a dev part. -/
def TailD (T : Str) : Prop := TailL T ∨ ∃ r, T = '.' :: 'd' :: 'e' :: 'v' :: r

/-- What can follow the pre-release part of a display form: also a post part. -/
def TailQ (T : Str) : Prop := TailD T ∨ ∃ r, T = '.' :: 'p' :: 'o' :: 's' :: 't' :: r

/-- What can follow the release of a display form: also a pre-release part. -/
def TailP (T : Str) : Prop :=
  TailQ T ∨ ∃ r, T = 'a' :: r ∨ T = 'b' :: r ∨ T = 'r' :: 'c' :: r

/-- What the sub-matches of a match of `VERSION_REGEX` look like: group 1 is a non-empty
run of digits, group 2 a release, group 3 a spelling of a pre-release label together with
the digits of group 4, group 5 a non-empty run of digits or group 6 together with the
digits of group 7, group 8 together with the digits of group 9, group 10 a local part. -/
def CapsShape (m : Caps) : Prop :=
  (∀ e, m 1 = some e → e ≠ [] ∧ allDigits e) ∧
  (∃ r, m 2 = some r ∧ RelShape r) ∧
  ((m 3 = none ∧ m 4 = none) ∨
    ∃ l d, m 3 = some l ∧ m 4 = some d ∧ isNormalLabel (normalize_pre_label l) ∧
      allDigits d) ∧
  ((m 5 = none ∧ m 6 = none ∧ m 7 = none) ∨ (∃ p, m 5 = some p ∧ p ≠ [] ∧ allDigits p) ∨
    ∃ k d, m 5 = none ∧ m 6 = some k ∧ m 7 = some d ∧ allDigits d) ∧
  ((m 8 = none ∧ m 9 = none) ∨ ∃ k d, m 8 = some k ∧ m 9 = some d ∧ allDigits d) ∧
  (∀ l, m 10 = some l → LocalShape l)

/-- The sub-matches that the match of the display form of `v` records. -/
def displayCaps (v : Version) : Caps :=
  setOpt (setOpt (setOpt (setOpt (setOpt (setOpt (setOpt (setCap
    (setOpt (fun _ => none) 1 (if v.epoch ≠ 0 then some (showInt v.epoch) else none))
    2 (showRelease v.release))
    3 (v.pre.map Prod.fst)) 4 (v.pre.map fun x => showInt x.2))
    6 (v.post.map fun _ => ['p', 'o', 's', 't'])) 7 (v.post.map showInt))
    8 (v.dev.map fun _ => ['d', 'e', 'v'])) 9 (v.dev.map showInt)) 10 v.local_

/-- What `Version::parse` establishes: the numbers are `int`s that are not negative, the
release is not empty, the pre-release label is in normal form and the local part has the
shape of the grammar. -/
def Version.wellFormed (v : Version) : Prop :=
  (0 ≤ v.epoch ∧ v.epoch ≤ INT_MAX) ∧
  (v.release ≠ [] ∧ ∀ x ∈ v.release, 0 ≤ x ∧ x ≤ INT_MAX) ∧
  (∀ l n, v.pre = some (l, n) → isNormalLabel l ∧ 0 ≤ n ∧ n ≤ INT_MAX) ∧
  (∀ n, v.post = some n → 0 ≤ n ∧ n ≤ INT_MAX) ∧
  (∀ n, v.dev = some n → 0 ≤ n ∧ n ≤ INT_MAX) ∧
  (∀ l, v.local_ = some l → LocalShape l)

/-! ## Vocabulary of the proofs about the ordering -/

/-- The comparison of the `dev` fields in `operator<`, once they differ. -/
def devLt (x y : Option Int) : Bool :=
  match x, y with
  | none, _ => false
  | some _, none => true
  | some x, some y => decide (x < y)

/-- The comparison of the `pre` fields in `operator<`, once they differ. -/
def preLt (x y : Option (Str × Int)) : Bool :=
  match x, y with
  | none, _ => false
  | some _, none => true
  | some (l1, n1), some (l2, n2) =>
    if pre_release_rank l1 ≠ pre_release_rank l2 then
      decide (pre_release_rank l1 < pre_release_rank l2)
    else decide (n1 < n2)

/-- The comparison of the `post` fields in `operator<`, once they differ. -/
def postLt (x y : Option Int) : Bool :=
  match x, y with
  | none, _ => true
  | some _, none => false
  | some x, some y => decide (x < y)

/-! ## Notions of the specification: operator symbols, canonical versions, spellings -/

/-- The symbol that denotes an operator. -/
def opSymbol : Operator → Str
  | .Eq => ['=', '=']
  | .NotEq => ['!', '=']
  | .Lt => ['<']
  | .Lte => ['<', '=']
  | .Gt => ['>']
  | .Gte => ['>', '=']
  | .Compatible => ['~', '=']

/-- A number is a value of the type `int`. -/
def isIntValue (x : Int) : Prop := INT_MIN ≤ x ∧ x ≤ INT_MAX

/-- The numbers of a version are values of the type `int`, as the fields of the C++
structure are. -/
def Version.isInt (v : Version) : Prop :=
  isIntValue v.epoch ∧ (∀ x ∈ v.release, isIntValue x) ∧
  (∀ l n, v.pre = some (l, n) → isIntValue n) ∧ (∀ n, v.post = some n → isIntValue n) ∧
  (∀ n, v.dev = some n → isIntValue n)

/-- A local part in the words of the specification: non-empty alphanumeric segments joined
by single `-`, `_` or `.`. -/
def isLocalString (l : Str) : Prop :=
  ∃ s0 segs, l = s0 ++ joinTail segs ∧ s0 ≠ [] ∧ (∀ c ∈ s0, c.isAlphanum = true) ∧
    ∀ p ∈ segs, (p.1 = '-' ∨ p.1 = '_' ∨ p.1 = '.') ∧ p.2 ≠ [] ∧ ∀ c ∈ p.2, c.isAlphanum = true

/-- The versions whose display form is canonical, in the words of the specification: no
number is negative, the release is not empty, the pre-release label is `a`, `b` or `rc`,
and the local part is a local string. -/
def Version.canonical (v : Version) : Prop :=
  0 ≤ v.epoch ∧ v.release ≠ [] ∧ (∀ x ∈ v.release, 0 ≤ x) ∧
  (∀ l n, v.pre = some (l, n) → (l = ['a'] ∨ l = ['b'] ∨ l = ['r', 'c']) ∧ 0 ≤ n) ∧
  (∀ n, v.post = some n → 0 ≤ n) ∧ (∀ n, v.dev = some n → 0 ≤ n) ∧
  (∀ l, v.local_ = some l → isLocalString l)

/-- The string `L` spells the lower-case word `base` in some mix of upper and lower case. -/
def spells (L base : Str) : Prop := L.map Char.toLower = base

/-- The pre-release labels of the grammar, each with its normal form. -/
def preAliases : List (Str × Str) :=
  [(['a'], ['a']), (['a', 'l', 'p', 'h', 'a'], ['a']), (['b'], ['b']),
   (['b', 'e', 't', 'a'], ['b']), (['c'], ['r', 'c']), (['r', 'c'], ['r', 'c']),
   (['p', 'r', 'e'], ['r', 'c']), (['p', 'r', 'e', 'v', 'i', 'e', 'w'], ['r', 'c'])]

/-! ## Vocabulary of the proofs about strings with a release in front -/

/-- What `Version::parse` returns for a match whose group 2 is `R`, whose group 1 did not
take part and whose other groups give `p`, `q` and `d`: the release is read from `R`. -/
def withRelease (R : Str) (p : Option (Str × Int)) (q d : Option Int) : Except Error Version :=
  match stoiAll (getlines '.' R) with
  | .error e => .error e
  | .ok rel => .ok { epoch := 0, release := rel, pre := p, post := q, dev := d, local_ := none }

/-- The thread `t` is the first thread of `l` that the rest of the pattern can complete:
the threads before it leave an input on which the rest of the pattern is dead (`D`). -/
def FirstLive (D : Str → Prop) (l : List Thread) (t : Thread) : Prop :=
  ∃ l1 l2, l = l1 ++ t :: l2 ∧ ∀ x ∈ l1, D x.rest

/-- An input on which the optional separator, the digits and the rest of the pattern fail
after a pre-release label: it starts with one of the letters `l`, `e`, `v` (in either case),
the letters that follow a label that is the beginning of a longer label. -/
def BadHead (Y : Str) : Prop :=
  ∃ y ys, Y = y :: ys ∧ (y.toLower = 'l' ∨ y.toLower = 'e' ∨ y.toLower = 'v')

/-! ## Release normalisation -/

theorem dropWhile_zero_replicate (k : Nat) (l : List Int) :
    (List.replicate k (0 : Int) ++ l).dropWhile (fun x => x == 0) = l.dropWhile fun x => x == 0 := by
  induction k with
  | zero => simp
  | succ k ih => simp [List.replicate_succ, List.dropWhile_cons, ih]

theorem normalize_release_append_zeros (p : List Int) (k : Nat) :
    normalize_release (p ++ List.replicate k 0) = normalize_release p := by
  simp [normalize_release, List.reverse_append, dropWhile_zero_replicate]

theorem takeWhile_zero_eq_replicate (l : List Int) :
    l.takeWhile (fun x => x == 0) = List.replicate (l.takeWhile fun x => x == 0).length 0 := by
  rw [List.eq_replicate_iff]
  refine ⟨rfl, fun x hx => ?_⟩
  simpa using List.mem_takeWhile_imp hx

theorem normalize_release_decomp (r : List Int) :
    ∃ k, r = normalize_release r ++ List.replicate k 0 := by
  refine ⟨(r.reverse.takeWhile fun x => x == 0).length, ?_⟩
  have h := List.takeWhile_append_dropWhile (fun x : Int => x == 0) r.reverse
  have h2 := congrArg List.reverse h
  rw [List.reverse_append, List.reverse_reverse, takeWhile_zero_eq_replicate] at h2
  simpa [normalize_release] using h2.symm

theorem stripTrailingZeros_append_zeros (p : List Int) (k : Nat) :
    stripTrailingZeros (p ++ List.replicate k 0) = stripTrailingZeros p := by
  induction p with
  | nil =>
    induction k with
    | zero => simp [stripTrailingZeros]
    | succ k ih => 
      simp only [List.nil_append] at ih
      simp [List.replicate_succ, stripTrailingZeros, ih]
  | cons x xs ih => simp [stripTrailingZeros, ih]

theorem stripTrailingZeros_concat (p : List Int) (x : Int) (hx : x ≠ 0) :
    stripTrailingZeros (p ++ [x]) = p ++ [x] := by
  induction p with
  | nil => simp [stripTrailingZeros, hx]
  | cons y ys ih => simp [stripTrailingZeros, ih]

theorem normalize_release_concat (p : List Int) (x : Int) (hx : x ≠ 0) :
    normalize_release (p ++ [x]) = p ++ [x] := by
  simp [normalize_release, List.dropWhile_cons, hx]

theorem normalize_release_fixed (r : List Int) :
    stripTrailingZeros (normalize_release r) = normalize_release r := by
  rcases List.eq_nil_or_concat (normalize_release r) with h | ⟨p, x, h⟩
  · rw [h]; rfl
  · have hx : x ≠ 0 := by
      intro h0
      have : (normalize_release r).reverse = x :: p.reverse := by rw [h]; simp
      simp only [normalize_release, List.reverse_reverse] at this
      have hm := List.head_dropWhile_not (fun x : Int => x == 0) r.reverse
      simp [this, h0] at hm
    rw [h, List.concat_eq_append] 
    exact stripTrailingZeros_concat p x hx

/-- The loop of `normalize_release` computes the release without its trailing zeros. -/
theorem normalize_release_eq_strip (r : List Int) :
    normalize_release r = stripTrailingZeros r := by
  obtain ⟨k, hk⟩ := normalize_release_decomp r
  conv_rhs => rw [hk, stripTrailingZeros_append_zeros, normalize_release_fixed]

/-! ## Equality and ordering -/

theorem opEq_iff (a b : Version) :
    a.opEq b = true ↔
      a.epoch = b.epoch ∧ stripTrailingZeros a.release = stripTrailingZeros b.release ∧
        a.pre = b.pre ∧ a.post = b.post ∧ a.dev = b.dev := by
  simp [Version.opEq, normalize_release_eq_strip, and_assoc]

/-- C7. `operator==` holds exactly when the epochs agree, the releases agree after
stripping trailing zeros, and `pre`, `post` and `dev` agree; the field `local` has no
influence, and the four example pairs of the claim are equal. -/
theorem C7_equality_definition (a b : Version) :
    (a.opEq b = true ↔
      a.epoch = b.epoch ∧ stripTrailingZeros a.release = stripTrailingZeros b.release ∧
        a.pre = b.pre ∧ a.post = b.post ∧ a.dev = b.dev) ∧
    (∀ l l' : Option Str,
      Version.opEq { a with local_ := l } { b with local_ := l' } = a.opEq b) ∧
    (∃ v1 v2 v3 x y,
      Version.parse "1.0".toList = .ok v1 ∧ Version.parse "1.0.0".toList = .ok v2 ∧
      Version.parse "1.0.0.0".toList = .ok v3 ∧ Version.parse "1.0+abc".toList = .ok x ∧
      Version.parse "1.0+xyz".toList = .ok y ∧ v1.opEq v2 = true ∧ v2.opEq v3 = true ∧
      v1.opEq v3 = true ∧ x.opEq y = true ∧ x.local_ ≠ y.local_) := by
  refine ⟨opEq_iff a b, fun l l' => rfl, ?_⟩
  exact ⟨{ release := [1, 0] }, { release := [1, 0, 0] }, { release := [1, 0, 0, 0] },
    { release := [1, 0], local_ := some "abc".toList },
    { release := [1, 0], local_ := some "xyz".toList }, by decide⟩

/-- C2 (the code at the failing input). `1.0` and `1.0.0` are equal under `operator==`
and yet `1.0 < 1.0.0` holds: `operator<` compares the releases as parsed. -/
theorem C2_trailing_zero_tie :
    Version.parse "1.0".toList = .ok { release := [1, 0] } ∧
    Version.parse "1.0.0".toList = .ok { release := [1, 0, 0] } ∧
    Version.opLt { release := [1, 0] } { release := [1, 0, 0] } = true ∧
    Version.opEq { release := [1, 0] } { release := [1, 0, 0] } = true := by
  decide

/-- C3 (the code at the failing input). Appending one zero segment to the right operand
turns `1.0 < 1.0` (false) into `1.0 < 1.0.0` (true). -/
theorem C3_appended_zero_changes_order :
    Version.opLt { release := [1, 0] } { release := [1, 0] } = false ∧
    Version.opLt { release := [1, 0] } { release := [1, 0] ++ [0] } = true ∧
    Version.opLt { release := [1, 0] ++ [0] } { release := [1, 0] } = false := by
  decide

/-- C6 (the code at the failing inputs). `~=2.2` does not match `2.5` although
`2.2 <= 2.5 < 3.0`, and `~=2.2.1` does not match `2.2.5` although `2.2.1 <= 2.2.5 < 2.3.0`:
the upper bounds the code uses are `2.3` and `2.2.2`. -/
theorem C6_compatible_upper_bound :
    Range.parse "~=2.2".toList = .ok ⟨.Compatible, { release := [2, 2] }⟩ ∧
    Version.parse "2.5".toList = .ok { release := [2, 5] } ∧
    Version.parse "3.0".toList = .ok { release := [3, 0] } ∧
    Range.«matches» ⟨.Compatible, { release := [2, 2] }⟩ { release := [2, 5] } = .ok false ∧
    Version.opLe { release := [2, 2] } { release := [2, 5] } = true ∧
    Version.opLt { release := [2, 5] } { release := [3, 0] } = true ∧
    Range.parse "~=2.2.1".toList = .ok ⟨.Compatible, { release := [2, 2, 1] }⟩ ∧
    Version.parse "2.2.5".toList = .ok { release := [2, 2, 5] } ∧
    Version.parse "2.3.0".toList = .ok { release := [2, 3, 0] } ∧
    Range.«matches» ⟨.Compatible, { release := [2, 2, 1] }⟩ { release := [2, 2, 5] } =
      .ok false ∧
    Version.opLe { release := [2, 2, 1] } { release := [2, 2, 5] } = true ∧
    Version.opLt { release := [2, 2, 5] } { release := [2, 3, 0] } = true := by
  decide

/-! ## Properties of the ordering -/

theorem vecLt_irrefl (a : List Int) : vecLt a a = false := by
  induction a with
  | nil => rfl
  | cons x xs ih => simp [vecLt, ih]

theorem vecLt_asymm : ∀ a b : List Int, vecLt a b = true → vecLt b a = false
  | _, [], h => by simp [vecLt] at h
  | [], _ :: _, _ => by simp [vecLt]
  | x :: xs, y :: ys, h => by
    simp only [vecLt] at h ⊢
    rcases lt_trichotomy x y with hxy | hxy | hxy
    · rw [if_neg (by omega), if_pos hxy]
    · subst hxy
      simp only [lt_self_iff_false, if_false] at h ⊢
      exact vecLt_asymm xs ys h
    · rw [if_neg (by omega), if_pos hxy] at h
      exact absurd h (by simp)

theorem vecLt_total : ∀ a b : List Int, a ≠ b → vecLt a b = true ∨ vecLt b a = true
  | [], [], h => absurd rfl h
  | [], _ :: _, _ => by simp [vecLt]
  | _ :: _, [], _ => by simp [vecLt]
  | x :: xs, y :: ys, h => by
    simp only [vecLt]
    rcases lt_trichotomy x y with hxy | hxy | hxy
    · left; rw [if_pos hxy]
    · subst hxy
      simp only [lt_self_iff_false, if_false]
      exact vecLt_total xs ys (fun e => h (by rw [e]))
    · right; rw [if_pos hxy]

/-- The comparison of two `dev` fields in `operator<`. -/
theorem opLt_eq (a b : Version) :
    a.opLt b =
      if a.epoch ≠ b.epoch then decide (a.epoch < b.epoch)
      else if a.release ≠ b.release then vecLt a.release b.release
      else if a.dev ≠ b.dev then
        match a.dev, b.dev with
        | none, _ => false
        | some _, none => true
        | some x, some y => decide (x < y)
      else if a.pre ≠ b.pre then
        match a.pre, b.pre with
        | none, _ => false
        | some _, none => true
        | some (l1, n1), some (l2, n2) =>
          if pre_release_rank l1 ≠ pre_release_rank l2 then
            decide (pre_release_rank l1 < pre_release_rank l2)
          else decide (n1 < n2)
      else if a.post ≠ b.post then
        match a.post, b.post with
        | none, _ => true
        | some _, none => false
        | some x, some y => decide (x < y)
      else false := rfl

theorem opLt_asymm (a b : Version) (h : a.opLt b = true) : b.opLt a = false := by
  obtain ⟨ae, ar, ap, ao, ad, al⟩ := a
  obtain ⟨be, br, bp, bo, bd, bl⟩ := b
  rw [opLt_eq] at h ⊢
  dsimp only at h ⊢
  by_cases he : ae = be
  swap
  · rw [if_pos he] at h
    rw [if_pos (fun e => he e.symm)]
    simp only [decide_eq_true_eq, decide_eq_false_iff_not] at h ⊢; omega
  rw [if_neg (not_not.mpr he)] at h
  rw [if_neg (not_not.mpr he.symm)]
  by_cases hr : ar = br
  swap
  · rw [if_pos hr] at h
    rw [if_pos (fun e => hr e.symm)]
    exact vecLt_asymm _ _ h
  rw [if_neg (not_not.mpr hr)] at h
  rw [if_neg (not_not.mpr hr.symm)]
  by_cases hd : ad = bd
  swap
  · rw [if_pos hd] at h
    rw [if_pos (fun e => hd e.symm)]
    cases ad <;> cases bd <;> simp at h hd ⊢ <;> omega
  rw [if_neg (not_not.mpr hd)] at h
  rw [if_neg (not_not.mpr hd.symm)]
  by_cases hp : ap = bp
  swap
  · rw [if_pos hp] at h
    rw [if_pos (fun e => hp e.symm)]
    rcases ap with _ | ⟨l1, n1⟩ <;> rcases bp with _ | ⟨l2, n2⟩ <;> simp at h hp ⊢
    by_cases hk : pre_release_rank l1 = pre_release_rank l2
    · rw [if_pos hk] at h
      rw [if_pos hk.symm]
      omega
    · rw [if_neg hk] at h
      rw [if_neg (fun e => hk e.symm)]
      omega
  rw [if_neg (not_not.mpr hp)] at h
  rw [if_neg (not_not.mpr hp.symm)]
  by_cases ho : ao = bo
  swap
  · rw [if_pos ho] at h
    rw [if_pos (fun e => ho e.symm)]
    cases ao <;> cases bo <;> simp at h ho ⊢ <;> omega
  rw [if_neg (not_not.mpr ho)] at h
  exact absurd h (by simp)

/-- Two versions that are `==` and yet differ in their releases as written are ordered by
`operator<` in one direction, so that one of `<=` and `>=` does not match: these are the
pairs on which the missing normalisation in `operator<` shows. -/
theorem opEq_release_ne (a b : Version) (h : a.opEq b = true) (hne : a.release ≠ b.release) :
    a.opLt b = true ∨ b.opLt a = true := by
  obtain ⟨he, _, _, _, _⟩ := (opEq_iff a b).mp h
  rw [opLt_eq, opLt_eq, if_neg (not_not.mpr he), if_neg (not_not.mpr he.symm), if_pos hne,
    if_pos (fun e => hne e.symm)]
  exact vecLt_total _ _ hne

theorem incr_of_int (x : Int) (_ : INT_MIN ≤ x) (h2 : x < INT_MAX) :
    incr x = .ok (x + 1) := by
  unfold incr
  rw [if_pos h2]

/-- The release that `high.release.back()++` builds. -/
theorem incrAt_last (init : List Int) (x : Int) (h1 : INT_MIN ≤ x) (h2 : x < INT_MAX) :
    incrAt (init ++ [x]) ((init ++ [x]).length - 1) = .ok (init ++ [x + 1]) := by
  have hlen : (init ++ [x]).length - 1 = init.length := by simp
  rw [hlen]
  unfold incrAt
  simp [incr_of_int x h1 h2]

/-- The release that `high.release[0]++` builds when there is one segment. -/
theorem incrAt_zero (init : List Int) (x : Int) (h1 : INT_MIN ≤ x) (h2 : x < INT_MAX)
    (hl : ¬ (init ++ [x]).length > 1) :
    incrAt (init ++ [x]) 0 = .ok (init ++ [x + 1]) := by
  have hi : init = [] := by
    cases init with
    | nil => rfl
    | cons y ys => simp at hl
  subst hi
  exact incrAt_last [] x h1 h2

theorem compatibleUpper_append (b : Version) (init : List Int) (x : Int)
    (h : b.release = init ++ [x]) :
    compatibleUpper b = { b with release := init ++ [x + 1] } := by
  unfold compatibleUpper
  by_cases hl : b.release.length > 1
  · rw [if_pos hl]
    simp [h]
  · rw [if_neg hl]
    have hi : init = [] := by
      cases init with
      | nil => rfl
      | cons y ys => simp [h] at hl
    subst hi
    simp [h]

/-- C5 (the claim fails). The bound `1x0` (a label that the grammar does not know) has a
non-empty release, satisfies `v >= b` and `v < u` for `v = b`, and the match throws
`VersionParseError` from the re-parse of its display form. The bound `2147483647`
overflows on the increment: the match has no defined result where `v >= b` and `v < u`
hold. -/
theorem C5_counterexample :
    (Range.«matches» ⟨.Compatible, { release := [1], pre := some (['x'], 0) }⟩
        { release := [1], pre := some (['x'], 0) } =
        .error (.VersionParseError "invalid version: 1x0".toList) ∧
      Version.opGe { release := [1], pre := some (['x'], 0) }
        { release := [1], pre := some (['x'], 0) } = true ∧
      Version.opLt { release := [1], pre := some (['x'], 0) }
        (compatibleUpper { release := [1], pre := some (['x'], 0) }) = true) ∧
    (Range.«matches» ⟨.Compatible, { release := [2147483647] }⟩ { release := [2147483647] } =
        .error .signed_overflow ∧
      Version.opGe { release := [2147483647] } { release := [2147483647] } = true ∧
      Version.opLt { release := [2147483647] }
        (compatibleUpper { release := [2147483647] }) = true) := by
  decide

/-- C5 (amended). For a `~=` range whose bound `b` has a non-empty release, has a display
form that `Version::parse` accepts (as every parsed bound has), and has a last release
segment that is an `int` below `INT_MAX`: the match returns, and it matches `v` iff
`v >= b` and `v < u`, where `u` is `b` with its last release segment incremented by one
when the release has more than one segment and with its only segment incremented by one
otherwise. -/
theorem C5_compatible_release (b v b' : Version) (hne : b.release ≠ [])
    (hparse : Version.parse b.to_string = .ok b')
    (hint : ∀ x, b.release.getLast? = some x → INT_MIN ≤ x ∧ x < INT_MAX) :
    (∃ r, Range.«matches» ⟨.Compatible, b⟩ v = .ok r) ∧
    (Range.«matches» ⟨.Compatible, b⟩ v = .ok true ↔
      (v.opGe b = true ∧ v.opLt (compatibleUpper b) = true)) := by
  obtain ⟨init, x, hx⟩ : ∃ init x, b.release = init ++ [x] := by
    rcases List.eq_nil_or_concat b.release with h | ⟨p, x, h⟩
    · exact absurd h hne
    · exact ⟨p, x, by rw [h, List.concat_eq_append]⟩
  obtain ⟨h1, h2⟩ := hint x (by rw [hx]; simp)
  have hm : Range.«matches» ⟨.Compatible, b⟩ v =
      .ok (v.opGe b && v.opLt (compatibleUpper b)) := by
    rw [compatibleUpper_append b init x hx]
    simp only [Range.«matches», hparse, hx]
    by_cases hl : (init ++ [x]).length > 1
    · rw [if_pos hl, incrAt_last init x h1 h2]; rfl
    · rw [if_neg hl, incrAt_zero init x h1 h2 hl]; rfl
  rw [hm]
  exact ⟨⟨_, rfl⟩, by simp⟩

/-- C5 (amended), at `~=2.2` and the version `2.2.9`. -/
theorem C5_compatible_release_witness :
    (∃ r, Range.«matches» ⟨.Compatible, { release := [2, 2] }⟩ { release := [2, 2, 9] } =
      .ok r) ∧
    (Range.«matches» ⟨.Compatible, { release := [2, 2] }⟩ { release := [2, 2, 9] } = .ok true ↔
      (Version.opGe { release := [2, 2, 9] } { release := [2, 2] } = true ∧
        Version.opLt { release := [2, 2, 9] } (compatibleUpper { release := [2, 2] }) = true)) :=
  C5_compatible_release { release := [2, 2] } { release := [2, 2, 9] } { release := [2, 2] }
    (by decide) (by decide) (by decide)

/-! ## Parsing of range sets -/

theorem notBlank_eq (c : Char) : (!([' ', '\t'] : Str).contains c) = !isBlankChar c := by
  cases h1 : c == ' ' <;> cases h2 : c == '\t' <;>
    simp [isBlankChar, List.contains, List.elem, h1, h2]

theorem find_first_not_of_blank (p : Str) :
    find_first_not_of p [' ', '\t'] =
      if p.findIdx (fun c => !isBlankChar c) < p.length then
        some (p.findIdx fun c => !isBlankChar c) else none := by
  simp only [find_first_not_of, notBlank_eq]

theorem drop_findIdx_not (q : Char → Bool) (p : Str) :
    p.drop (p.findIdx fun c => !q c) = p.dropWhile q := by
  induction p with
  | nil => rfl
  | cons c cs ih =>
    cases h : q c <;> simp [List.findIdx_cons, List.dropWhile_cons, h, ih]

theorem findIdx_not_lt_iff (q : Char → Bool) (p : Str) :
    p.findIdx (fun c => !q c) < p.length ↔ p.dropWhile q ≠ [] := by
  rw [List.findIdx_lt_length, ne_eq, List.dropWhile_eq_nil_iff]
  simp

/-- A piece has a character other than space and tab exactly when its trim is not empty. -/
theorem nonblank_iff_trim (p : Str) :
    (find_first_not_of p [' ', '\t']).isSome = decide (trim p ≠ []) := by
  rw [find_first_not_of_blank]
  have h1 := findIdx_not_lt_iff isBlankChar p
  have h2 : trim p ≠ [] ↔ ltrim p ≠ [] := by
    unfold trim rtrim
    rw [ne_eq, ne_eq, List.reverse_eq_nil_iff, List.dropWhile_eq_nil_iff]
    constructor
    · intro h e; apply h; rw [e]; simp
    · intro h e
      apply h
      rcases hl : ltrim p with _ | ⟨c, cs⟩
      · rfl
      · have hc := e c (by rw [hl]; simp)
        have := List.head_dropWhile_not isBlankChar p (by unfold ltrim at hl; rw [hl]; simp)
        unfold ltrim at hl
        simp [hl] at this
        rw [this] at hc; exact absurd hc (by simp)
  by_cases h : p.findIdx (fun c => !isBlankChar c) < p.length
  · rw [if_pos h]
    have := h2.mpr (h1.mp h)
    simp [this]
  · rw [if_neg h]
    have : ¬ trim p ≠ [] := fun e => h (h1.mpr (h2.mp e))
    simp at this
    simp [this]

theorem getlineAux_filter (q : Str → Bool) (hq : q [] = false) (s : Str) :
    ∀ acc : Str, (getlineAux ',' acc.reverse s).filter q =
      (List.splitOnP.go (fun c => c == ',') s acc).filter q := by
  induction s with
  | nil =>
    intro acc
    simp only [getlineAux, List.splitOnP.go]
    by_cases h : acc.reverse = []
    · rw [if_pos h, h]; simp [hq]
    · rw [if_neg h]
  | cons c cs ih =>
    intro acc
    simp only [getlineAux, List.splitOnP.go]
    by_cases h : c = ','
    · subst h
      have := ih []
      simp only [List.reverse_nil] at this
      simp [List.filter_cons, this]
    · have h' : (c == ',') = false := by simpa using h
      rw [if_neg h, if_neg (by simp [h'])]
      have := ih (c :: acc)
      simp only [List.reverse_cons] at this
      exact this

/-- The pieces that the `std::getline` loop keeps are the comma-separated pieces whose
trim is not empty. -/
theorem getlines_kept (s : Str) :
    (getlines ',' s).filter (fun p => (find_first_not_of p [' ', '\t']).isSome) =
      keptPieces s := by
  have h := getlineAux_filter (fun p => decide (trim p ≠ [])) (by decide) s []
  simp only [List.reverse_nil] at h
  simp only [nonblank_iff_trim]
  exact h


theorem Range.parse_eq (s : Str) :
    Range.parse s =
      match substr s (find_first_not_of s [' ', '\t']) with
      | .ok trimmed => Range.parseTrimmed s trimmed
      | .error e => .error e := by
  simp only [Range.parse, Range.parseTrimmed]
  cases substr s (find_first_not_of s [' ', '\t']) <;> rfl

/-- `Range::parse` drops the leading spaces and tabs of a piece that has another character. -/
theorem Range.parse_nonblank (p : Str) (h : (find_first_not_of p [' ', '\t']).isSome = true) :
    Range.parse p = Range.parseTrimmed p (ltrim p) := by
  rw [Range.parse_eq]
  rw [find_first_not_of_blank] at h ⊢
  by_cases hl : p.findIdx (fun c => !isBlankChar c) < p.length
  · rw [if_pos hl]
    simp only [substr]
    rw [if_neg (by omega), drop_findIdx_not]
    rfl
  · rw [if_neg hl] at h; exact absurd h (by simp)

theorem ltrim_ltrim (p : Str) : ltrim (ltrim p) = ltrim p := by
  unfold ltrim
  rcases h : p.dropWhile isBlankChar with _ | ⟨c, cs⟩
  · rfl
  · have := List.head_dropWhile_not isBlankChar p (by rw [h]; simp)
    simp [h] at this
    simp [List.dropWhile_cons, this]

theorem splitOp_ok_iff (s s' t : Str) (x : Str × Str) :
    splitOp s t = .ok x ↔ splitOp s' t = .ok x := by
  unfold splitOp
  split_ifs <;> simp

theorem Range.parseTrimmed_ok_iff (s s' t : Str) (r : Range) :
    Range.parseTrimmed s t = .ok r ↔ Range.parseTrimmed s' t = .ok r := by
  unfold Range.parseTrimmed
  have h := splitOp_ok_iff s s' t
  cases h1 : splitOp s t with
  | ok x =>
    rw [(h x).mp h1]
  | error e =>
    cases h2 : splitOp s' t with
    | ok y => rw [(h y).mpr h2] at h1; cases h1
    | error e' => simp [bind, Except.bind]

theorem Range.parse_ltrim (p : Str) (r : Range)
    (h : (find_first_not_of p [' ', '\t']).isSome = true) :
    Range.parse p = .ok r ↔ Range.parse (ltrim p) = .ok r := by
  have h' : (find_first_not_of (ltrim p) [' ', '\t']).isSome = true := by
    rw [nonblank_iff_trim] at h ⊢
    simpa [trim, ltrim_ltrim] using h
  rw [Range.parse_nonblank p h, Range.parse_nonblank (ltrim p) h', ltrim_ltrim]
  exact Range.parseTrimmed_ok_iff _ _ _ _

theorem parseParts_ok_iff (ps : List Str) :
    ∀ rs : List Range, RangeSet.parseParts ps = .ok rs ↔
      List.Forall₂ (fun p r => Range.parse p = .ok r)
        (ps.filter fun p => (find_first_not_of p [' ', '\t']).isSome) rs := by
  induction ps with
  | nil =>
    intro rs
    simp only [RangeSet.parseParts, List.filter_nil, List.forall₂_nil_left_iff]
    constructor
    · intro h; cases h; rfl
    · intro h; rw [h]
  | cons p ps ih =>
    intro rs
    simp only [RangeSet.parseParts]
    by_cases hp : (find_first_not_of p [' ', '\t']).isSome = true
    · rw [if_pos hp, List.filter_cons, if_pos hp]
      cases h1 : Range.parse p with
      | error e =>
        simp only [List.forall₂_cons_left_iff, h1]
        constructor
        · intro h; cases h
        · rintro ⟨_, _, h, _⟩; cases h
      | ok r =>
        cases h2 : RangeSet.parseParts ps with
        | error e =>
          simp only [List.forall₂_cons_left_iff]
          constructor
          · intro h; cases h
          · rintro ⟨r', rs', _, h, _⟩
            rw [← ih rs', h2] at h; cases h
        | ok rs0 =>
          simp only [List.forall₂_cons_left_iff]
          constructor
          · intro h
            cases h
            exact ⟨r, rs0, h1, (ih rs0).mp h2, rfl⟩
          · rintro ⟨r', rs', hr, h, rfl⟩
            rw [h1] at hr
            cases hr
            rw [← ih rs', h2] at h
            cases h; rfl
    · rw [if_neg hp, List.filter_cons, if_neg hp]
      exact ih rs

/-- C10 (the claim fails). The piece `>=1.0 ` of `>=1.0 ,<2.0` ends in a space: its trim
parses, and so does the trim of the other piece, but `RangeSet::parse` hands the piece to
`Range::parse` untrimmed on the right and fails. -/
theorem C10_counterexample :
    keptPieces ">=1.0 ,<2.0".toList = [">=1.0 ".toList, "<2.0".toList] ∧
    Range.parse (trim ">=1.0 ".toList) = .ok ⟨.Gte, { release := [1, 0] }⟩ ∧
    Range.parse (trim "<2.0".toList) = .ok ⟨.Lt, { release := [2, 0] }⟩ ∧
    RangeSet.parse ">=1.0 ,<2.0".toList =
      .error (.VersionParseError "invalid version: 1.0 ".toList) := by
  decide

/-- C10 (amended). `RangeSet::parse` splits on commas, drops the pieces whose trim is
empty and parses every other piece after removing its leading spaces and tabs only: it
succeeds iff `Range::parse` succeeds on each of these, and then its `specs` are exactly
the results, in input order. -/
theorem C10_rangeset_parse (s : Str) (rs : RangeSet) :
    RangeSet.parse s = .ok rs ↔
      List.Forall₂ (fun p r => Range.parse (ltrim p) = .ok r) (keptPieces s) rs.specs := by
  have h1 : RangeSet.parse s = .ok rs ↔ RangeSet.parseParts (getlines ',' s) = .ok rs.specs := by
    unfold RangeSet.parse
    cases RangeSet.parseParts (getlines ',' s) with
    | error e => simp
    | ok l =>
      constructor
      · intro h; cases h; rfl
      · intro h; cases h; rfl
  rw [h1, parseParts_ok_iff, getlines_kept]
  have hk : ∀ p ∈ keptPieces s, (find_first_not_of p [' ', '\t']).isSome = true := by
    intro p hp
    rw [nonblank_iff_trim]
    exact (List.mem_filter.mp hp).2
  generalize keptPieces s = ps at hk
  generalize rs.specs = l
  induction ps generalizing l with
  | nil => simp
  | cons p ps ih =>
    simp only [List.forall₂_cons_left_iff]
    have hp := hk p (by simp)
    have ih' := fun l => ih (fun q hq => hk q (List.mem_cons_of_mem _ hq)) l
    constructor
    · rintro ⟨r, l', h, hl, rfl⟩
      exact ⟨r, l', (Range.parse_ltrim p r hp).mp h, (ih' l').mp hl, rfl⟩
    · rintro ⟨r, l', h, hl, rfl⟩
      exact ⟨r, l', (Range.parse_ltrim p r hp).mpr h, (ih' l').mpr hl, rfl⟩

/-! ## The matcher: membership -/

theorem mem_andThen {t u : Thread} {k : Str → Caps → List Thread} :
    u ∈ andThen t k ↔ ∃ x ∈ k t.rest t.caps, u = ⟨t.taken ++ x.taken, x.rest, x.caps⟩ := by
  simp only [andThen, List.mem_map]
  constructor
  · rintro ⟨x, hx, rfl⟩; exact ⟨x, hx, rfl⟩
  · rintro ⟨x, hx, rfl⟩; exact ⟨x, hx, rfl⟩

theorem mem_oneChar {p : Char → Bool} {r : Str} {c : Caps} {u : Thread} :
    u ∈ oneChar p r c ↔ ∃ x xs, r = x :: xs ∧ p x = true ∧ u = ⟨[x], xs, c⟩ := by
  cases r with
  | nil => simp [oneChar]
  | cons y ys =>
    simp only [oneChar]
    by_cases h : p y = true
    · rw [if_pos h]
      simp only [List.mem_singleton, List.cons.injEq]
      constructor
      · rintro rfl; exact ⟨y, ys, ⟨rfl, rfl⟩, h, rfl⟩
      · rintro ⟨x, xs, ⟨rfl, rfl⟩, _, rfl⟩; rfl
    · rw [if_neg h]
      simp only [List.not_mem_nil, List.cons.injEq, false_iff]
      rintro ⟨x, xs, ⟨rfl, rfl⟩, hx, _⟩; exact h hx

theorem mem_seq {ic : Bool} {w : Str} {a b : Regex} {r : Str} {c : Caps} {u : Thread} :
    u ∈ matchR ic w (.seq a b) r c ↔
      ∃ t ∈ matchR ic w a r c, ∃ x ∈ matchR ic w b t.rest t.caps,
        u = ⟨t.taken ++ x.taken, x.rest, x.caps⟩ := by
  simp only [matchR, List.mem_flatMap, mem_andThen]

theorem mem_alt {ic : Bool} {w : Str} {a b : Regex} {r : Str} {c : Caps} {u : Thread} :
    u ∈ matchR ic w (.alt a b) r c ↔ u ∈ matchR ic w a r c ∨ u ∈ matchR ic w b r c := by
  simp only [matchR, List.mem_append]

theorem mem_opt {ic : Bool} {w : Str} {a : Regex} {r : Str} {c : Caps} {u : Thread} :
    u ∈ matchR ic w (.opt a) r c ↔ u ∈ matchR ic w a r c ∨ u = ⟨[], r, c⟩ := by
  simp only [matchR, List.mem_append, List.mem_singleton]

theorem mem_group {ic : Bool} {w : Str} {i : Nat} {a : Regex} {r : Str} {c : Caps}
    {u : Thread} :
    u ∈ matchR ic w (.group i a) r c ↔
      ∃ t ∈ matchR ic w a r c, u = ⟨t.taken, t.rest, setCap t.caps i t.taken⟩ := by
  simp only [matchR, List.mem_map]
  constructor
  · rintro ⟨x, hx, rfl⟩; exact ⟨x, hx, rfl⟩
  · rintro ⟨x, hx, rfl⟩; exact ⟨x, hx, rfl⟩

theorem mem_starAux_succ {step : Str → Caps → List Thread} {fuel : Nat} {r : Str} {c : Caps}
    {u : Thread} :
    u ∈ starAux step (fuel + 1) r c ↔
      (∃ t ∈ step r c, t.rest.length < r.length ∧
        ∃ x ∈ starAux step fuel t.rest t.caps, u = ⟨t.taken ++ x.taken, x.rest, x.caps⟩) ∨
      u = ⟨[], r, c⟩ := by
  simp only [starAux, List.mem_append, List.mem_flatMap, List.mem_singleton]
  constructor
  · rintro (⟨t, ht, hu⟩ | h)
    · by_cases hl : t.rest.length < r.length
      · rw [if_pos hl, mem_andThen] at hu
        exact Or.inl ⟨t, ht, hl, hu⟩
      · rw [if_neg hl] at hu; cases hu
    · exact Or.inr h
  · rintro (⟨t, ht, hl, hu⟩ | h)
    · refine Or.inl ⟨t, ht, ?_⟩
      rw [if_pos hl, mem_andThen]; exact hu
    · exact Or.inr h

/-- Induction over the threads of a repetition: a property of threads that holds of the
empty iteration and is kept by one more leading iteration holds of every thread. -/
theorem starAux_ind {step : Str → Caps → List Thread} (P : Str → Caps → Thread → Prop)
    (h0 : ∀ r c, P r c ⟨[], r, c⟩)
    (hstep : ∀ r c t x, t ∈ step r c → P t.rest t.caps x →
      P r c ⟨t.taken ++ x.taken, x.rest, x.caps⟩) :
    ∀ fuel r c u, u ∈ starAux step fuel r c → P r c u := by
  intro fuel
  induction fuel with
  | zero =>
    intro r c u hu
    simp only [starAux, List.mem_singleton] at hu
    subst hu
    exact h0 r c
  | succ n ih =>
    intro r c u hu
    rcases mem_starAux_succ.mp hu with ⟨t, ht, _, x, hx, rfl⟩ | rfl
    · exact hstep r c t x ht (ih t.rest t.caps x hx)
    · exact h0 r c

/-- What every thread of a repetition satisfies, given what every thread of one iteration
satisfies: the characters taken are in a class `Q` closed under concatenation, and the
sub-matches are untouched. -/
theorem starAux_inv {step : Str → Caps → List Thread} (Q : Str → Prop) (h0 : Q [])
    (happ : ∀ a b, Q a → Q b → Q (a ++ b))
    (hstep : ∀ r c t, t ∈ step r c → Q t.taken ∧ t.caps = c) :
    ∀ fuel r c u, u ∈ starAux step fuel r c → Q u.taken ∧ u.caps = c :=
  starAux_ind (fun _ c u => Q u.taken ∧ u.caps = c) (fun _ _ => ⟨h0, rfl⟩)
    (fun r c t x ht hx => ⟨happ _ _ (hstep r c t ht).1 hx.1, by rw [hx.2, (hstep r c t ht).2]⟩)

theorem starAux_split {step : Str → Caps → List Thread}
    (hstep : ∀ r c t, t ∈ step r c → r = t.taken ++ t.rest) :
    ∀ fuel r c u, u ∈ starAux step fuel r c → r = u.taken ++ u.rest :=
  starAux_ind (fun r _ u => r = u.taken ++ u.rest) (fun _ _ => rfl)
    (fun r c t x ht hx => by
      simp only [List.append_assoc]
      rw [← hx]; exact hstep r c t ht)

/-! ## The matcher: the first thread -/

theorem First.seq {ic : Bool} {w : Str} {a b : Regex} {r : Str} {c : Caps}
    {k1 r1 : Str} {c1 : Caps} {k2 r2 : Str} {c2 : Caps}
    (h1 : First ic w a r c k1 r1 c1) (h2 : First ic w b r1 c1 k2 r2 c2) :
    First ic w (.seq a b) r c (k1 ++ k2) r2 c2 := by
  obtain ⟨tl1, e1⟩ := h1
  obtain ⟨tl2, e2⟩ := h2
  simp only [First, matchR, e1, List.flatMap_cons, andThen, e2, List.map_cons, List.cons_append]
  exact ⟨_, rfl⟩

theorem First.alt_left {ic : Bool} {w : Str} {a b : Regex} {r : Str} {c : Caps}
    {k1 r1 : Str} {c1 : Caps} (h1 : First ic w a r c k1 r1 c1) :
    First ic w (.alt a b) r c k1 r1 c1 := by
  obtain ⟨tl1, e1⟩ := h1
  simp only [First, matchR, e1, List.cons_append]
  exact ⟨_, rfl⟩

theorem First.alt_right {ic : Bool} {w : Str} {a b : Regex} {r : Str} {c : Caps}
    {k1 r1 : Str} {c1 : Caps} (h0 : matchR ic w a r c = [])
    (h1 : First ic w b r c k1 r1 c1) : First ic w (.alt a b) r c k1 r1 c1 := by
  obtain ⟨tl1, e1⟩ := h1
  simp only [First, matchR, e1, h0, List.nil_append]
  exact ⟨_, rfl⟩

theorem First.opt {ic : Bool} {w : Str} {a : Regex} {r : Str} {c : Caps}
    {k1 r1 : Str} {c1 : Caps} (h1 : First ic w a r c k1 r1 c1) :
    First ic w (.opt a) r c k1 r1 c1 := by
  obtain ⟨tl1, e1⟩ := h1
  simp only [First, matchR, e1, List.cons_append]
  exact ⟨_, rfl⟩

theorem First.opt_skip {ic : Bool} {w : Str} {a : Regex} {r : Str} {c : Caps}
    (h0 : matchR ic w a r c = []) : First ic w (.opt a) r c [] r c := by
  simp only [First, matchR, h0, List.nil_append]
  exact ⟨_, rfl⟩

theorem First.group {ic : Bool} {w : Str} {i : Nat} {a : Regex} {r : Str} {c : Caps}
    {k1 r1 : Str} {c1 : Caps} (h1 : First ic w a r c k1 r1 c1) :
    First ic w (.group i a) r c k1 r1 (setCap c1 i k1) := by
  obtain ⟨tl1, e1⟩ := h1
  simp only [First, matchR, e1, List.map_cons]
  exact ⟨_, rfl⟩

theorem First.chr {ic : Bool} {w : Str} {p x : Char} {xs : Str} {c : Caps}
    (h : chrOk ic p x = true) : First ic w (.chr p) (x :: xs) c [x] xs c := by
  simp only [First, matchR, oneChar, h, if_true]
  exact ⟨_, rfl⟩

theorem First.starAux_stop {step : Str → Caps → List Thread} {r : Str} {c : Caps}
    (h : step r c = []) (fuel : Nat) :
    starAux step fuel r c = [⟨[], r, c⟩] := by
  cases fuel with
  | zero => rfl
  | succ n => simp [starAux, h]

theorem First.starAux_step {step : Str → Caps → List Thread} (fuel : Nat) {r : Str} {c : Caps}
    {t : Thread} {tl : List Thread} {k2 r2 : Str} {c2 : Caps} {tl2 : List Thread}
    (h1 : step r c = t :: tl) (hl : t.rest.length < r.length)
    (h2 : starAux step fuel t.rest t.caps = ⟨k2, r2, c2⟩ :: tl2) :
    ∃ tl3, starAux step (fuel + 1) r c = ⟨t.taken ++ k2, r2, c2⟩ :: tl3 := by
  simp only [starAux, h1, List.flatMap_cons, if_pos hl, andThen, h2, List.map_cons,
    List.cons_append]
  exact ⟨_, rfl⟩

/-- Every thread splits its input into the characters taken and the input left. -/
theorem matchR_split (ic : Bool) (w : Str) (re : Regex) :
    ∀ (r : Str) (c : Caps) (u : Thread), u ∈ matchR ic w re r c → r = u.taken ++ u.rest := by
  induction re with
  | eps => intro r c u hu; simp only [matchR, List.mem_singleton] at hu; subst hu; rfl
  | bol =>
    intro r c u hu
    simp only [matchR] at hu
    split_ifs at hu
    · simp only [List.mem_singleton] at hu; subst hu; rfl
    · cases hu
  | eol =>
    intro r c u hu
    simp only [matchR] at hu
    split_ifs at hu
    · simp only [List.mem_singleton] at hu; subst hu; rfl
    · cases hu
  | chr p =>
    intro r c u hu
    obtain ⟨x, xs, rfl, _, rfl⟩ := mem_oneChar.mp hu; rfl
  | digit =>
    intro r c u hu
    obtain ⟨x, xs, rfl, _, rfl⟩ := mem_oneChar.mp hu; rfl
  | cls items =>
    intro r c u hu
    obtain ⟨x, xs, rfl, _, rfl⟩ := mem_oneChar.mp hu; rfl
  | seq a b iha ihb =>
    intro r c u hu
    obtain ⟨t, ht, x, hx, rfl⟩ := mem_seq.mp hu
    simp only [List.append_assoc]
    rw [← ihb _ _ _ hx]; exact iha _ _ _ ht
  | alt a b iha ihb =>
    intro r c u hu
    rcases mem_alt.mp hu with h | h
    · exact iha _ _ _ h
    · exact ihb _ _ _ h
  | opt a iha =>
    intro r c u hu
    rcases mem_opt.mp hu with h | rfl
    · exact iha _ _ _ h
    · rfl
  | star a iha =>
    intro r c u hu
    simp only [matchR] at hu
    exact starAux_split iha _ _ _ _ hu
  | plus a iha =>
    intro r c u hu
    simp only [matchR, List.mem_flatMap, mem_andThen] at hu
    obtain ⟨t, ht, x, hx, rfl⟩ := hu
    simp only [List.append_assoc]
    rw [← starAux_split iha _ _ _ _ hx]
    exact iha _ _ _ ht
  | group i a iha =>
    intro r c u hu
    obtain ⟨t, ht, rfl⟩ := mem_group.mp hu
    exact iha _ _ t ht

/-! ## Decimal numbers -/

theorem allDigits_nil : allDigits [] := fun _ h => by cases h

theorem allDigits_append {a b : Str} (ha : allDigits a) (hb : allDigits b) :
    allDigits (a ++ b) := by
  intro c hc
  rcases List.mem_append.mp hc with h | h
  · exact ha c h
  · exact hb c h

theorem allDigits_cons {x : Char} {xs : Str} :
    allDigits (x :: xs) ↔ x.isDigit = true ∧ allDigits xs := by
  simp [allDigits]

theorem readNat_append_one (ds : Str) (d : Char) :
    readNat (ds ++ [d]) = 10 * readNat ds + (d.toNat - 48) := by
  simp [readNat, List.foldl_append]

theorem digitChar_isDigit (k : Nat) (h : k < 10) :
    (Nat.digitChar k).isDigit = true ∧ (Nat.digitChar k).toNat - 48 = k := by
  interval_cases k <;> exact ⟨by decide, by decide⟩

/-- The decimal digits that `Nat.toDigits` writes: a non-empty run of digits whose value
is the number written. -/
theorem toDigitsCore_spec : ∀ (fuel n : Nat) (acc : Str), n < fuel →
    ∃ ds, Nat.toDigitsCore 10 fuel n acc = ds ++ acc ∧ ds ≠ [] ∧ allDigits ds ∧
      readNat ds = n := by
  intro fuel
  induction fuel with
  | zero => intro n acc h; omega
  | succ f ih =>
    intro n acc h
    simp only [Nat.toDigitsCore]
    obtain ⟨hd, hv⟩ := digitChar_isDigit (n % 10) (Nat.mod_lt _ (by decide))
    by_cases h0 : n / 10 = 0
    · rw [if_pos h0]
      refine ⟨[Nat.digitChar (n % 10)], rfl, by simp, ?_, ?_⟩
      · exact allDigits_cons.mpr ⟨hd, allDigits_nil⟩
      · simp only [readNat, List.foldl_cons, List.foldl_nil, hv]; omega
    · rw [if_neg h0]
      obtain ⟨ds, e, hne, hall, hval⟩ := ih (n / 10) (Nat.digitChar (n % 10) :: acc) (by omega)
      refine ⟨ds ++ [Nat.digitChar (n % 10)], by rw [e]; simp, by simp, ?_, ?_⟩
      · exact allDigits_append hall (allDigits_cons.mpr ⟨hd, allDigits_nil⟩)
      · rw [readNat_append_one, hval, hv]; omega

theorem toDigits_spec (n : Nat) :
    Nat.toDigits 10 n ≠ [] ∧ allDigits (Nat.toDigits 10 n) ∧ readNat (Nat.toDigits 10 n) = n := by
  obtain ⟨ds, e, hne, hall, hval⟩ := toDigitsCore_spec (n + 1) n [] (by omega)
  rw [Nat.toDigits, e, List.append_nil]
  exact ⟨hne, hall, hval⟩

theorem showInt_nonneg {n : Int} (h : 0 ≤ n) : showInt n = Nat.toDigits 10 n.natAbs := by
  rw [showInt, if_neg (by omega)]

theorem showInt_spec {n : Int} (h : 0 ≤ n) :
    showInt n ≠ [] ∧ allDigits (showInt n) ∧ (readNat (showInt n) : Int) = n := by
  rw [showInt_nonneg h]
  obtain ⟨h1, h2, h3⟩ := toDigits_spec n.natAbs
  refine ⟨h1, h2, ?_⟩
  rw [h3]; omega

theorem digit_not_ws {c : Char} (h : c.isDigit = true) : isspace c = false := by
  rcases hc : isspace c with _ | _
  · rfl
  · simp only [isspace, Bool.or_eq_true, beq_iff_eq] at hc
    rcases hc with ((((rfl | rfl) | rfl) | rfl) | rfl) | rfl <;> exact absurd h (by decide)

/-- `std::stoi` on a non-empty run of digits. -/
theorem stoi_digits {ds : Str} (hne : ds ≠ []) (hall : allDigits ds) :
    stoi ds = if INT_MAX < (readNat ds : Int) then .error .out_of_range
      else .ok (readNat ds : Int) := by
  obtain ⟨x, xs, rfl⟩ := List.exists_cons_of_ne_nil hne
  have hx : x.isDigit = true := hall x (by simp)
  have h1 : (x :: xs).dropWhile isspace = x :: xs := by
    simp [List.dropWhile_cons, digit_not_ws hx]
  have h2 : x ≠ '-' := by rintro rfl; exact absurd hx (by decide)
  have h3 : x ≠ '+' := by rintro rfl; exact absurd hx (by decide)
  have h4 : (x :: xs).takeWhile Char.isDigit = x :: xs := by
    rw [List.takeWhile_eq_self_iff]; exact hall
  have hneg : (some x == some '-') = false := by simpa using h2
  have hpos : (some x == some '+') = false := by simpa using h3
  simp only [stoi, h1, List.head?_cons, hneg, hpos, Bool.or_self, Bool.false_eq_true,
    if_false, h4]
  have h6 : ¬ ((readNat (x :: xs) : Int) < INT_MIN) := by unfold INT_MIN; omega
  rw [if_neg (by simp)]
  by_cases h5 : INT_MAX < (readNat (x :: xs) : Int)
  · rw [if_pos h5, if_pos (Or.inr h5)]
  · rw [if_neg h5, if_neg (by rintro (h | h); exact h6 h; exact h5 h)]

theorem stoi_showInt {n : Int} (h0 : 0 ≤ n) (h1 : n ≤ INT_MAX) : stoi (showInt n) = .ok n := by
  obtain ⟨hne, hall, hval⟩ := showInt_spec h0
  rw [stoi_digits hne hall, hval, if_neg (by omega)]

/-- A successful `std::stoi` on a non-empty run of digits yields an `int` that is not
negative. -/
theorem stoi_digits_ok {ds : Str} {n : Int} (hne : ds ≠ []) (hall : allDigits ds)
    (h : stoi ds = .ok n) : 0 ≤ n ∧ n ≤ INT_MAX := by
  rw [stoi_digits hne hall] at h
  by_cases h5 : INT_MAX < (readNat ds : Int)
  · rw [if_pos h5] at h; cases h
  · rw [if_neg h5] at h
    cases h
    exact ⟨by omega, by omega⟩

theorem stoiOrZero_digits_ok {g : Option Str} {n : Int}
    (hall : ∀ d, g = some d → allDigits d) (h : stoiOrZero g = .ok n) :
    0 ≤ n ∧ n ≤ INT_MAX := by
  unfold stoiOrZero at h
  cases g with
  | none => cases h; exact ⟨le_refl _, by decide⟩
  | some d =>
    simp only at h
    by_cases hd : d ≠ []
    · rw [if_pos hd] at h
      exact stoi_digits_ok hd (hall d rfl) h
    · rw [if_neg hd] at h
      cases h; exact ⟨le_refl _, by decide⟩

theorem stoiOrZero_showInt {n : Int} (h0 : 0 ≤ n) (h1 : n ≤ INT_MAX) :
    stoiOrZero (some (showInt n)) = .ok n := by
  simp only [stoiOrZero]
  rw [if_pos (showInt_spec h0).1, stoi_showInt h0 h1]

/-! ## Characters -/

theorem isDigit_iff (x : Char) : x.isDigit = true ↔ 48 ≤ x.toNat ∧ x.toNat ≤ 57 := by
  simp only [Char.isDigit, Bool.and_eq_true, decide_eq_true_eq, Char.toNat]
  constructor
  · rintro ⟨h1, h2⟩
    exact ⟨h1, h2⟩
  · rintro ⟨h1, h2⟩
    exact ⟨h1, h2⟩

theorem toLower_of_not_upper (x : Char) (h : ¬ (65 ≤ x.toNat ∧ x.toNat ≤ 90)) :
    x.toLower = x := by
  unfold Char.toLower
  simp only [ge_iff_le]
  rw [if_neg h]

theorem char_eq_of_toNat {x y : Char} (h : x.toNat = y.toNat) : x = y := by
  have := congrArg Char.ofNat h
  simpa [Char.ofNat_toNat] using this

theorem toLower_toNat_upper (x : Char) (h : 65 ≤ x.toNat ∧ x.toNat ≤ 90) :
    x.toLower.toNat = x.toNat + 32 := by
  have hx : x = Char.ofNat x.toNat := (Char.ofNat_toNat x).symm
  generalize x.toNat = n at h hx
  obtain ⟨h1, h2⟩ := h
  subst hx
  interval_cases n <;> decide

/-- The code of the lowered character. -/
theorem toLower_toNat (x : Char) :
    x.toLower.toNat = if 65 ≤ x.toNat ∧ x.toNat ≤ 90 then x.toNat + 32 else x.toNat := by
  by_cases h : 65 ≤ x.toNat ∧ x.toNat ≤ 90
  · rw [if_pos h, toLower_toNat_upper x h]
  · rw [if_neg h, toLower_of_not_upper x h]

/-- A literal that is not a letter matches only itself, also with `icase`. -/
theorem chrOk_nonletter {p x : Char} (hp : p.toNat < 65 ∨ (90 < p.toNat ∧ p.toNat < 97) ∨ 122 < p.toNat)
    (h : chrOk true p x = true) : x = p := by
  simp only [chrOk, if_true, beq_iff_eq] at h
  have h' := congrArg Char.toNat h
  rw [toLower_toNat, toLower_toNat] at h'
  apply char_eq_of_toNat
  split_ifs at h' <;> omega

theorem chrOk_digit_false {p x : Char} (hp : p.toNat < 48 ∨ 57 < p.toNat)
    (hx : x.isDigit = true) :
    chrOk true p x = false := by
  rw [isDigit_iff] at hx
  rcases hc : chrOk true p x with _ | _
  · rfl
  · simp only [chrOk, if_true, beq_iff_eq] at hc
    have h' := congrArg Char.toNat hc
    rw [toLower_toNat, toLower_toNat] at h'
    split_ifs at h' <;> omega

/-! ## Runs of characters of one class -/

theorem oneChar_nil_of_tail {p : Char → Bool} {tail : Str}
    (ht : ∀ x xs, tail = x :: xs → p x = false) (c : Caps) : oneChar p tail c = [] := by
  cases tail with
  | nil => rfl
  | cons x xs => simp [oneChar, ht x xs rfl]

/-- The best thread of a repetition of a one-character pattern takes the whole run. -/
theorem run_first {step : Str → Caps → List Thread} {p : Char → Bool}
    (hs : ∀ r c, step r c = oneChar p r c) (tail : Str) (c : Caps)
    (ht : ∀ x xs, tail = x :: xs → p x = false) :
    ∀ (ds : Str) (fuel : Nat), (∀ x ∈ ds, p x = true) → ds.length ≤ fuel →
      ∃ tl, starAux step fuel (ds ++ tail) c = ⟨ds, tail, c⟩ :: tl := by
  intro ds
  induction ds with
  | nil =>
    intro fuel _ _
    exact ⟨[], First.starAux_stop (by rw [hs]; exact oneChar_nil_of_tail ht c) fuel⟩
  | cons d ds ih =>
    intro fuel hds hf
    obtain ⟨f, rfl⟩ : ∃ f, fuel = f + 1 := ⟨fuel - 1, by simp at hf; omega⟩
    obtain ⟨tl, e⟩ := ih f (fun x hx => hds x (by simp [hx])) (by simp at hf; omega)
    have h1 : step (d :: ds ++ tail) c = ⟨[d], ds ++ tail, c⟩ :: [] := by
      rw [hs]; simp [oneChar, hds d (by simp)]
    exact First.starAux_step f h1 (by simp) e

theorem run_mem {step : Str → Caps → List Thread} {p : Char → Bool}
    (hs : ∀ r c, step r c = oneChar p r c) :
    ∀ fuel r c u, u ∈ starAux step fuel r c → (∀ x ∈ u.taken, p x = true) ∧ u.caps = c := by
  apply starAux_inv (fun q => ∀ x ∈ q, p x = true)
  · intro x hx; cases hx
  · intro a b ha hb x hx
    rcases List.mem_append.mp hx with h | h
    · exact ha x h
    · exact hb x h
  · intro r c t ht
    rw [hs] at ht
    obtain ⟨x, xs, rfl, hx, rfl⟩ := mem_oneChar.mp ht
    exact ⟨by simpa using hx, rfl⟩

theorem star_first {ic : Bool} {w : Str} {a : Regex} {p : Char → Bool}
    (hs : ∀ r c, matchR ic w a r c = oneChar p r c) {ds : Str} (tail : Str) (c : Caps)
    (hds : ∀ x ∈ ds, p x = true) (ht : ∀ x xs, tail = x :: xs → p x = false) :
    First ic w (.star a) (ds ++ tail) c ds tail c := by
  simp only [First, matchR]
  exact run_first hs tail c ht ds _ hds (by simp)

theorem plus_first {ic : Bool} {w : Str} {a : Regex} {p : Char → Bool}
    (hs : ∀ r c, matchR ic w a r c = oneChar p r c) {ds : Str} (tail : Str) (c : Caps)
    (hne : ds ≠ []) (hds : ∀ x ∈ ds, p x = true) (ht : ∀ x xs, tail = x :: xs → p x = false) :
    First ic w (.plus a) (ds ++ tail) c ds tail c := by
  obtain ⟨d, ds', rfl⟩ := List.exists_cons_of_ne_nil hne
  obtain ⟨tl, e⟩ := run_first hs tail c ht ds' (ds' ++ tail).length
    (fun x hx => hds x (by simp [hx])) (by simp)
  simp only [First, matchR, hs, List.cons_append, oneChar, hds d (by simp), if_true,
    List.flatMap_cons, andThen, e, List.map_cons, List.flatMap_nil, List.append_nil]
  exact ⟨_, rfl⟩

theorem star_mem {ic : Bool} {w : Str} {a : Regex} {p : Char → Bool}
    (hs : ∀ r c, matchR ic w a r c = oneChar p r c) {r : Str} {c : Caps} {u : Thread}
    (hu : u ∈ matchR ic w (.star a) r c) : (∀ x ∈ u.taken, p x = true) ∧ u.caps = c := by
  simp only [matchR] at hu
  exact run_mem hs _ _ _ _ hu

theorem plus_mem {ic : Bool} {w : Str} {a : Regex} {p : Char → Bool}
    (hs : ∀ r c, matchR ic w a r c = oneChar p r c) {r : Str} {c : Caps} {u : Thread}
    (hu : u ∈ matchR ic w (.plus a) r c) :
    u.taken ≠ [] ∧ (∀ x ∈ u.taken, p x = true) ∧ u.caps = c := by
  simp only [matchR, List.mem_flatMap, mem_andThen] at hu
  obtain ⟨t, ht, x, hx, rfl⟩ := hu
  rw [hs] at ht
  obtain ⟨y, ys, rfl, hy, rfl⟩ := mem_oneChar.mp ht
  obtain ⟨h1, h2⟩ := run_mem hs _ _ _ _ hx
  refine ⟨by simp, ?_, h2⟩
  intro z hz
  simp only [List.singleton_append, List.mem_cons] at hz
  rcases hz with rfl | hz
  · exact hy
  · exact h1 z hz

/-! ## Segments behind separators -/

theorem joinTail_append (a b : List (Char × Str)) :
    joinTail (a ++ b) = joinTail a ++ joinTail b := by
  induction a with
  | nil => rfl
  | cons p ps ih =>
    obtain ⟨x, s⟩ := p
    simp [joinTail, ih]

theorem Segs.nil {ps pa : Char → Bool} : Segs ps pa [] := fun _ h => by cases h

theorem Segs.append {ps pa : Char → Bool} {a b : List (Char × Str)} (ha : Segs ps pa a)
    (hb : Segs ps pa b) : Segs ps pa (a ++ b) := by
  intro p hp
  rcases List.mem_append.mp hp with h | h
  · exact ha p h
  · exact hb p h

/-- Every thread of `(?:S A+)*`, for one-character patterns `S` and `A`, takes segments
behind separators and leaves the sub-matches untouched. -/
theorem segs_mem {ic : Bool} {w : Str} {sepR atomR : Regex} {ps pa : Char → Bool}
    (hsep : ∀ r c, matchR ic w sepR r c = oneChar ps r c)
    (hatom : ∀ r c, matchR ic w atomR r c = oneChar pa r c) {r : Str} {c : Caps} {u : Thread}
    (hu : u ∈ matchR ic w (.star (.seq sepR (.plus atomR))) r c) :
    (∃ segs, u.taken = joinTail segs ∧ Segs ps pa segs) ∧ u.caps = c := by
  simp only [matchR.eq_10] at hu
  refine starAux_inv (fun q => ∃ segs, q = joinTail segs ∧ Segs ps pa segs) ⟨[], rfl, Segs.nil⟩
    ?_ ?_ _ _ _ _ hu
  · rintro a b ⟨sa, rfl, ha⟩ ⟨sb, rfl, hb⟩
    exact ⟨sa ++ sb, (joinTail_append sa sb).symm, ha.append hb⟩
  · intro r c t ht
    obtain ⟨t1, ht1, t2, ht2, rfl⟩ := mem_seq.mp ht
    rw [hsep] at ht1
    obtain ⟨y, ys, rfl, hy, rfl⟩ := mem_oneChar.mp ht1
    obtain ⟨h1, h2, h3⟩ := plus_mem hatom ht2
    refine ⟨⟨[(y, t2.taken)], by simp [joinTail], ?_⟩, h3⟩
    intro p hp
    simp only [List.mem_singleton] at hp
    subst hp
    exact ⟨hy, h1, h2⟩

/-- The best thread of `(?:S A+)*` takes all the segments, when what follows cannot start
another one. -/
theorem segs_first {ic : Bool} {w : Str} {sepR atomR : Regex} {ps pa : Char → Bool}
    (hsep : ∀ r c, matchR ic w sepR r c = oneChar ps r c)
    (hatom : ∀ r c, matchR ic w atomR r c = oneChar pa r c)
    (hdisj : ∀ x, ps x = true → pa x = false) (tail : Str) (c : Caps)
    (ht : ∀ x xs, tail = x :: xs → pa x = false)
    (hstop : matchR ic w (.seq sepR (.plus atomR)) tail c = []) :
    ∀ (segs : List (Char × Str)) (fuel : Nat), Segs ps pa segs →
      (joinTail segs).length ≤ fuel →
      ∃ tl, starAux (matchR ic w (.seq sepR (.plus atomR))) fuel (joinTail segs ++ tail) c =
        ⟨joinTail segs, tail, c⟩ :: tl := by
  intro segs
  induction segs with
  | nil =>
    intro fuel _ _
    exact ⟨[], First.starAux_stop hstop fuel⟩
  | cons p segs ih =>
    intro fuel hsegs hf
    obtain ⟨x, s⟩ := p
    obtain ⟨hx, hne, hs⟩ := hsegs (x, s) (by simp)
    have hsegs' : Segs ps pa segs := fun q hq => hsegs q (by simp [hq])
    simp only [joinTail, List.length_cons, List.length_append] at hf
    obtain ⟨f, rfl⟩ : ∃ f, fuel = f + 1 := ⟨fuel - 1, by omega⟩
    obtain ⟨tl, e⟩ := ih f hsegs' (by omega)
    have hnext : ∀ y ys, joinTail segs ++ tail = y :: ys → pa y = false := by
      intro y ys hy
      cases segs with
      | nil => exact ht y ys (by simpa [joinTail] using hy)
      | cons q qs =>
        obtain ⟨z, s'⟩ := q
        simp only [joinTail, List.cons_append, List.cons.injEq] at hy
        obtain ⟨rfl, _⟩ := hy
        exact hdisj z (hsegs' (z, s') (by simp)).1
    obtain ⟨tl1, e1⟩ := plus_first hatom (joinTail segs ++ tail) c hne hs hnext
    have h1 : ∃ tl2, matchR ic w (.seq sepR (.plus atomR)) (x :: s ++ joinTail segs ++ tail) c =
        ⟨x :: s, joinTail segs ++ tail, c⟩ :: tl2 := by
      simp only [matchR.eq_7, hsep, List.cons_append, oneChar, hx, if_true, List.flatMap_cons,
        andThen, List.append_assoc, e1, List.map_cons, List.flatMap_nil, List.append_nil,
        List.singleton_append]
      exact ⟨_, rfl⟩
    obtain ⟨tl2, e2⟩ := h1
    have := First.starAux_step f e2 (by simp; omega) e
    simpa [joinTail] using this

theorem star_segs_first {ic : Bool} {w : Str} {sepR atomR : Regex} {ps pa : Char → Bool}
    (hsep : ∀ r c, matchR ic w sepR r c = oneChar ps r c)
    (hatom : ∀ r c, matchR ic w atomR r c = oneChar pa r c)
    (hdisj : ∀ x, ps x = true → pa x = false) {tail : Str} (c : Caps)
    (ht : ∀ x xs, tail = x :: xs → pa x = false)
    (hstop : matchR ic w (.seq sepR (.plus atomR)) tail c = [])
    {segs : List (Char × Str)} (hsegs : Segs ps pa segs) :
    First ic w (.star (.seq sepR (.plus atomR))) (joinTail segs ++ tail) c
      (joinTail segs) tail c := by
  simp only [First, matchR.eq_10]
  exact segs_first hsep hatom hdisj tail c ht hstop segs _ hsegs (by simp)

/-! ## The sub-matches of a match of `VERSION_REGEX` -/

theorem matchR_digit (ic : Bool) (w r : Str) (c : Caps) :
    matchR ic w .digit r c = oneChar Char.isDigit r c := rfl

theorem matchR_chr (ic : Bool) (w : Str) (p : Char) (r : Str) (c : Caps) :
    matchR ic w (.chr p) r c = oneChar (chrOk ic p) r c := rfl

theorem matchR_reSep (w r : Str) (c : Caps) :
    matchR true w reSep r c = oneChar isSepChar r c := rfl

theorem matchR_reAlnum (w r : Str) (c : Caps) :
    matchR true w reAlnum r c = oneChar isAlnumChar r c := rfl

theorem setOpt_none (c : Caps) (i : Nat) : setOpt c i none = c := rfl

theorem setOpt_some (c : Caps) (i : Nat) (x : Str) : setOpt c i (some x) = setCap c i x := rfl

theorem mem_chr_caps {w : Str} {p : Char} {r : Str} {c : Caps} {u : Thread}
    (hu : u ∈ matchR true w (.chr p) r c) : u.caps = c := by
  obtain ⟨x, xs, rfl, _, rfl⟩ := mem_oneChar.mp hu; rfl

theorem mem_optSep {w r : Str} {c : Caps} {u : Thread}
    (hu : u ∈ matchR true w (.opt reSep) r c) : u.caps = c := by
  rcases mem_opt.mp hu with h | rfl
  · rw [matchR_reSep] at h
    obtain ⟨x, xs, rfl, _, rfl⟩ := mem_oneChar.mp h; rfl
  · rfl

theorem mem_reV {w r : Str} {c : Caps} {u : Thread} (hu : u ∈ matchR true w reV r c) :
    u.caps = c := by
  rcases mem_opt.mp hu with h | rfl
  · exact mem_chr_caps h
  · rfl

theorem mem_reEpoch {w r : Str} {c : Caps} {u : Thread} (hu : u ∈ matchR true w reEpoch r c) :
    ∃ o, u.caps = setOpt c 1 o ∧ ∀ e, o = some e → e ≠ [] ∧ allDigits e := by
  rcases mem_opt.mp hu with h | rfl
  · obtain ⟨t, ht, x, hx, rfl⟩ := mem_seq.mp h
    obtain ⟨t', ht', rfl⟩ := mem_group.mp ht
    obtain ⟨h1, h2, h3⟩ := plus_mem (matchR_digit true w) ht'
    refine ⟨some t'.taken, ?_, ?_⟩
    · rw [mem_chr_caps hx, setOpt_some]; simp only [h3]
    · intro e he; cases he; exact ⟨h1, h2⟩
  · exact ⟨none, rfl, fun e he => by cases he⟩

theorem mem_reRelease {w r : Str} {c : Caps} {u : Thread}
    (hu : u ∈ matchR true w reRelease r c) : ∃ s, u.caps = setCap c 2 s ∧ RelShape s := by
  obtain ⟨t, ht, rfl⟩ := mem_group.mp hu
  obtain ⟨t1, ht1, t2, ht2, rfl⟩ := mem_seq.mp ht
  obtain ⟨h1, h2, h3⟩ := plus_mem (matchR_digit true w) ht1
  obtain ⟨⟨segs, hs, hsegs⟩, h4⟩ :=
    segs_mem (matchR_chr true w '.') (matchR_digit true w) ht2
  refine ⟨t1.taken ++ t2.taken, by simp only [h4, h3], t1.taken, segs, by rw [hs], h1, h2, ?_⟩
  intro p hp
  obtain ⟨q1, q2, q3⟩ := hsegs p hp
  exact ⟨by simpa using chrOk_nonletter (by decide) q1, q2, q3⟩

/-- A thread of a literal word has taken a spelling of the word. -/
theorem mem_word {w : Str} : ∀ (p : Str) {r : Str} {c : Caps} {u : Thread},
    u ∈ matchR true w (Regex.word p) r c →
      u.taken.map Char.toLower = p.map Char.toLower ∧ u.caps = c
  | [], r, c, u, hu => by
    simp only [Regex.word, matchR, List.mem_singleton] at hu
    subst hu; exact ⟨rfl, rfl⟩
  | [p], r, c, u, hu => by
    simp only [Regex.word] at hu
    obtain ⟨x, xs, rfl, hx, rfl⟩ := mem_oneChar.mp hu
    simp only [chrOk, if_true, beq_iff_eq] at hx
    exact ⟨by simp [hx], rfl⟩
  | p :: q :: ps, r, c, u, hu => by
    simp only [Regex.word] at hu
    obtain ⟨t, ht, x, hx, rfl⟩ := mem_seq.mp hu
    obtain ⟨y, ys, rfl, hy, rfl⟩ := mem_oneChar.mp ht
    simp only [chrOk, if_true, beq_iff_eq] at hy
    obtain ⟨h1, h2⟩ := mem_word (q :: ps) hx
    exact ⟨by simp [hy, h1], h2⟩

theorem mem_rePreLabel {w r : Str} {c : Caps} {u : Thread}
    (hu : u ∈ matchR true w rePreLabel r c) :
    u.caps = setCap c 3 u.taken ∧ isNormalLabel (normalize_pre_label u.taken) := by
  obtain ⟨t, ht, rfl⟩ := mem_group.mp hu
  have key : ∀ p : Str, t ∈ matchR true w (Regex.word p) r c →
      isNormalLabel (normalize_pre_label (p.map Char.toLower)) →
      t.caps = c ∧ isNormalLabel (normalize_pre_label t.taken) := by
    intro p hp hn
    obtain ⟨h1, h2⟩ := mem_word p hp
    refine ⟨h2, ?_⟩
    have : normalize_pre_label t.taken = normalize_pre_label (p.map Char.toLower) := by
      simp only [normalize_pre_label, h1, List.map_map]
      have hi : (Char.toLower ∘ Char.toLower) = Char.toLower := by
        funext x
        simp only [Function.comp]
        apply char_eq_of_toNat
        rw [toLower_toNat, toLower_toNat]
        split_ifs <;> omega
      rw [hi]
    rw [this]; exact hn
  have fin : t.caps = c ∧ isNormalLabel (normalize_pre_label t.taken) := by
    rcases mem_alt.mp ht with h | h
    · exact key ['a'] h (by unfold isNormalLabel; decide)
    rcases mem_alt.mp h with h | h
    · exact key ['b'] h (by unfold isNormalLabel; decide)
    rcases mem_alt.mp h with h | h
    · exact key ['c'] h (by unfold isNormalLabel; decide)
    rcases mem_alt.mp h with h | h
    · exact key ['r', 'c'] h (by unfold isNormalLabel; decide)
    rcases mem_alt.mp h with h | h
    · exact key ['a', 'l', 'p', 'h', 'a'] h (by unfold isNormalLabel; decide)
    rcases mem_alt.mp h with h | h
    · exact key ['b', 'e', 't', 'a'] h (by unfold isNormalLabel; decide)
    rcases mem_alt.mp h with h | h
    · exact key ['p', 'r', 'e'] h (by unfold isNormalLabel; decide)
    · exact key ['p', 'r', 'e', 'v', 'i', 'e', 'w'] h (by unfold isNormalLabel; decide)
  exact ⟨by simp only [fin.1], fin.2⟩

theorem mem_group_star_digit {w : Str} {i : Nat} {r : Str} {c : Caps} {u : Thread}
    (hu : u ∈ matchR true w (.group i (.star .digit)) r c) :
    ∃ d, u.caps = setCap c i d ∧ allDigits d := by
  obtain ⟨t, ht, rfl⟩ := mem_group.mp hu
  obtain ⟨h1, h2⟩ := star_mem (matchR_digit true w) ht
  exact ⟨t.taken, by simp only [h2], h1⟩

theorem mem_rePre {w r : Str} {c : Caps} {u : Thread} (hu : u ∈ matchR true w rePre r c) :
    ∃ o3 o4, u.caps = setOpt (setOpt c 3 o3) 4 o4 ∧
      ((o3 = none ∧ o4 = none) ∨
        ∃ l d, o3 = some l ∧ o4 = some d ∧ isNormalLabel (normalize_pre_label l) ∧
          allDigits d) := by
  rcases mem_opt.mp hu with h | rfl
  · obtain ⟨t1, ht1, x1, hx1, rfl⟩ := mem_seq.mp h
    obtain ⟨t2, ht2, x2, hx2, rfl⟩ := mem_seq.mp hx1
    obtain ⟨t3, ht3, x3, hx3, rfl⟩ := mem_seq.mp hx2
    have e1 := mem_optSep ht1
    obtain ⟨e2, hl⟩ := mem_rePreLabel ht2
    have e3 := mem_optSep ht3
    obtain ⟨d, e4, hd⟩ := mem_group_star_digit hx3
    refine ⟨some t2.taken, some d, ?_, Or.inr ⟨_, _, rfl, rfl, hl, hd⟩⟩
    simp only [e4, e3, e2, e1, setOpt_some]
  · exact ⟨none, none, rfl, Or.inl ⟨rfl, rfl⟩⟩

theorem mem_rePostLabel {w r : Str} {c : Caps} {u : Thread}
    (hu : u ∈ matchR true w rePostLabel r c) : u.caps = setCap c 6 u.taken := by
  obtain ⟨t, ht, rfl⟩ := mem_group.mp hu
  have fin : t.caps = c := by
    rcases mem_alt.mp ht with h | h
    · exact (mem_word ['p', 'o', 's', 't'] h).2
    rcases mem_alt.mp h with h | h
    · exact (mem_word ['r', 'e', 'v'] h).2
    · exact mem_chr_caps h
  simp only [fin]

theorem mem_rePost {w r : Str} {c : Caps} {u : Thread} (hu : u ∈ matchR true w rePost r c) :
    ∃ o5 o6 o7, u.caps = setOpt (setOpt (setOpt c 5 o5) 6 o6) 7 o7 ∧
      ((o5 = none ∧ o6 = none ∧ o7 = none) ∨
        (∃ p, o5 = some p ∧ o6 = none ∧ o7 = none ∧ p ≠ [] ∧ allDigits p) ∨
        ∃ k d, o5 = none ∧ o6 = some k ∧ o7 = some d ∧ allDigits d) := by
  rcases mem_opt.mp hu with h | rfl
  · rcases mem_alt.mp h with h | h
    · obtain ⟨t1, ht1, x1, hx1, rfl⟩ := mem_seq.mp h
      obtain ⟨t2, ht2, rfl⟩ := mem_group.mp hx1
      obtain ⟨h1, h2, h3⟩ := plus_mem (matchR_digit true w) ht2
      refine ⟨some t2.taken, none, none, ?_, Or.inr (Or.inl ⟨_, rfl, rfl, rfl, h1, h2⟩)⟩
      simp only [h3, mem_chr_caps ht1, setOpt_some, setOpt_none]
    · obtain ⟨t1, ht1, x1, hx1, rfl⟩ := mem_seq.mp h
      obtain ⟨t2, ht2, x2, hx2, rfl⟩ := mem_seq.mp hx1
      obtain ⟨t3, ht3, x3, hx3, rfl⟩ := mem_seq.mp hx2
      have e1 := mem_optSep ht1
      have e2 := mem_rePostLabel ht2
      have e3 := mem_optSep ht3
      obtain ⟨d, e4, hd⟩ := mem_group_star_digit hx3
      refine ⟨none, some t2.taken, some d, ?_, Or.inr (Or.inr ⟨_, _, rfl, rfl, rfl, hd⟩)⟩
      simp only [e4, e3, e2, e1, setOpt_some, setOpt_none]
  · exact ⟨none, none, none, rfl, Or.inl ⟨rfl, rfl, rfl⟩⟩

theorem mem_reDev {w r : Str} {c : Caps} {u : Thread} (hu : u ∈ matchR true w reDev r c) :
    ∃ o8 o9, u.caps = setOpt (setOpt c 8 o8) 9 o9 ∧
      ((o8 = none ∧ o9 = none) ∨ ∃ k d, o8 = some k ∧ o9 = some d ∧ allDigits d) := by
  rcases mem_opt.mp hu with h | rfl
  · obtain ⟨t1, ht1, x1, hx1, rfl⟩ := mem_seq.mp h
    obtain ⟨t2, ht2, x2, hx2, rfl⟩ := mem_seq.mp hx1
    obtain ⟨t3, ht3, x3, hx3, rfl⟩ := mem_seq.mp hx2
    have e1 := mem_optSep ht1
    obtain ⟨t2', ht2', rfl⟩ := mem_group.mp ht2
    have e2 := (mem_word ['d', 'e', 'v'] ht2').2
    have e3 := mem_optSep ht3
    obtain ⟨d, e4, hd⟩ := mem_group_star_digit hx3
    refine ⟨some t2'.taken, some d, ?_, Or.inr ⟨_, _, rfl, rfl, hd⟩⟩
    simp only [e4, e3, e2, e1, setOpt_some]
  · exact ⟨none, none, rfl, Or.inl ⟨rfl, rfl⟩⟩

theorem mem_reLocalBody {w r : Str} {c : Caps} {u : Thread}
    (hu : u ∈ matchR true w reLocalBody r c) :
    u.caps = setCap c 10 u.taken ∧ LocalShape u.taken := by
  obtain ⟨t, ht, rfl⟩ := mem_group.mp hu
  obtain ⟨t1, ht1, t2, ht2, rfl⟩ := mem_seq.mp ht
  obtain ⟨h1, h2, h3⟩ := plus_mem (matchR_reAlnum w) ht1
  obtain ⟨⟨segs, hs, hsegs⟩, h4⟩ := segs_mem (matchR_reSep w) (matchR_reAlnum w) ht2
  exact ⟨by simp only [h4, h3], t1.taken, segs, by rw [hs], h1, h2, hsegs⟩

theorem mem_reLocal {w r : Str} {c : Caps} {u : Thread} (hu : u ∈ matchR true w reLocal r c) :
    ∃ o, u.caps = setOpt c 10 o ∧ ∀ l, o = some l → LocalShape l := by
  rcases mem_opt.mp hu with h | rfl
  · obtain ⟨t1, ht1, x1, hx1, rfl⟩ := mem_seq.mp h
    obtain ⟨e1, hl⟩ := mem_reLocalBody hx1
    refine ⟨some x1.taken, ?_, ?_⟩
    · simp only [e1, mem_chr_caps ht1, setOpt_some]
    · intro l hl'; cases hl'; exact hl
  · exact ⟨none, rfl, fun l hl => by cases hl⟩

theorem setOpt_apply (c : Caps) (i : Nat) (o : Option Str) (j : Nat) :
    setOpt c i o j = if j = i then (match o with | some x => some x | none => c j) else c j := by
  cases o with
  | none => simp [setOpt]
  | some x => simp [setOpt, setCap]

theorem setCap_apply (c : Caps) (i : Nat) (x : Str) (j : Nat) :
    setCap c i x j = if j = i then some x else c j := rfl

theorem mem_bol {ic : Bool} {w r : Str} {c : Caps} {u : Thread}
    (hu : u ∈ matchR ic w .bol r c) : u.caps = c := by
  by_cases h : r.length = w.length
  · rw [matchR, if_pos h] at hu
    rw [List.mem_singleton.mp hu]
  · rw [matchR, if_neg h] at hu
    exact absurd hu (List.not_mem_nil _)

theorem mem_eol {ic : Bool} {w r : Str} {c : Caps} {u : Thread}
    (hu : u ∈ matchR ic w .eol r c) : u.rest = [] ∧ u.caps = c := by
  by_cases h : r = []
  · rw [matchR, if_pos h] at hu
    rw [List.mem_singleton.mp hu]
    exact ⟨h, rfl⟩
  · rw [matchR, if_neg h] at hu
    exact absurd hu (List.not_mem_nil _)

theorem mem_seq_rest {ic : Bool} {w : Str} {a b : Regex} {r : Str} {c : Caps} {u : Thread}
    (hu : u ∈ matchR ic w (.seq a b) r c) :
    ∃ t ∈ matchR ic w a r c, ∃ x ∈ matchR ic w b t.rest t.caps,
      u.rest = x.rest ∧ u.caps = x.caps := by
  obtain ⟨t, ht, x, hx, rfl⟩ := mem_seq.mp hu
  exact ⟨t, ht, x, hx, rfl, rfl⟩

theorem setOpt_self (o : Option Str) (i : Nat) (c : Caps) (h : c i = none) :
    setOpt c i o i = o := by
  cases o with
  | none => exact h
  | some x => simp [setOpt, setCap]

/-- The sub-matches of every thread of `VERSION_REGEX`. -/
theorem mem_VERSION_REGEX {w : Str} {u : Thread}
    (hu : u ∈ matchR true w VERSION_REGEX w fun _ => none) : u.rest = [] ∧ CapsShape u.caps := by
  obtain ⟨t0, ht0, x0, hx0, hr0, hc0⟩ := mem_seq_rest hu
  obtain ⟨t1, ht1, x1, hx1, hr1, hc1⟩ := mem_seq_rest hx0
  obtain ⟨t2, ht2, x2, hx2, hr2, hc2⟩ := mem_seq_rest hx1
  obtain ⟨t3, ht3, x3, hx3, hr3, hc3⟩ := mem_seq_rest hx2
  obtain ⟨t4, ht4, x4, hx4, hr4, hc4⟩ := mem_seq_rest hx3
  obtain ⟨t5, ht5, x5, hx5, hr5, hc5⟩ := mem_seq_rest hx4
  obtain ⟨t6, ht6, x6, hx6, hr6, hc6⟩ := mem_seq_rest hx5
  obtain ⟨t7, ht7, x7, hx7, hr7, hc7⟩ := mem_seq_rest hx6
  have e0 : t0.caps = fun _ => none := mem_bol ht0
  have e8 : x7.rest = [] ∧ x7.caps = t7.caps := mem_eol hx7
  have e1 := mem_reV ht1
  obtain ⟨o1, e2, h1⟩ := mem_reEpoch ht2
  obtain ⟨s2, e3, h2⟩ := mem_reRelease ht3
  obtain ⟨o3, o4, e4, h3⟩ := mem_rePre ht4
  obtain ⟨o5, o6, o7, e5, h5⟩ := mem_rePost ht5
  obtain ⟨o8, o9, e6, h8⟩ := mem_reDev ht6
  obtain ⟨o10, e7, h10⟩ := mem_reLocal ht7
  have hrest : u.rest = [] := by rw [hr0, hr1, hr2, hr3, hr4, hr5, hr6, hr7, e8.1]
  have hcaps : u.caps = setOpt (setOpt (setOpt (setOpt (setOpt (setOpt (setOpt (setOpt (setCap
      (setOpt (fun _ => none) 1 o1) 2 s2) 3 o3) 4 o4) 5 o5) 6 o6) 7 o7) 8 o8) 9 o9) 10 o10 := by
    rw [hc0, hc1, hc2, hc3, hc4, hc5, hc6, hc7, e8.2, e7, e6, e5, e4, e3, e2, e1, e0]
  clear hu ht0 hx0 hr0 hc0 ht1 hx1 hr1 hc1 ht2 hx2 hr2 hc2 ht3 hx3 hr3 hc3 ht4 hx4 hr4 hc4
  clear ht5 hx5 hr5 hc5 ht6 hx6 hr6 hc6 ht7 hx7 hr7 hc7 e0 e1 e2 e3 e4 e5 e6 e7 e8
  have m1 : u.caps 1 = o1 := by
    rw [hcaps]; cases o1 <;> simp [setOpt_apply, setCap_apply]
  have m2 : u.caps 2 = some s2 := by
    rw [hcaps]; simp [setOpt_apply, setCap_apply]
  have m3 : u.caps 3 = o3 := by
    rw [hcaps]; cases o3 <;> simp [setOpt_apply, setCap_apply]
  have m4 : u.caps 4 = o4 := by
    rw [hcaps]; cases o4 <;> simp [setOpt_apply, setCap_apply]
  have m5 : u.caps 5 = o5 := by
    rw [hcaps]; cases o5 <;> simp [setOpt_apply, setCap_apply]
  have m6 : u.caps 6 = o6 := by
    rw [hcaps]; cases o6 <;> simp [setOpt_apply, setCap_apply]
  have m7 : u.caps 7 = o7 := by
    rw [hcaps]; cases o7 <;> simp [setOpt_apply, setCap_apply]
  have m8 : u.caps 8 = o8 := by
    rw [hcaps]; cases o8 <;> simp [setOpt_apply, setCap_apply]
  have m9 : u.caps 9 = o9 := by
    rw [hcaps]; cases o9 <;> simp [setOpt_apply, setCap_apply]
  have m10 : u.caps 10 = o10 := by
    rw [hcaps]; cases o10 <;> simp [setOpt_apply, setCap_apply]
  refine ⟨hrest, ?_, ⟨s2, m2, h2⟩, ?_, ?_, ?_, ?_⟩
  · rw [m1]; exact h1
  · rw [m3, m4]; exact h3
  · rw [m5, m6, m7]
    rcases h5 with h | ⟨p, hp, _, _, q1, q2⟩ | h
    · exact Or.inl h
    · exact Or.inr (Or.inl ⟨p, hp, q1, q2⟩)
    · exact Or.inr (Or.inr h)
  · rw [m8, m9]; exact h8
  · rw [m10]; exact h10

/-- A successful `std::regex_match` against `VERSION_REGEX` yields sub-matches of the
expected shape. -/
theorem regex_match_shape {s : Str} {m : Caps}
    (h : regex_match true VERSION_REGEX s = some m) : CapsShape m := by
  simp only [regex_match, Option.map_eq_some'] at h
  obtain ⟨t, ht, rfl⟩ := h
  exact (mem_VERSION_REGEX (List.mem_of_find?_eq_some ht)).2

/-! ## From the sub-matches to the fields -/

theorem getlineAux_run (d : Char) : ∀ (ds cur rest : Str), (∀ c ∈ ds, c ≠ d) →
    getlineAux d cur (ds ++ rest) = getlineAux d (cur ++ ds) rest := by
  intro ds
  induction ds with
  | nil => intro cur rest _; simp
  | cons x xs ih =>
    intro cur rest h
    have hx : x ≠ d := h x (by simp)
    simp only [List.cons_append, getlineAux, if_neg hx, List.append_eq]
    rw [ih (cur ++ [x]) rest (fun c hc => h c (by simp [hc]))]
    simp

theorem digit_ne_dot {c : Char} (h : c.isDigit = true) : c ≠ '.' := by
  rintro rfl; exact absurd h (by decide)

/-- The `std::getline` loop cuts a release into its runs of digits. -/
theorem getlines_release : ∀ (segs : List (Char × Str)) (d0 : Str), d0 ≠ [] → allDigits d0 →
    Segs (fun x => x == '.') Char.isDigit segs →
    getlines '.' (d0 ++ joinTail segs) = d0 :: segs.map Prod.snd := by
  intro segs
  induction segs with
  | nil =>
    intro d0 hne hd _
    simp only [getlines, joinTail, List.map_nil]
    rw [getlineAux_run '.' d0 [] [] (fun c hc => digit_ne_dot (hd c hc))]
    simp [getlineAux, hne]
  | cons p ps ih =>
    intro d0 hne hd hsegs
    obtain ⟨x, s⟩ := p
    obtain ⟨hx, hs1, hs2⟩ := hsegs (x, s) (by simp)
    have hx' : x = '.' := by simpa using hx
    subst hx'
    have hps : Segs (fun x => x == '.') Char.isDigit ps := fun q hq => hsegs q (by simp [hq])
    have := ih s hs1 hs2 hps
    simp only [getlines] at this ⊢
    simp only [joinTail, List.map_cons]
    rw [getlineAux_run '.' d0 [] _ (fun c hc => digit_ne_dot (hd c hc))]
    simp only [List.nil_append, getlineAux, if_true, List.append_eq]
    rw [this]

theorem stoiAll_digits_ok : ∀ (l : List Str) (rel : List Int),
    (∀ s ∈ l, s ≠ [] ∧ allDigits s) → stoiAll l = .ok rel →
    rel.length = l.length ∧ ∀ x ∈ rel, 0 ≤ x ∧ x ≤ INT_MAX := by
  intro l
  induction l with
  | nil =>
    intro rel _ h
    simp only [stoiAll] at h
    cases h
    exact ⟨rfl, fun x hx => by cases hx⟩
  | cons s ss ih =>
    intro rel hl h
    simp only [stoiAll] at h
    cases h1 : stoi s with
    | error e => rw [h1] at h; cases h
    | ok n =>
      rw [h1] at h
      cases h2 : stoiAll ss with
      | error e => rw [h2] at h; cases h
      | ok ns =>
        rw [h2] at h
        cases h
        obtain ⟨q1, q2⟩ := ih ns (fun t ht => hl t (by simp [ht])) h2
        obtain ⟨a1, a2⟩ := hl s (by simp)
        refine ⟨by simp [q1], ?_⟩
        intro x hx
        simp only [List.mem_cons] at hx
        rcases hx with rfl | hx
        · exact stoi_digits_ok a1 a2 h1
        · exact q2 x hx

theorem ofMatch_ok_iff (m : Caps) (v : Version) :
    Version.ofMatch m = .ok v ↔
      parseEpoch m = .ok v.epoch ∧ parseRelease m = .ok v.release ∧ parsePre m = .ok v.pre ∧
        parsePost m = .ok v.post ∧ parseDev m = .ok v.dev ∧ m 10 = v.local_ := by
  unfold Version.ofMatch
  cases parseEpoch m with
  | error e => simp
  | ok a =>
    cases parseRelease m with
    | error e => simp
    | ok b =>
      cases parsePre m with
      | error e => simp
      | ok c =>
        cases parsePost m with
        | error e => simp
        | ok d =>
          cases parseDev m with
          | error e => simp
          | ok f =>
            obtain ⟨ve, vr, vp, vo, vd, vl⟩ := v
            simp

theorem parseEpoch_ok {m : Caps} {x : Int} (hm : ∀ e, m 1 = some e → e ≠ [] ∧ allDigits e)
    (h : parseEpoch m = .ok x) : 0 ≤ x ∧ x ≤ INT_MAX := by
  unfold parseEpoch at h
  cases h1 : m 1 with
  | none => rw [h1] at h; cases h; exact ⟨le_refl _, by decide⟩
  | some e =>
    rw [h1] at h
    exact stoi_digits_ok (hm e h1).1 (hm e h1).2 h

theorem parseRelease_ok {m : Caps} {rel : List Int} (hm : ∃ r, m 2 = some r ∧ RelShape r)
    (h : parseRelease m = .ok rel) : rel ≠ [] ∧ ∀ x ∈ rel, 0 ≤ x ∧ x ≤ INT_MAX := by
  obtain ⟨r, hr, d0, segs, rfl, hne, hd, hsegs⟩ := hm
  simp only [parseRelease, hr, Option.getD_some, getlines_release segs d0 hne hd hsegs] at h
  obtain ⟨h1, h2⟩ := stoiAll_digits_ok _ rel (by
    intro s hs
    simp only [List.mem_cons, List.mem_map] at hs
    rcases hs with rfl | ⟨p, hp, rfl⟩
    · exact ⟨hne, hd⟩
    · exact ⟨(hsegs p hp).2.1, (hsegs p hp).2.2⟩) h
  refine ⟨?_, h2⟩
  intro e; rw [e] at h1; simp at h1

theorem parsePre_ok {m : Caps} {p : Option (Str × Int)}
    (hm : (m 3 = none ∧ m 4 = none) ∨
      ∃ l d, m 3 = some l ∧ m 4 = some d ∧ isNormalLabel (normalize_pre_label l) ∧ allDigits d)
    (h : parsePre m = .ok p) :
    ∀ l n, p = some (l, n) → isNormalLabel l ∧ 0 ≤ n ∧ n ≤ INT_MAX := by
  unfold parsePre at h
  rcases hm with ⟨h3, _⟩ | ⟨l, d, h3, h4, hl, hd⟩
  · rw [h3] at h; cases h
    intro l n e; cases e
  · rw [h3] at h
    simp only at h
    cases h5 : stoiOrZero (m 4) with
    | error e => rw [h5] at h; cases h
    | ok n =>
      rw [h5] at h
      cases h
      intro l' n' e
      cases e
      exact ⟨hl, stoiOrZero_digits_ok (fun d' hd' => by rw [h4] at hd'; cases hd'; exact hd) h5⟩

theorem parsePost_ok {m : Caps} {p : Option Int}
    (hm : (m 5 = none ∧ m 6 = none ∧ m 7 = none) ∨ (∃ p, m 5 = some p ∧ p ≠ [] ∧ allDigits p) ∨
      ∃ k d, m 5 = none ∧ m 6 = some k ∧ m 7 = some d ∧ allDigits d)
    (h : parsePost m = .ok p) : ∀ n, p = some n → 0 ≤ n ∧ n ≤ INT_MAX := by
  unfold parsePost at h
  rcases hm with ⟨h5, h6, h7⟩ | ⟨q, h5, hne, hd⟩ | ⟨k, d, h5, h6, h7, hd⟩
  · rw [h5, h6, h7] at h
    simp at h
    subst h
    intro n e; cases e
  · rw [h5] at h
    simp only at h
    cases h1 : stoi q with
    | error e => rw [h1] at h; cases h
    | ok n =>
      rw [h1] at h; cases h
      intro n' e; cases e
      exact stoi_digits_ok hne hd h1
  · rw [h5] at h
    simp only [h6, Option.isSome_some, true_or, if_true] at h
    cases h1 : stoiOrZero (m 7) with
    | error e => rw [h1] at h; cases h
    | ok n =>
      rw [h1] at h; cases h
      intro n' e; cases e
      exact stoiOrZero_digits_ok (fun d' hd' => by rw [h7] at hd'; cases hd'; exact hd) h1

theorem parseDev_ok {m : Caps} {p : Option Int}
    (hm : (m 8 = none ∧ m 9 = none) ∨ ∃ k d, m 8 = some k ∧ m 9 = some d ∧ allDigits d)
    (h : parseDev m = .ok p) : ∀ n, p = some n → 0 ≤ n ∧ n ≤ INT_MAX := by
  unfold parseDev at h
  rcases hm with ⟨h8, _⟩ | ⟨k, d, h8, h9, hd⟩
  · rw [h8] at h; cases h
    intro n e; cases e
  · rw [h8] at h
    simp only at h
    cases h1 : stoiOrZero (m 9) with
    | error e => rw [h1] at h; cases h
    | ok n =>
      rw [h1] at h; cases h
      intro n' e; cases e
      exact stoiOrZero_digits_ok (fun d' hd' => by rw [h9] at hd'; cases hd'; exact hd) h1

/-- Every version that `Version::parse` returns is well formed. -/
theorem parse_wellFormed {s : Str} {v : Version} (h : Version.parse s = .ok v) :
    v.wellFormed := by
  unfold Version.parse at h
  cases hm : regex_match true VERSION_REGEX s with
  | none => rw [hm] at h; cases h
  | some m =>
    rw [hm] at h
    simp only at h
    obtain ⟨s1, s2, s3, s5, s8, s10⟩ := regex_match_shape hm
    obtain ⟨p1, p2, p3, p5, p8, p10⟩ := (ofMatch_ok_iff m v).mp h
    exact ⟨parseEpoch_ok s1 p1, parseRelease_ok s2 p2, parsePre_ok s3 p3, parsePost_ok s5 p5,
      parseDev_ok s8 p8, fun l hl => s10 l (by rw [p10, hl])⟩

/-! ## The match of a display form: the parts -/

theorem oneChar_cons (p : Char → Bool) (x : Char) (xs : Str) (c : Caps) :
    oneChar p (x :: xs) c = if p x then [⟨[x], xs, c⟩] else [] := rfl

theorem oneChar_nil (p : Char → Bool) (c : Caps) : oneChar p [] c = [] := rfl

theorem chrOk_self (x : Char) : chrOk true x x = true := by simp [chrOk]

theorem First.word {w : Str} : ∀ (p r : Str) (c : Caps),
    First true w (Regex.word p) (p ++ r) c p r c
  | [], r, c => ⟨[], rfl⟩
  | [x], r, c => First.chr (chrOk_self x)
  | x :: y :: ps, r, c => by
    have h1 : First true w (.chr x) (x :: (y :: ps ++ r)) c [x] (y :: ps ++ r) c :=
      First.chr (chrOk_self x)
    exact First.seq h1 (First.word (y :: ps) r c)

theorem isSepChar_iff (x : Char) : isSepChar x = true ↔ x = '-' ∨ x = '_' ∨ x = '.' := by
  simp only [isSepChar, List.any_cons, List.any_nil, Bool.or_false, Bool.or_eq_true, itemOk]
  constructor
  · rintro (h | h | h)
    · exact Or.inl (chrOk_nonletter (by decide) h)
    · exact Or.inr (Or.inl (chrOk_nonletter (by decide) h))
    · exact Or.inr (Or.inr (chrOk_nonletter (by decide) h))
  · rintro (rfl | rfl | rfl) <;> decide

theorem sep_not_alnum (x : Char) (h : isSepChar x = true) : isAlnumChar x = false := by
  rcases (isSepChar_iff x).mp h with rfl | rfl | rfl <;> decide

theorem digit_not_sep (x : Char) (h : x.isDigit = true) : isSepChar x = false := by
  rcases hs : isSepChar x with _ | _
  · rfl
  · rcases (isSepChar_iff x).mp hs with rfl | rfl | rfl <;> exact absurd h (by decide)

theorem First.optSep_take {w : Str} {x : Char} (r : Str) (c : Caps) (h : isSepChar x = true) :
    First true w (.opt reSep) (x :: r) c [x] r c := by
  apply First.opt
  simp only [First, matchR_reSep, oneChar_cons, h, if_true]
  exact ⟨_, rfl⟩

theorem First.optSep_skip {w : Str} (r : Str) (c : Caps)
    (h : ∀ x xs, r = x :: xs → isSepChar x = false) :
    First true w (.opt reSep) r c [] r c := by
  apply First.opt_skip
  rw [matchR_reSep]
  exact oneChar_nil_of_tail h c

theorem First.eol_nil {w : Str} (c : Caps) : First true w .eol [] c [] [] c :=
  ⟨[], by simp [matchR]⟩

theorem showInt_cons {n : Int} (h : 0 ≤ n) :
    ∃ d ds, showInt n = d :: ds ∧ d.isDigit = true ∧ allDigits ds := by
  obtain ⟨h1, h2, _⟩ := showInt_spec h
  obtain ⟨d, ds, e⟩ := List.exists_cons_of_ne_nil h1
  rw [e] at h2
  exact ⟨d, ds, e, (allDigits_cons.mp h2).1, (allDigits_cons.mp h2).2⟩

/-- The digits of a number followed by `T`: the optional separator is skipped and the
group takes the digits. -/
theorem First.sepDigits {w : Str} (i : Nat) {n : Int} (hn : 0 ≤ n) (T : Str) (c : Caps)
    (hT : ∀ x xs, T = x :: xs → x.isDigit = false) :
    First true w (.seq (.opt reSep) (.group i (.star .digit))) (showInt n ++ T) c
      (showInt n) T (setCap c i (showInt n)) := by
  obtain ⟨d, ds, e, hd, hds⟩ := showInt_cons hn
  have h1 : First true w (.opt reSep) (showInt n ++ T) c [] (showInt n ++ T) c := by
    apply First.optSep_skip
    intro x xs hx
    rw [e] at hx
    simp only [List.cons_append, List.cons.injEq] at hx
    rw [← hx.1]; exact digit_not_sep d hd
  have h2 := First.group (i := i) (star_first (matchR_digit true w) T c (showInt_spec hn).2.1 hT)
  have := First.seq h1 h2
  simpa using this

theorem tailP_head {T : Str} (h : TailP T) : ∀ x xs, T = x :: xs → x.isDigit = false := by
  intro x xs e
  rcases h with ((((h | ⟨l, h⟩) | ⟨r, h⟩) | ⟨r, h⟩) | ⟨r, h | h | h⟩) <;> rw [h] at e
  · cases e
  all_goals
    simp only [List.cons.injEq] at e
    rw [← e.1]; decide

theorem tailQ_head {T : Str} (h : TailQ T) : ∀ x xs, T = x :: xs → x.isDigit = false :=
  tailP_head (Or.inl h)

theorem tailD_head {T : Str} (h : TailD T) : ∀ x xs, T = x :: xs → x.isDigit = false :=
  tailQ_head (Or.inl h)

theorem tailL_head {T : Str} (h : TailL T) : ∀ x xs, T = x :: xs → x.isDigit = false :=
  tailD_head (Or.inl h)

/-! ### The dev part -/

theorem fail_dev {w T : Str} (c : Caps) (h : TailL T) :
    matchR true w (.seq (.opt reSep) (.seq (.group 8 (Regex.word ['d', 'e', 'v']))
      (.seq (.opt reSep) (.group 9 (.star .digit))))) T c = [] := by
  rcases h with rfl | ⟨l, rfl⟩ <;>
    simp [matchR, reSep, Regex.word, oneChar_cons, oneChar_nil, andThen, chrOk, itemOk]

theorem first_dev_none {w T : Str} (c : Caps) (h : TailL T) : First true w reDev T c [] T c :=
  First.opt_skip (fail_dev c h)

theorem first_dev_some {w : Str} {n : Int} (hn : 0 ≤ n) (T : Str) (c : Caps) (h : TailL T) :
    First true w reDev ('.' :: 'd' :: 'e' :: 'v' :: (showInt n ++ T)) c
      ('.' :: 'd' :: 'e' :: 'v' :: showInt n) T
      (setCap (setCap c 8 ['d', 'e', 'v']) 9 (showInt n)) := by
  have h1 : First true w (.opt reSep) ('.' :: 'd' :: 'e' :: 'v' :: (showInt n ++ T)) c ['.']
      ('d' :: 'e' :: 'v' :: (showInt n ++ T)) c := First.optSep_take _ c (by decide)
  have h2 := First.group (i := 8) (First.word (w := w) ['d', 'e', 'v'] (showInt n ++ T) c)
  have h3 := First.sepDigits (w := w) 9 hn T (setCap c 8 ['d', 'e', 'v']) (tailL_head h)
  exact First.opt (First.seq h1 (First.seq h2 h3))

/-! ### The post part -/

theorem fail_post {w T : Str} (c : Caps) (h : TailD T) :
    matchR true w (.alt (.seq (.chr '-') (.group 5 (.plus .digit)))
      (.seq (.opt reSep) (.seq rePostLabel (.seq (.opt reSep) (.group 7 (.star .digit)))))) T c =
      [] := by
  rcases h with (rfl | ⟨l, rfl⟩) | ⟨r, rfl⟩ <;>
    simp [matchR, reSep, rePostLabel, Regex.word, oneChar_cons, oneChar_nil, andThen, chrOk,
      itemOk]

theorem first_post_none {w T : Str} (c : Caps) (h : TailD T) :
    First true w rePost T c [] T c :=
  First.opt_skip (fail_post c h)

theorem first_post_some {w : Str} {n : Int} (hn : 0 ≤ n) (T : Str) (c : Caps) (h : TailD T) :
    First true w rePost ('.' :: 'p' :: 'o' :: 's' :: 't' :: (showInt n ++ T)) c
      ('.' :: 'p' :: 'o' :: 's' :: 't' :: showInt n) T
      (setCap (setCap c 6 ['p', 'o', 's', 't']) 7 (showInt n)) := by
  have h0 : matchR true w (.seq (.chr '-') (.group 5 (.plus .digit)))
      ('.' :: 'p' :: 'o' :: 's' :: 't' :: (showInt n ++ T)) c = [] := by
    simp [matchR, oneChar_cons, chrOk]
  have h1 : First true w (.opt reSep) ('.' :: 'p' :: 'o' :: 's' :: 't' :: (showInt n ++ T)) c
      ['.'] ('p' :: 'o' :: 's' :: 't' :: (showInt n ++ T)) c := First.optSep_take _ c (by decide)
  have h2 : First true w rePostLabel ('p' :: 'o' :: 's' :: 't' :: (showInt n ++ T)) c
      ['p', 'o', 's', 't'] (showInt n ++ T) (setCap c 6 ['p', 'o', 's', 't']) :=
    First.group (First.alt_left (First.word (w := w) ['p', 'o', 's', 't'] (showInt n ++ T) c))
  have h3 := First.sepDigits (w := w) 7 hn T (setCap c 6 ['p', 'o', 's', 't']) (tailD_head h)
  exact First.opt (First.alt_right h0 (First.seq h1 (First.seq h2 h3)))

/-! ### The pre-release part -/

theorem fail_pre {w T : Str} (c : Caps) (h : TailQ T) :
    matchR true w (.seq (.opt reSep) (.seq rePreLabel (.seq (.opt reSep)
      (.group 4 (.star .digit))))) T c = [] := by
  rcases h with ((rfl | ⟨l, rfl⟩) | ⟨r, rfl⟩) | ⟨r, rfl⟩ <;>
    simp [matchR, reSep, rePreLabel, Regex.word, oneChar_cons, oneChar_nil, andThen, chrOk,
      itemOk]

theorem first_pre_none {w T : Str} (c : Caps) (h : TailQ T) : First true w rePre T c [] T c :=
  First.opt_skip (fail_pre c h)

theorem first_preLabel {w : Str} {l : Str} (hl : isNormalLabel l) (r : Str) (c : Caps) :
    First true w rePreLabel (l ++ r) c l r (setCap c 3 l) := by
  apply First.group
  rcases hl with rfl | rfl | rfl
  · exact First.alt_left (First.chr (chrOk_self 'a'))
  · exact First.alt_right (by simp [matchR, oneChar_cons, chrOk])
      (First.alt_left (First.chr (chrOk_self 'b')))
  · refine First.alt_right (by simp [matchR, oneChar_cons, chrOk])
      (First.alt_right (by simp [matchR, oneChar_cons, chrOk])
        (First.alt_right (by simp [matchR, oneChar_cons, chrOk]) (First.alt_left ?_)))
    exact First.word ['r', 'c'] r c

theorem first_pre_some {w : Str} {l : Str} {n : Int} (hl : isNormalLabel l) (hn : 0 ≤ n)
    (T : Str) (c : Caps) (h : TailQ T) :
    First true w rePre (l ++ (showInt n ++ T)) c (l ++ showInt n) T
      (setCap (setCap c 3 l) 4 (showInt n)) := by
  have h1 : First true w (.opt reSep) (l ++ (showInt n ++ T)) c [] (l ++ (showInt n ++ T)) c := by
    apply First.optSep_skip
    intro x xs hx
    rcases hl with rfl | rfl | rfl <;>
      · simp only [List.cons_append, List.cons.injEq] at hx
        rw [← hx.1]; decide
  have h2 := first_preLabel (w := w) hl (showInt n ++ T) c
  have h3 := First.sepDigits (w := w) 4 hn T (setCap c 3 l) (tailQ_head h)
  have := First.opt (First.seq h1 (First.seq h2 h3))
  simpa using this

/-! ### The release -/

theorem showRelease_cons (x : Int) (xs : List Int) :
    showRelease (x :: xs) = showInt x ++ joinTail (xs.map fun y => ('.', showInt y)) := by
  induction xs generalizing x with
  | nil => simp [showRelease, joinTail]
  | cons y ys ih => simp [showRelease, joinTail, ih y]

theorem segs_of_release (xs : List Int) (h : ∀ x ∈ xs, 0 ≤ x) :
    Segs (chrOk true '.') Char.isDigit (xs.map fun y => ('.', showInt y)) ∧
    Segs (fun x => x == '.') Char.isDigit (xs.map fun y => ('.', showInt y)) := by
  constructor
  · intro p hp
    obtain ⟨y, hy, rfl⟩ := List.mem_map.mp hp
    exact ⟨chrOk_self '.', (showInt_spec (h y hy)).1, (showInt_spec (h y hy)).2.1⟩
  · intro p hp
    obtain ⟨y, hy, rfl⟩ := List.mem_map.mp hp
    exact ⟨rfl, (showInt_spec (h y hy)).1, (showInt_spec (h y hy)).2.1⟩

theorem fail_dotDigits {w T : Str} (c : Caps) (h : TailP T) :
    matchR true w (.seq (.chr '.') (.plus .digit)) T c = [] := by
  rcases h with ((((rfl | ⟨l, rfl⟩) | ⟨r, rfl⟩) | ⟨r, rfl⟩) | ⟨r, rfl | rfl | rfl⟩) <;>
    simp [matchR, oneChar_cons, oneChar_nil, andThen, chrOk]

theorem first_release {w : Str} {rel : List Int} (hne : rel ≠ []) (hrel : ∀ x ∈ rel, 0 ≤ x)
    (T : Str) (c : Caps) (h : TailP T) :
    First true w reRelease (showRelease rel ++ T) c (showRelease rel) T
      (setCap c 2 (showRelease rel)) := by
  obtain ⟨x, xs, rfl⟩ := List.exists_cons_of_ne_nil hne
  have hx := showInt_spec (hrel x (by simp))
  have hsegs := (segs_of_release xs (fun y hy => hrel y (by simp [hy]))).1
  rw [showRelease_cons]
  have hnext : ∀ y ys, joinTail (xs.map fun y => ('.', showInt y)) ++ T = y :: ys →
      y.isDigit = false := by
    intro y ys e
    cases xs with
    | nil => exact tailP_head h y ys (by simpa [joinTail] using e)
    | cons z zs =>
      simp only [List.map_cons, joinTail, List.cons_append, List.cons.injEq] at e
      rw [← e.1]; decide
  have h1 := plus_first (matchR_digit true w) _ c hx.1 hx.2.1 hnext
  have h2 := star_segs_first (matchR_chr true w '.') (matchR_digit true w)
    (fun y hy => by rw [chrOk_nonletter (by decide) hy]; decide) c (tailP_head h)
    (fail_dotDigits c h) hsegs
  have := First.group (i := 2) (First.seq h1 h2)
  simpa using this

/-! ### The epoch and the leading `v` -/

theorem first_epoch_some {w : Str} {e : Int} (he : 0 ≤ e) (R : Str) (c : Caps) :
    First true w reEpoch (showInt e ++ '!' :: R) c (showInt e ++ ['!']) R
      (setCap c 1 (showInt e)) := by
  have hx := showInt_spec he
  have h1 := First.group (i := 1) (plus_first (matchR_digit true w) ('!' :: R) c hx.1 hx.2.1
    (by intro y ys e; simp only [List.cons.injEq] at e; rw [← e.1]; decide))
  have h2 : First true w (.chr '!') ('!' :: R) (setCap c 1 (showInt e)) ['!'] R
      (setCap c 1 (showInt e)) := First.chr (chrOk_self '!')
  exact First.opt (First.seq h1 h2)

/-- Without an epoch the attempt to read one fails: after the digits of the first release
segment there is no `!`. -/
theorem first_epoch_none {w : Str} {rel : List Int} (hne : rel ≠ []) (hrel : ∀ x ∈ rel, 0 ≤ x)
    (T : Str) (c : Caps) (h : TailP T) :
    First true w reEpoch (showRelease rel ++ T) c [] (showRelease rel ++ T) c := by
  apply First.opt_skip
  rw [List.eq_nil_iff_forall_not_mem]
  intro u hu
  obtain ⟨t, ht, x, hx, _⟩ := mem_seq.mp hu
  obtain ⟨t', ht', rfl⟩ := mem_group.mp ht
  obtain ⟨h1, h2, _⟩ := plus_mem (matchR_digit true w) ht'
  have hsplit := matchR_split true w _ _ _ _ ht'
  obtain ⟨y, ys, hy, hbang, _⟩ := mem_oneChar.mp hx
  simp only at hy
  have hy' : y = '!' := chrOk_nonletter (by decide) hbang
  subst hy'
  rw [hy] at hsplit
  -- the `!` would have to occur in the display form of the release or at the head of `T`
  obtain ⟨z, zs, rfl⟩ := List.exists_cons_of_ne_nil hne
  rw [showRelease_cons, List.append_assoc] at hsplit
  have hz := showInt_spec (hrel z (by simp))
  have hnext : ∀ y ys, joinTail (zs.map fun y => ('.', showInt y)) ++ T = y :: ys →
      y ≠ '!' ∧ y.isDigit = false := by
    intro y ys e
    cases zs with
    | nil =>
      refine ⟨?_, tailP_head h y ys (by simpa [joinTail] using e)⟩
      rcases h with ((((h | ⟨l, h⟩) | ⟨r, h⟩) | ⟨r, h⟩) | ⟨r, h | h | h⟩) <;>
        rw [h] at e <;> simp [joinTail] at e <;> (rw [← e.1]; decide)
    | cons q qs =>
      simp only [List.map_cons, joinTail, List.cons_append, List.cons.injEq] at e
      rw [← e.1]; exact ⟨by decide, by decide⟩
  rcases List.append_eq_append_iff.mp hsplit with ⟨a', e1, e2⟩ | ⟨c', e1, e2⟩
  · cases a' with
    | nil =>
      simp only [List.nil_append] at e2
      exact (hnext '!' ys e2).1 rfl
    | cons q qs =>
      simp only [List.cons_append] at e2
      have hq : q.isDigit = true := h2 q (by rw [e1]; simp)
      rw [(hnext q _ e2).2] at hq
      exact absurd hq (by simp)
  · cases c' with
    | nil =>
      simp only [List.nil_append] at e2
      exact (hnext '!' ys e2.symm).1 rfl
    | cons q qs =>
      simp only [List.cons_append, List.cons.injEq] at e2
      have : ('!' : Char).isDigit = true := hz.2.1 '!' (by rw [e1, ← e2.1]; simp)
      exact absurd this (by decide)

/-! ## The match of a display form: the whole -/

theorem first_v {w : Str} {d : Char} (hd : d.isDigit = true) (ds : Str) (c : Caps) :
    First true w reV (d :: ds) c [] (d :: ds) c := by
  apply First.opt_skip
  rw [matchR_chr, oneChar_cons, chrOk_digit_false (by decide) hd]
  rfl

theorem first_localBody {w : Str} {l : Str} (hl : LocalShape l) (c : Caps) :
    First true w reLocalBody l c l [] (setCap c 10 l) := by
  obtain ⟨s0, segs, rfl, hne, hs0, hsegs⟩ := hl
  have hnext : ∀ y ys, joinTail segs ++ [] = y :: ys → isAlnumChar y = false := by
    intro y ys e
    cases segs with
    | nil => simp [joinTail] at e
    | cons q qs =>
      obtain ⟨z, s'⟩ := q
      simp only [joinTail, List.cons_append, List.cons.injEq] at e
      rw [← e.1]
      exact sep_not_alnum z (hsegs (z, s') (by simp)).1
  have h1 := plus_first (matchR_reAlnum w) (joinTail segs ++ []) c hne hs0 hnext
  have h2 := star_segs_first (matchR_reSep w) (matchR_reAlnum w) sep_not_alnum c
    (fun x xs e => by cases e)
    (by simp [matchR, reSep, oneChar_nil] : matchR true w (.seq reSep (.plus reAlnum)) [] c = [])
    hsegs
  have := First.group (i := 10) (First.seq h1 h2)
  simpa [reLocalBody] using this

theorem tailL_show (o : Option Str) : TailL (showLocal o) := by
  cases o with
  | none => exact Or.inl rfl
  | some l => exact Or.inr ⟨l, rfl⟩

theorem tailD_show (d : Option Int) (o : Option Str) : TailD (showDev d ++ showLocal o) := by
  cases d with
  | none => exact Or.inl (tailL_show o)
  | some n => exact Or.inr ⟨_, rfl⟩

theorem tailQ_show (q d : Option Int) (o : Option Str) :
    TailQ (showPost q ++ (showDev d ++ showLocal o)) := by
  cases q with
  | none => exact Or.inl (tailD_show d o)
  | some n => exact Or.inr ⟨_, rfl⟩

theorem tailP_show (p : Option (Str × Int)) (hp : ∀ l n, p = some (l, n) → isNormalLabel l)
    (q d : Option Int) (o : Option Str) :
    TailP (showPre p ++ (showPost q ++ (showDev d ++ showLocal o))) := by
  rcases p with _ | ⟨l, n⟩
  · exact Or.inl (tailQ_show q d o)
  · rcases hp l n rfl with rfl | rfl | rfl
    · exact Or.inr ⟨_, Or.inl rfl⟩
    · exact Or.inr ⟨_, Or.inr (Or.inl rfl)⟩
    · exact Or.inr ⟨_, Or.inr (Or.inr rfl)⟩

/-- The local part and the end of the input. -/
theorem first_K8 {w : Str} (o : Option Str) (ho : ∀ l, o = some l → LocalShape l) (c : Caps) :
    First true w (.seq reLocal .eol) (showLocal o) c (showLocal o) [] (setOpt c 10 o) := by
  cases o with
  | none =>
    have h1 : First true w reLocal [] c [] [] c :=
      First.opt_skip (by simp [matchR, oneChar_nil])
    exact First.seq h1 (First.eol_nil c)
  | some l =>
    have h0 : First true w (.chr '+') ('+' :: l) c ['+'] l c := First.chr (chrOk_self '+')
    have h1 : First true w reLocal ('+' :: l) c ('+' :: l) [] (setCap c 10 l) :=
      First.opt (First.seq h0 (first_localBody (ho l rfl) c))
    have := First.seq h1 (First.eol_nil (w := w) (setCap c 10 l))
    simpa using this

/-- The dev part and what follows. -/
theorem first_K7 {w : Str} (d : Option Int) (hd : ∀ n, d = some n → 0 ≤ n) (o : Option Str)
    (ho : ∀ l, o = some l → LocalShape l) (c : Caps) :
    First true w (.seq reDev (.seq reLocal .eol)) (showDev d ++ showLocal o) c
      (showDev d ++ showLocal o) []
      (setOpt (setOpt (setOpt c 8 (d.map fun _ => ['d', 'e', 'v'])) 9 (d.map showInt)) 10 o) := by
  cases d with
  | none => exact First.seq (first_dev_none c (tailL_show o)) (first_K8 o ho c)
  | some n =>
    exact First.seq (first_dev_some (hd n rfl) (showLocal o) c (tailL_show o)) (first_K8 o ho _)

/-- The post part and what follows. -/
theorem first_K6 {w : Str} (q : Option Int) (hq : ∀ n, q = some n → 0 ≤ n) (d : Option Int)
    (hd : ∀ n, d = some n → 0 ≤ n) (o : Option Str) (ho : ∀ l, o = some l → LocalShape l)
    (c : Caps) :
    First true w (.seq rePost (.seq reDev (.seq reLocal .eol)))
      (showPost q ++ (showDev d ++ showLocal o)) c (showPost q ++ (showDev d ++ showLocal o)) []
      (setOpt (setOpt (setOpt (setOpt (setOpt c 6 (q.map fun _ => ['p', 'o', 's', 't'])) 7
        (q.map showInt)) 8 (d.map fun _ => ['d', 'e', 'v'])) 9 (d.map showInt)) 10 o) := by
  cases q with
  | none => exact First.seq (first_post_none c (tailD_show d o)) (first_K7 d hd o ho c)
  | some n =>
    exact First.seq (first_post_some (hq n rfl) _ c (tailD_show d o)) (first_K7 d hd o ho _)

/-- The pre-release part and what follows. -/
theorem first_K5 {w : Str} (p : Option (Str × Int))
    (hp : ∀ l n, p = some (l, n) → isNormalLabel l ∧ 0 ≤ n) (q : Option Int)
    (hq : ∀ n, q = some n → 0 ≤ n) (d : Option Int) (hd : ∀ n, d = some n → 0 ≤ n)
    (o : Option Str) (ho : ∀ l, o = some l → LocalShape l) (c : Caps) :
    First true w (.seq rePre (.seq rePost (.seq reDev (.seq reLocal .eol))))
      (showPre p ++ (showPost q ++ (showDev d ++ showLocal o))) c
      (showPre p ++ (showPost q ++ (showDev d ++ showLocal o))) []
      (setOpt (setOpt (setOpt (setOpt (setOpt (setOpt (setOpt c 3 (p.map Prod.fst)) 4
        (p.map fun x => showInt x.2)) 6 (q.map fun _ => ['p', 'o', 's', 't'])) 7
        (q.map showInt)) 8 (d.map fun _ => ['d', 'e', 'v'])) 9 (d.map showInt)) 10 o) := by
  rcases p with _ | ⟨l, n⟩
  · exact First.seq (first_pre_none c (tailQ_show q d o)) (first_K6 q hq d hd o ho c)
  · have := First.seq (first_pre_some (hp l n rfl).1 (hp l n rfl).2 _ c (tailQ_show q d o))
      (first_K6 (w := w) q hq d hd o ho _)
    simpa [showPre] using this

theorem showRelease_head {rel : List Int} (hne : rel ≠ []) (hrel : ∀ x ∈ rel, 0 ≤ x) :
    ∃ d ds, showRelease rel = d :: ds ∧ d.isDigit = true := by
  obtain ⟨x, xs, rfl⟩ := List.exists_cons_of_ne_nil hne
  obtain ⟨d, ds, e, hd, _⟩ := showInt_cons (hrel x (by simp))
  rw [showRelease_cons, e]
  exact ⟨d, _, rfl, hd⟩

/-- The display form of a well-formed version behind the start of the input. -/
theorem first_K2 {w : Str} {v : Version} (hv : v.wellFormed) :
    First true w (.seq reV (.seq reEpoch (.seq reRelease (.seq rePre (.seq rePost
      (.seq reDev (.seq reLocal .eol))))))) v.to_string (fun _ => none) v.to_string []
      (displayCaps v) := by
  obtain ⟨⟨he0, _⟩, ⟨hne, hrel⟩, hp, hq, hd, ho⟩ := hv
  have hrel' : ∀ x ∈ v.release, 0 ≤ x := fun x hx => (hrel x hx).1
  have hp' : ∀ l n, v.pre = some (l, n) → isNormalLabel l ∧ 0 ≤ n :=
    fun l n h => ⟨(hp l n h).1, (hp l n h).2.1⟩
  have hT := tailP_show v.pre (fun l n h => (hp l n h).1) v.post v.dev v.local_
  have h5 := fun c => first_K5 (w := w) v.pre hp' v.post (fun n h => (hq n h).1) v.dev
    (fun n h => (hd n h).1) v.local_ ho c
  have h4 := fun c => First.seq (first_release (w := w) hne hrel' _ c hT) (h5 _)
  unfold Version.to_string displayCaps showEpoch
  by_cases he : v.epoch = 0
  · rw [if_neg (not_not.mpr he), if_neg (not_not.mpr he), setOpt_none]
    have h3 := First.seq (first_epoch_none (w := w) hne hrel' _ (fun _ => none) hT) (h4 _)
    obtain ⟨d, ds, e, hdd⟩ := showRelease_head hne hrel'
    have h2 := first_v (w := w) hdd (ds ++ (showPre v.pre ++ (showPost v.post ++
        (showDev v.dev ++ showLocal v.local_)))) (fun _ => none)
    simp only [List.nil_append] at h3 ⊢
    rw [e] at h3 ⊢
    have h := First.seq h2 h3
    simpa using h
  · rw [if_pos he, if_pos he, setOpt_some]
    have h3 := First.seq (first_epoch_some (w := w) he0 _ (fun _ => none))
      (h4 (setCap (fun _ => none) 1 (showInt v.epoch)))
    obtain ⟨d, ds, e, hdd, _⟩ := showInt_cons he0
    have h2 := first_v (w := w) hdd (ds ++ '!' :: (showRelease v.release ++
        (showPre v.pre ++ (showPost v.post ++ (showDev v.dev ++ showLocal v.local_)))))
        (fun _ => none)
    simp only [List.append_assoc, List.singleton_append] at h3 ⊢
    rw [e] at h3 ⊢
    have h := First.seq h2 h3
    simpa using h

/-- `std::regex_match` on the display form of a well-formed version. -/
theorem regex_match_display {v : Version} (hv : v.wellFormed) :
    regex_match true VERSION_REGEX v.to_string = some (displayCaps v) := by
  have h0 : First true v.to_string .bol v.to_string (fun _ => none) [] v.to_string
      (fun _ => none) := ⟨[], by simp [matchR]⟩
  obtain ⟨tl, e⟩ := First.seq h0 (first_K2 (w := v.to_string) hv)
  unfold regex_match
  rw [show matchR true v.to_string VERSION_REGEX v.to_string (fun _ => none) = _ from e]
  simp

/-! ## Parsing a display form -/

theorem displayCaps_1 (v : Version) :
    displayCaps v 1 = if v.epoch ≠ 0 then some (showInt v.epoch) else none := by
  unfold displayCaps
  by_cases he : v.epoch = 0 <;> simp [setOpt_apply, setCap_apply, he]

theorem displayCaps_2 (v : Version) : displayCaps v 2 = some (showRelease v.release) := by
  unfold displayCaps
  simp [setOpt_apply, setCap_apply]

theorem displayCaps_3 (v : Version) : displayCaps v 3 = v.pre.map Prod.fst := by
  unfold displayCaps
  cases v.pre <;> simp [setOpt_apply, setCap_apply]

theorem displayCaps_4 (v : Version) : displayCaps v 4 = v.pre.map fun x => showInt x.2 := by
  unfold displayCaps
  cases v.pre <;> simp [setOpt_apply, setCap_apply]

theorem displayCaps_5 (v : Version) : displayCaps v 5 = none := by
  unfold displayCaps
  simp [setOpt_apply, setCap_apply]

theorem displayCaps_6 (v : Version) :
    displayCaps v 6 = v.post.map fun _ => ['p', 'o', 's', 't'] := by
  unfold displayCaps
  cases v.post <;> simp [setOpt_apply, setCap_apply]

theorem displayCaps_7 (v : Version) : displayCaps v 7 = v.post.map showInt := by
  unfold displayCaps
  cases v.post <;> simp [setOpt_apply, setCap_apply]

theorem displayCaps_8 (v : Version) : displayCaps v 8 = v.dev.map fun _ => ['d', 'e', 'v'] := by
  unfold displayCaps
  cases v.dev <;> simp [setOpt_apply, setCap_apply]

theorem displayCaps_9 (v : Version) : displayCaps v 9 = v.dev.map showInt := by
  unfold displayCaps
  cases v.dev <;> simp [setOpt_apply, setCap_apply]

theorem displayCaps_10 (v : Version) : displayCaps v 10 = v.local_ := by
  unfold displayCaps
  cases v.local_ <;> simp [setOpt_apply, setCap_apply]

theorem stoiAll_showInt : ∀ rel : List Int, (∀ x ∈ rel, 0 ≤ x ∧ x ≤ INT_MAX) →
    stoiAll (rel.map showInt) = .ok rel := by
  intro rel
  induction rel with
  | nil => intro _; rfl
  | cons x xs ih =>
    intro h
    simp only [List.map_cons, stoiAll]
    rw [stoi_showInt (h x (by simp)).1 (h x (by simp)).2, ih (fun y hy => h y (by simp [hy]))]

theorem getlines_showRelease {rel : List Int} (hne : rel ≠ []) (hrel : ∀ x ∈ rel, 0 ≤ x) :
    getlines '.' (showRelease rel) = rel.map showInt := by
  obtain ⟨x, xs, rfl⟩ := List.exists_cons_of_ne_nil hne
  have hx := showInt_spec (hrel x (by simp))
  rw [showRelease_cons, getlines_release _ _ hx.1 hx.2.1
    (segs_of_release xs (fun y hy => hrel y (by simp [hy]))).2]
  simp [List.map_map, Function.comp]

theorem normalize_normal {l : Str} (h : isNormalLabel l) : normalize_pre_label l = l := by
  rcases h with rfl | rfl | rfl <;> decide

/-- The fields that `Version::parse` reads back from the display form of a well-formed
version are the fields of the version. -/
theorem ofMatch_display {v : Version} (hv : v.wellFormed) :
    Version.ofMatch (displayCaps v) = .ok v := by
  obtain ⟨⟨he0, he1⟩, ⟨hne, hrel⟩, hp, hq, hd, _⟩ := hv
  rw [ofMatch_ok_iff]
  refine ⟨?_, ?_, ?_, ?_, ?_, displayCaps_10 v⟩
  · rw [parseEpoch, displayCaps_1]
    by_cases he : v.epoch = 0
    · rw [if_neg (not_not.mpr he), he]
    · rw [if_pos he]
      exact stoi_showInt he0 he1
  · rw [parseRelease, displayCaps_2, Option.getD_some,
      getlines_showRelease hne (fun x hx => (hrel x hx).1), stoiAll_showInt _ hrel]
  · rw [parsePre, displayCaps_3, displayCaps_4]
    rcases hpre : v.pre with _ | ⟨l, n⟩
    · rfl
    · obtain ⟨h1, h2, h3⟩ := hp l n hpre
      simp only [Option.map_some']
      rw [stoiOrZero_showInt h2 h3, normalize_normal h1]
  · rw [parsePost, displayCaps_5, displayCaps_6, displayCaps_7]
    rcases hpost : v.post with _ | n
    · simp
    · obtain ⟨h2, h3⟩ := hq n hpost
      simp only [Option.map_some', Option.isSome_some, true_or, if_true]
      rw [stoiOrZero_showInt h2 h3]
  · rw [parseDev, displayCaps_8, displayCaps_9]
    rcases hdev : v.dev with _ | n
    · rfl
    · obtain ⟨h2, h3⟩ := hd n hdev
      simp only [Option.map_some']
      rw [stoiOrZero_showInt h2 h3]

/-- `Version::parse` reads a well-formed version back from its display form. -/
theorem parse_to_string {v : Version} (hv : v.wellFormed) :
    Version.parse v.to_string = .ok v := by
  rw [Version.parse, regex_match_display hv]
  exact ofMatch_display hv

theorem opEq_refl (v : Version) : v.opEq v = true := by
  simp [Version.opEq]

/-! ## The normalizing round trip -/

/-- C1. For every string on which `Version::parse` succeeds, `Version::parse` succeeds on
the display form of the result, and what it returns is equal, under `operator==`, to the
first result. -/
theorem C1_round_trip (s : Str) (v : Version) (h : Version.parse s = .ok v) :
    ∃ v', Version.parse v.to_string = .ok v' ∧ v'.opEq v = true :=
  ⟨v, parse_to_string (parse_wellFormed h), opEq_refl v⟩

/-- C1 at the input `v1.0-ALPHA.post-2+Ab_1`, whose display form is `1.0a0.post2+Ab_1`. -/
theorem C1_round_trip_witness :
    Version.parse "v1.0-ALPHA.post-2+Ab_1".toList =
        .ok ⟨0, [1, 0], some (['a'], 0), some 2, none, some "Ab_1".toList⟩ ∧
      Version.to_string ⟨0, [1, 0], some (['a'], 0), some 2, none, some "Ab_1".toList⟩ =
        "1.0a0.post2+Ab_1".toList ∧
      ∃ v', Version.parse
          (Version.to_string ⟨0, [1, 0], some (['a'], 0), some 2, none, some "Ab_1".toList⟩) =
            .ok v' ∧
        v'.opEq ⟨0, [1, 0], some (['a'], 0), some 2, none, some "Ab_1".toList⟩ = true :=
  ⟨by decide, by decide, C1_round_trip "v1.0-ALPHA.post-2+Ab_1".toList _ (by decide)⟩

/-! ## The ways `Version::parse` and `Range::parse` can end -/

theorem stoi_digits_outcome {ds : Str} (hne : ds ≠ []) (hall : allDigits ds) :
    (∃ n, stoi ds = .ok n) ∨ stoi ds = .error .out_of_range := by
  rw [stoi_digits hne hall]
  by_cases h : INT_MAX < (readNat ds : Int)
  · rw [if_pos h]; exact Or.inr rfl
  · rw [if_neg h]; exact Or.inl ⟨_, rfl⟩

theorem stoiOrZero_outcome {g : Option Str} (hall : ∀ d, g = some d → allDigits d) :
    (∃ n, stoiOrZero g = .ok n) ∨ stoiOrZero g = .error .out_of_range := by
  unfold stoiOrZero
  cases g with
  | none => exact Or.inl ⟨_, rfl⟩
  | some d =>
    simp only
    by_cases hd : d ≠ []
    · rw [if_pos hd]; exact stoi_digits_outcome hd (hall d rfl)
    · rw [if_neg hd]; exact Or.inl ⟨_, rfl⟩

theorem stoiAll_outcome : ∀ l : List Str, (∀ s ∈ l, s ≠ [] ∧ allDigits s) →
    (∃ r, stoiAll l = .ok r) ∨ stoiAll l = .error .out_of_range := by
  intro l
  induction l with
  | nil => intro _; exact Or.inl ⟨_, rfl⟩
  | cons s ss ih =>
    intro h
    simp only [stoiAll]
    rcases stoi_digits_outcome (h s (by simp)).1 (h s (by simp)).2 with ⟨n, hn⟩ | hn
    · rw [hn]
      rcases ih (fun t ht => h t (by simp [ht])) with ⟨r, hr⟩ | hr
      · rw [hr]; exact Or.inl ⟨_, rfl⟩
      · rw [hr]; exact Or.inr rfl
    · rw [hn]; exact Or.inr rfl

/-- After a successful match the only thing that can go wrong is a number that does not
fit an `int`. -/
theorem ofMatch_outcome {m : Caps} (hm : CapsShape m) :
    (∃ v, Version.ofMatch m = .ok v) ∨ Version.ofMatch m = .error .out_of_range := by
  obtain ⟨s1, ⟨r, hr, d0, segs, rfl, hne, hd, hsegs⟩, s3, s5, s8, _⟩ := hm
  have e1 : (∃ n, parseEpoch m = .ok n) ∨ parseEpoch m = .error .out_of_range := by
    unfold parseEpoch
    cases h1 : m 1 with
    | none => exact Or.inl ⟨_, rfl⟩
    | some e => exact stoi_digits_outcome (s1 e h1).1 (s1 e h1).2
  have e2 : (∃ n, parseRelease m = .ok n) ∨ parseRelease m = .error .out_of_range := by
    simp only [parseRelease, hr, Option.getD_some, getlines_release segs d0 hne hd hsegs]
    apply stoiAll_outcome
    intro s hs
    simp only [List.mem_cons, List.mem_map] at hs
    rcases hs with rfl | ⟨p, hp, rfl⟩
    · exact ⟨hne, hd⟩
    · exact ⟨(hsegs p hp).2.1, (hsegs p hp).2.2⟩
  have e3 : (∃ n, parsePre m = .ok n) ∨ parsePre m = .error .out_of_range := by
    unfold parsePre
    rcases s3 with ⟨h3, _⟩ | ⟨l, d, h3, h4, _, hd4⟩
    · rw [h3]; exact Or.inl ⟨_, rfl⟩
    · rw [h3]
      rcases stoiOrZero_outcome (g := m 4)
        (fun d' hd' => by rw [h4] at hd'; cases hd'; exact hd4) with ⟨n, hn⟩ | hn
      · rw [hn]; exact Or.inl ⟨_, rfl⟩
      · rw [hn]; exact Or.inr rfl
  have e5 : (∃ n, parsePost m = .ok n) ∨ parsePost m = .error .out_of_range := by
    unfold parsePost
    rcases s5 with ⟨h5, h6, h7⟩ | ⟨q, h5, hq1, hq2⟩ | ⟨k, d, h5, h6, h7, hd7⟩
    · rw [h5, h6, h7]; exact Or.inl ⟨none, by simp⟩
    · rw [h5]
      dsimp only
      rcases stoi_digits_outcome hq1 hq2 with ⟨n, hn⟩ | hn
      · rw [hn]; exact Or.inl ⟨_, rfl⟩
      · rw [hn]; exact Or.inr rfl
    · rw [h5]
      simp only [h6, Option.isSome_some, true_or, if_true]
      rcases stoiOrZero_outcome (g := m 7)
        (fun d' hd' => by rw [h7] at hd'; cases hd'; exact hd7) with ⟨n, hn⟩ | hn
      · rw [hn]; exact Or.inl ⟨_, rfl⟩
      · rw [hn]; exact Or.inr rfl
  have e8 : (∃ n, parseDev m = .ok n) ∨ parseDev m = .error .out_of_range := by
    unfold parseDev
    rcases s8 with ⟨h8, _⟩ | ⟨k, d, h8, h9, hd9⟩
    · rw [h8]; exact Or.inl ⟨_, rfl⟩
    · rw [h8]
      rcases stoiOrZero_outcome (g := m 9)
        (fun d' hd' => by rw [h9] at hd'; cases hd'; exact hd9) with ⟨n, hn⟩ | hn
      · rw [hn]; exact Or.inl ⟨_, rfl⟩
      · rw [hn]; exact Or.inr rfl
  unfold Version.ofMatch
  rcases e1 with ⟨a, ha⟩ | ha <;> rw [ha]
  swap
  · exact Or.inr rfl
  rcases e2 with ⟨b, hb⟩ | hb <;> rw [hb]
  swap
  · exact Or.inr rfl
  rcases e3 with ⟨c, hc⟩ | hc <;> rw [hc]
  swap
  · exact Or.inr rfl
  rcases e5 with ⟨d, hd'⟩ | hd' <;> rw [hd']
  swap
  · exact Or.inr rfl
  rcases e8 with ⟨f, hf⟩ | hf <;> rw [hf]
  · exact Or.inl ⟨_, rfl⟩
  · exact Or.inr rfl

/-- `Version::parse` returns a version, or throws `VersionParseError` (exactly when the
input does not match the grammar), or throws `std::out_of_range`. -/
theorem parse_outcome (s : Str) :
    (∃ v, Version.parse s = .ok v) ∨
      (regex_match true VERSION_REGEX s = none ∧
        Version.parse s = .error (.VersionParseError ("invalid version: ".toList ++ s))) ∨
      ((regex_match true VERSION_REGEX s).isSome = true ∧
        Version.parse s = .error .out_of_range) := by
  unfold Version.parse
  cases hm : regex_match true VERSION_REGEX s with
  | none => exact Or.inr (Or.inl ⟨rfl, rfl⟩)
  | some m =>
    rcases ofMatch_outcome (regex_match_shape hm) with h | h
    · exact Or.inl h
    · exact Or.inr (Or.inr ⟨rfl, h⟩)

theorem substr_two {t : Str} {a b : Char} (h : startsWith t [a, b] = true) :
    substr t (some 2) = .ok (t.drop 2) := by
  rcases t with _ | ⟨x, _ | ⟨y, t⟩⟩ <;> simp [startsWith, List.isPrefixOf] at h
  simp [substr]

theorem substr_one {t : Str} {a : Char} (h : startsWith t [a] = true) :
    substr t (some 1) = .ok (t.drop 1) := by
  rcases t with _ | ⟨x, t⟩ <;> simp [startsWith, List.isPrefixOf] at h
  simp [substr]

/-- The `if` chain of `Range::parse` either rejects the input or picks one of the seven
operators, which `parse_op` knows. -/
theorem splitOp_outcome (s t : Str) :
    splitOp s t = .error (.VersionParseError ("bad range: ".toList ++ s)) ∨
      ∃ op ver o, splitOp s t = .ok (op, ver) ∧ parse_op op = .ok o := by
  unfold splitOp
  by_cases h1 : startsWith t ['~', '='] = true
  · rw [if_pos h1, substr_two h1]; exact Or.inr ⟨_, _, .Compatible, rfl, by decide⟩
  rw [if_neg h1]
  by_cases h2 : startsWith t ['>', '='] = true
  · rw [if_pos h2, substr_two h2]; exact Or.inr ⟨_, _, .Gte, rfl, by decide⟩
  rw [if_neg h2]
  by_cases h3 : startsWith t ['<', '='] = true
  · rw [if_pos h3, substr_two h3]; exact Or.inr ⟨_, _, .Lte, rfl, by decide⟩
  rw [if_neg h3]
  by_cases h4 : startsWith t ['!', '='] = true
  · rw [if_pos h4, substr_two h4]; exact Or.inr ⟨_, _, .NotEq, rfl, by decide⟩
  rw [if_neg h4]
  by_cases h5 : startsWith t ['=', '='] = true
  · rw [if_pos h5, substr_two h5]; exact Or.inr ⟨_, _, .Eq, rfl, by decide⟩
  rw [if_neg h5]
  by_cases h6 : startsWith t ['>'] = true
  · rw [if_pos h6, substr_one h6]; exact Or.inr ⟨_, _, .Gt, rfl, by decide⟩
  rw [if_neg h6]
  by_cases h7 : startsWith t ['<'] = true
  · rw [if_pos h7, substr_one h7]; exact Or.inr ⟨_, _, .Lt, rfl, by decide⟩
  rw [if_neg h7]
  exact Or.inl rfl

/-- `Range::parse` returns a range, or throws `VersionParseError`, or throws
`std::out_of_range`. -/
theorem rangeParse_outcome (s : Str) :
    (∃ r, Range.parse s = .ok r) ∨ (∃ msg, Range.parse s = .error (.VersionParseError msg)) ∨
      Range.parse s = .error .out_of_range := by
  rw [Range.parse_eq]
  cases h : substr s (find_first_not_of s [' ', '\t']) with
  | error e =>
    have : e = .out_of_range := by
      unfold substr at h
      split at h
      · cases h; rfl
      · split_ifs at h
        cases h; rfl
    subst this
    exact Or.inr (Or.inr rfl)
  | ok t =>
    simp only [Range.parseTrimmed]
    rcases splitOp_outcome s t with h1 | ⟨op, ver, o, h1, h2⟩
    · rw [h1]; exact Or.inr (Or.inl ⟨_, rfl⟩)
    · rw [h1]
      simp only [bind, Except.bind, h2]
      rcases parse_outcome ver with ⟨v, hv⟩ | ⟨_, hv⟩ | ⟨_, hv⟩
      · rw [hv]; exact Or.inl ⟨_, rfl⟩
      · rw [hv]; exact Or.inr (Or.inl ⟨_, rfl⟩)
      · rw [hv]; exact Or.inr (Or.inr rfl)

/-- C8 (the code at the failing input). `2147483648` matches the grammar, and
`Version::parse` leaves with `std::out_of_range` from `std::stoi`, which is neither a
`Version` nor a `VersionParseError`. The five strings of the claim are rejected with
`VersionParseError`, and in general the call returns a version, or throws
`VersionParseError` exactly when the input does not match the grammar, or throws
`std::out_of_range`. -/
theorem C8_out_of_range_escapes :
    ((regex_match true VERSION_REGEX "2147483648".toList).isSome = true ∧
      Version.parse "2147483648".toList = .error .out_of_range ∧
      Version.parse "1.0rc99999999999".toList = .error .out_of_range) ∧
    (Version.parse "not.a.version".toList =
        .error (.VersionParseError "invalid version: not.a.version".toList) ∧
      Version.parse "1..0".toList = .error (.VersionParseError "invalid version: 1..0".toList) ∧
      Version.parse "1.0-foo".toList =
        .error (.VersionParseError "invalid version: 1.0-foo".toList) ∧
      Version.parse "1.0++abc".toList =
        .error (.VersionParseError "invalid version: 1.0++abc".toList) ∧
      Version.parse "!1.0".toList =
        .error (.VersionParseError "invalid version: !1.0".toList)) ∧
    (∀ s : Str, (∃ v, Version.parse s = .ok v) ∨
      (regex_match true VERSION_REGEX s = none ∧
        Version.parse s = .error (.VersionParseError ("invalid version: ".toList ++ s))) ∨
      ((regex_match true VERSION_REGEX s).isSome = true ∧
        Version.parse s = .error .out_of_range)) :=
  ⟨by decide, by decide, parse_outcome⟩

/-- C9 (the code at the failing inputs). On the empty string and on a string of spaces
and tabs `Range::parse` leaves with `std::out_of_range` from `substr(npos)`; on an
operator followed by a too large number it leaves with `std::out_of_range` from
`std::stoi`. In general the call returns a range, or throws `VersionParseError`, or throws
`std::out_of_range`. -/
theorem C9_out_of_range_escapes :
    (Range.parse [] = .error .out_of_range ∧
      Range.parse " \t ".toList = .error .out_of_range ∧
      Range.parse ">=2147483648".toList = .error .out_of_range) ∧
    (∀ s : Str, (∃ r, Range.parse s = .ok r) ∨
      (∃ msg, Range.parse s = .error (.VersionParseError msg)) ∨
      Range.parse s = .error .out_of_range) :=
  ⟨by decide, rangeParse_outcome⟩

/-! ## The ordering is a strict partial order -/

theorem opLt_lex (a b : Version) :
    a.opLt b =
      if a.epoch ≠ b.epoch then decide (a.epoch < b.epoch)
      else if a.release ≠ b.release then vecLt a.release b.release
      else if a.dev ≠ b.dev then devLt a.dev b.dev
      else if a.pre ≠ b.pre then preLt a.pre b.pre
      else if a.post ≠ b.post then postLt a.post b.post
      else false := rfl

theorem vecLt_trans : ∀ a b c : List Int, vecLt a b = true → vecLt b c = true →
    vecLt a c = true
  | _, [], _, h, _ => by simp [vecLt] at h
  | _, _ :: _, [], _, h => by simp [vecLt] at h
  | [], _ :: _, _ :: _, _, _ => by simp [vecLt]
  | x :: xs, y :: ys, z :: zs, h1, h2 => by
    simp only [vecLt] at h1 h2 ⊢
    rcases lt_trichotomy x y with hxy | hxy | hxy
    · rcases lt_trichotomy y z with hyz | hyz | hyz
      · rw [if_pos (by omega)]
      · subst hyz; rw [if_pos hxy]
      · rw [if_neg (by omega), if_pos hyz] at h2
        exact absurd h2 (by simp)
    · subst hxy
      simp only [lt_self_iff_false, if_false] at h1
      rcases lt_trichotomy x z with hyz | hyz | hyz
      · rw [if_pos hyz]
      · subst hyz
        simp only [lt_self_iff_false, if_false] at h2 ⊢
        exact vecLt_trans xs ys zs h1 h2
      · rw [if_neg (by omega), if_pos hyz] at h2
        exact absurd h2 (by simp)
    · rw [if_neg (by omega), if_pos hxy] at h1
      exact absurd h1 (by simp)

theorem devLt_irrefl (x : Option Int) : devLt x x = false := by
  cases x <;> simp [devLt]

theorem devLt_trans (x y z : Option Int) (h1 : devLt x y = true) (h2 : devLt y z = true) :
    devLt x z = true := by
  cases x <;> cases y <;> cases z <;> simp [devLt] at h1 h2 ⊢
  omega

theorem preLt_irrefl (x : Option (Str × Int)) : preLt x x = false := by
  rcases x with _ | ⟨l, n⟩ <;> simp [preLt]

theorem preLt_trans (x y z : Option (Str × Int)) (h1 : preLt x y = true)
    (h2 : preLt y z = true) : preLt x z = true := by
  rcases x with _ | ⟨l1, n1⟩
  · simp [preLt] at h1
  rcases y with _ | ⟨l2, n2⟩
  · simp [preLt] at h2
  rcases z with _ | ⟨l3, n3⟩
  · rfl
  simp only [preLt] at h1 h2 ⊢
  by_cases h12 : pre_release_rank l1 = pre_release_rank l2 <;>
    by_cases h23 : pre_release_rank l2 = pre_release_rank l3
  · rw [if_neg (not_not.mpr h12)] at h1
    rw [if_neg (not_not.mpr h23)] at h2
    rw [if_neg (not_not.mpr (h12.trans h23))]
    simp only [decide_eq_true_eq] at h1 h2 ⊢; omega
  · rw [if_neg (not_not.mpr h12)] at h1
    rw [if_pos h23] at h2
    rw [if_pos (by rw [h12]; exact h23)]
    simp only [decide_eq_true_eq] at h1 h2 ⊢; omega
  · rw [if_pos h12] at h1
    rw [if_neg (not_not.mpr h23)] at h2
    rw [if_pos (by rw [← h23]; exact h12)]
    simp only [decide_eq_true_eq] at h1 h2 ⊢; omega
  · rw [if_pos h12] at h1
    rw [if_pos h23] at h2
    simp only [decide_eq_true_eq] at h1 h2
    rw [if_pos (by omega)]
    simp only [decide_eq_true_eq]; omega

/-- The comparison `postLt` is only consulted on fields that differ; on those it is
transitive. -/
theorem postLt_trans (x y z : Option Int) (hxy : x ≠ y) (hyz : y ≠ z) (h1 : postLt x y = true)
    (h2 : postLt y z = true) : postLt x z = true ∧ x ≠ z := by
  rcases x with _ | x <;> rcases y with _ | y <;> rcases z with _ | z
  · exact absurd rfl hxy
  · exact absurd rfl hxy
  · simp [postLt] at h2
  · simp [postLt]
  · simp [postLt] at h1
  · simp [postLt] at h1
  · simp [postLt] at h2
  · simp only [postLt, decide_eq_true_eq] at h1 h2 ⊢
    refine ⟨by omega, fun e => ?_⟩
    simp only [Option.some.injEq] at e
    omega

/-- One level of the sequential tie-break: a strict order on the key, the next level on
equal keys. -/
theorem lex_trans {α : Type} [DecidableEq α] (lt : α → α → Bool) (hirr : ∀ x, lt x x = false)
    (htrans : ∀ x y z, lt x y = true → lt y z = true → lt x z = true) (x y z : α)
    (nxy nyz nxz : Bool) (hnext : nxy = true → nyz = true → nxz = true)
    (h1 : (if x ≠ y then lt x y else nxy) = true) (h2 : (if y ≠ z then lt y z else nyz) = true) :
    (if x ≠ z then lt x z else nxz) = true := by
  by_cases hxy : x = y <;> by_cases hyz : y = z
  · subst hxy; subst hyz
    simp only [ne_eq, not_true_eq_false, if_false] at h1 h2 ⊢
    exact hnext h1 h2
  · subst hxy
    rw [if_pos hyz] at h2
    rw [if_pos hyz]; exact h2
  · subst hyz
    rw [if_pos hxy] at h1
    rw [if_pos hxy]; exact h1
  · rw [if_pos hxy] at h1
    rw [if_pos hyz] at h2
    have hxz : x ≠ z := by
      intro e; subst e
      have := htrans x y x h1 h2
      rw [hirr] at this; exact absurd this (by simp)
    rw [if_pos hxz]
    exact htrans x y z h1 h2

theorem opLt_irrefl (a : Version) : a.opLt a = false := by
  simp [opLt_lex]

theorem opLt_trans (a b c : Version) (h1 : a.opLt b = true) (h2 : b.opLt c = true) :
    a.opLt c = true := by
  rw [opLt_lex] at h1 h2 ⊢
  refine lex_trans (fun x y : Int => decide (x < y)) (by simp)
    (by intro x y z hx hy; simp only [decide_eq_true_eq] at hx hy ⊢; omega) _ _ _ _ _ _ ?_ h1 h2
  intro h1 h2
  refine lex_trans vecLt vecLt_irrefl vecLt_trans _ _ _ _ _ _ ?_ h1 h2
  intro h1 h2
  refine lex_trans devLt devLt_irrefl devLt_trans _ _ _ _ _ _ ?_ h1 h2
  intro h1 h2
  refine lex_trans preLt preLt_irrefl preLt_trans _ _ _ _ _ _ ?_ h1 h2
  intro h1 h2
  by_cases hab : a.post = b.post
  · rw [if_neg (not_not.mpr hab)] at h1
    exact absurd h1 (by simp)
  by_cases hbc : b.post = c.post
  · rw [if_neg (not_not.mpr hbc)] at h2
    exact absurd h2 (by simp)
  rw [if_pos hab] at h1
  rw [if_pos hbc] at h2
  obtain ⟨h3, h4⟩ := postLt_trans _ _ _ hab hbc h1 h2
  rw [if_pos h4]; exact h3

/-- C19. `operator<` is a strict partial order on all values of `Version`, whatever the
pre-release labels are: no version is smaller than itself, the relation is transitive, and
it never holds in both directions. -/
theorem C19_strict_partial_order :
    (∀ a : Version, a.opLt a = false) ∧
    (∀ a b c : Version, a.opLt b = true → b.opLt c = true → a.opLt c = true) ∧
    (∀ a b : Version, ¬ (a.opLt b = true ∧ b.opLt a = true)) :=
  ⟨opLt_irrefl, opLt_trans, fun a b h => by
    have := opLt_asymm a b h.1
    rw [h.2] at this; exact absurd this (by simp)⟩

/-! ## The ordering chain and the epoch -/

/-- C13. For a fixed epoch and release, the versions with only `dev`, only pre-release `a`,
only `b`, only `rc`, no qualifier, and only `post` are strictly increasing under
`operator<`: each is smaller than every later one (whatever the numbers are). -/
theorem C13_ordering_chain (e : Int) (r : List Int) (d n1 n2 n3 p : Int) :
    List.Pairwise (fun a b : Version => a.opLt b = true)
      [{ epoch := e, release := r, dev := some d },
       { epoch := e, release := r, pre := some (['a'], n1) },
       { epoch := e, release := r, pre := some (['b'], n2) },
       { epoch := e, release := r, pre := some (['r', 'c'], n3) },
       { epoch := e, release := r },
       { epoch := e, release := r, post := some p }] := by
  simp [Version.opLt, pre_release_rank]

/-- C18. A smaller epoch makes a smaller version, whatever the other fields are. -/
theorem C18_epoch_dominates (a b : Version) (h : a.epoch < b.epoch) :
    a.opLt b = true ∧ b.opLt a = false := by
  rw [opLt_eq, opLt_eq]
  rw [if_pos (by omega), if_pos (by omega)]
  simp only [decide_eq_true_eq, decide_eq_false_iff_not]
  omega

theorem C18_epoch_dominates_witness :
    Version.parse "0!1.0.0".toList = .ok { epoch := 0, release := [1, 0, 0] } ∧
    Version.parse "1!0.1.0".toList = .ok { epoch := 1, release := [0, 1, 0] } ∧
    Version.opLt { epoch := 0, release := [1, 0, 0] } { epoch := 1, release := [0, 1, 0] } =
      true ∧
    Version.opLt { epoch := 1, release := [0, 1, 0] } { epoch := 0, release := [1, 0, 0] } =
      false :=
  ⟨by decide, by decide,
    C18_epoch_dominates { epoch := 0, release := [1, 0, 0] } { epoch := 1, release := [0, 1, 0] }
      (by decide)⟩

/-! ## What `Version::parse` returns -/

/-- C14. Every version that `Version::parse` returns has an epoch that is not negative, a
release with at least one element and no negative element, a pre-release label (when there
is a pre-release) among `a`, `b`, `rc` with a number that is not negative, and post and dev
numbers (when present) that are not negative. -/
theorem C14_parse_invariant (s : Str) (v : Version) (h : Version.parse s = .ok v) :
    0 ≤ v.epoch ∧ 1 ≤ v.release.length ∧ (∀ x ∈ v.release, 0 ≤ x) ∧
    (∀ l n, v.pre = some (l, n) → (l = ['a'] ∨ l = ['b'] ∨ l = ['r', 'c']) ∧ 0 ≤ n) ∧
    (∀ n, v.post = some n → 0 ≤ n) ∧ (∀ n, v.dev = some n → 0 ≤ n) := by
  obtain ⟨he, ⟨hne, hrel⟩, hp, hq, hd, _⟩ := parse_wellFormed h
  refine ⟨he.1, ?_, fun x hx => (hrel x hx).1, fun l n e => ⟨(hp l n e).1, (hp l n e).2.1⟩,
    fun n e => (hq n e).1, fun n e => (hd n e).1⟩
  cases hr : v.release with
  | nil => exact absurd hr hne
  | cons x xs => simp

theorem C14_parse_invariant_witness :
    Version.parse "V2!01.0-Preview_7-3.DEV+x.1".toList =
        .ok ⟨2, [1, 0], some (['r', 'c'], 7), some 3, some 0, some "x.1".toList⟩ ∧
      (0 : Int) ≤ 2 ∧ 1 ≤ ([1, 0] : List Int).length ∧ (∀ x ∈ ([1, 0] : List Int), 0 ≤ x) ∧
      (∀ l n, (some (['r', 'c'], 7) : Option (Str × Int)) = some (l, n) →
        (l = ['a'] ∨ l = ['b'] ∨ l = ['r', 'c']) ∧ 0 ≤ n) ∧
      (∀ n, (some 3 : Option Int) = some n → 0 ≤ n) ∧
      (∀ n, (some 0 : Option Int) = some n → 0 ≤ n) :=
  ⟨by decide, C14_parse_invariant "V2!01.0-Preview_7-3.DEV+x.1".toList
    ⟨2, [1, 0], some (['r', 'c'], 7), some 3, some 0, some "x.1".toList⟩ (by decide)⟩

/-! ## Matching of range sets -/

theorem matchesAll_ok (v : Version) : ∀ rs : List Range,
    (∀ r ∈ rs, ∃ b, Range.«matches» r v = .ok b) →
    ∃ b, RangeSet.matchesAll v rs = .ok b ∧
      (b = true ↔ ∀ r ∈ rs, Range.«matches» r v = .ok true) := by
  intro rs
  induction rs with
  | nil => intro _; exact ⟨true, rfl, by simp⟩
  | cons r rs ih =>
    intro h
    obtain ⟨b, hb⟩ := h r (by simp)
    obtain ⟨b', hb', hiff⟩ := ih (fun x hx => h x (by simp [hx]))
    cases b with
    | false =>
      refine ⟨false, by simp [RangeSet.matchesAll, hb], ?_⟩
      simp [hb]
    | true =>
      refine ⟨b', by simp [RangeSet.matchesAll, hb, hb'], ?_⟩
      simp [hb, hiff]

/-- C17. On a version for which the match of every member returns, `RangeSet::matches`
returns, and it returns `true` exactly when every member matches; the empty set matches
every version. -/
theorem C17_rangeset_conjunction (rs : RangeSet) (v : Version)
    (h : ∀ r ∈ rs.specs, ∃ b, Range.«matches» r v = .ok b) :
    (∃ b, RangeSet.«matches» rs v = .ok b ∧
      (b = true ↔ ∀ r ∈ rs.specs, Range.«matches» r v = .ok true)) ∧
    RangeSet.«matches» { specs := [] } v = .ok true :=
  ⟨matchesAll_ok v rs.specs h, rfl⟩

theorem C17_rangeset_conjunction_witness :
    RangeSet.parse ">=1.0, <2.0, !=1.5".toList =
        .ok ⟨[⟨.Gte, { release := [1, 0] }⟩, ⟨.Lt, { release := [2, 0] }⟩,
          ⟨.NotEq, { release := [1, 5] }⟩]⟩ ∧
      RangeSet.«matches» ⟨[⟨.Gte, { release := [1, 0] }⟩, ⟨.Lt, { release := [2, 0] }⟩,
          ⟨.NotEq, { release := [1, 5] }⟩]⟩ { release := [1, 5, 0] } = .ok false ∧
      ((∃ b, RangeSet.«matches» ⟨[⟨.Gte, { release := [1, 0] }⟩, ⟨.Lt, { release := [2, 0] }⟩,
          ⟨.NotEq, { release := [1, 5] }⟩]⟩ { release := [1, 4, 0] } = .ok b ∧
        (b = true ↔ ∀ r ∈ (RangeSet.mk [⟨.Gte, { release := [1, 0] }⟩,
          ⟨.Lt, { release := [2, 0] }⟩, ⟨.NotEq, { release := [1, 5] }⟩]).specs,
            Range.«matches» r { release := [1, 4, 0] } = .ok true)) ∧
      RangeSet.«matches» { specs := [] } { release := [1, 4, 0] } = .ok true) :=
  ⟨by decide, by decide,
    C17_rangeset_conjunction ⟨[⟨.Gte, { release := [1, 0] }⟩, ⟨.Lt, { release := [2, 0] }⟩,
      ⟨.NotEq, { release := [1, 5] }⟩]⟩ { release := [1, 4, 0] }
      (by
        intro r hr
        simp only [List.mem_cons, List.mem_singleton, List.not_mem_nil, or_false] at hr
        rcases hr with rfl | rfl | rfl <;> exact ⟨_, rfl⟩)⟩

/-! ## Letters and digits -/

theorem toUpper_toNat_lower (x : Char) (h : 97 ≤ x.toNat ∧ x.toNat ≤ 122) :
    x.toUpper.toNat = x.toNat - 32 := by
  have hx : x = Char.ofNat x.toNat := (Char.ofNat_toNat x).symm
  generalize x.toNat = n at h hx
  obtain ⟨h1, h2⟩ := h
  subst hx
  interval_cases n <;> decide

theorem toUpper_toNat (x : Char) :
    x.toUpper.toNat = if 97 ≤ x.toNat ∧ x.toNat ≤ 122 then x.toNat - 32 else x.toNat := by
  by_cases h : 97 ≤ x.toNat ∧ x.toNat ≤ 122
  · rw [if_pos h, toUpper_toNat_lower x h]
  · rw [if_neg h]
    unfold Char.toUpper
    simp only [ge_iff_le]
    rw [if_neg h]

theorem char_le_iff (a b : Char) : a ≤ b ↔ a.toNat ≤ b.toNat := by
  simp only [Char.le_def, Char.toNat]
  exact UInt32.le_def

theorem isAlphanum_iff (x : Char) :
    x.isAlphanum = true ↔
      (48 ≤ x.toNat ∧ x.toNat ≤ 57) ∨ (65 ≤ x.toNat ∧ x.toNat ≤ 90) ∨
        (97 ≤ x.toNat ∧ x.toNat ≤ 122) := by
  simp only [Char.isAlphanum, Char.isAlpha, Char.isUpper, Char.isLower, Char.isDigit,
    Bool.or_eq_true, Bool.and_eq_true, decide_eq_true_eq, Char.toNat]
  constructor
  · rintro ((⟨h1, h2⟩ | ⟨h1, h2⟩) | ⟨h1, h2⟩)
    · exact Or.inr (Or.inl ⟨h1, h2⟩)
    · exact Or.inr (Or.inr ⟨h1, h2⟩)
    · exact Or.inl ⟨h1, h2⟩
  · rintro (⟨h1, h2⟩ | ⟨h1, h2⟩ | ⟨h1, h2⟩)
    · exact Or.inr ⟨h1, h2⟩
    · exact Or.inl (Or.inl ⟨h1, h2⟩)
    · exact Or.inl (Or.inr ⟨h1, h2⟩)

theorem isAlnumChar_iff (x : Char) :
    isAlnumChar x = true ↔
      (48 ≤ x.toNat ∧ x.toNat ≤ 57) ∨ (65 ≤ x.toNat ∧ x.toNat ≤ 90) ∨
        (97 ≤ x.toNat ∧ x.toNat ≤ 122) := by
  simp only [isAlnumChar, List.any_cons, List.any_nil, Bool.or_false, Bool.or_eq_true, itemOk,
    Bool.and_eq_true, decide_eq_true_eq, Bool.true_and, char_le_iff, toLower_toNat,
    toUpper_toNat]
  have ha : ('a' : Char).toNat = 97 := rfl
  have hz : ('z' : Char).toNat = 122 := rfl
  have h0 : ('0' : Char).toNat = 48 := rfl
  have h9 : ('9' : Char).toNat = 57 := rfl
  rw [ha, hz, h0, h9]
  split_ifs <;> omega

/-- The characters that `[a-z0-9]` accepts under `icase` are the letters and digits. -/
theorem isAlnumChar_eq (x : Char) : isAlnumChar x = x.isAlphanum := by
  rw [Bool.eq_iff_iff, isAlnumChar_iff, isAlphanum_iff]

theorem localShape_of_string {l : Str} (h : isLocalString l) : LocalShape l := by
  obtain ⟨s0, segs, e, hne, hs0, hsegs⟩ := h
  refine ⟨s0, segs, e, hne, fun c hc => by rw [isAlnumChar_eq]; exact hs0 c hc, ?_⟩
  intro p hp
  obtain ⟨h1, h2, h3⟩ := hsegs p hp
  exact ⟨(isSepChar_iff p.1).mpr h1, h2, fun c hc => by rw [isAlnumChar_eq]; exact h3 c hc⟩

theorem wellFormed_of_canonical {v : Version} (hint : v.isInt) (hc : v.canonical) :
    v.wellFormed := by
  obtain ⟨he, hr, hp, hq, hd⟩ := hint
  obtain ⟨ce, cne, cr, cp, cq, cd, cl⟩ := hc
  exact ⟨⟨ce, he.2⟩, ⟨cne, fun x hx => ⟨cr x hx, (hr x hx).2⟩⟩,
    fun l n e => ⟨(cp l n e).1, (cp l n e).2, (hp l n e).2⟩,
    fun n e => ⟨cq n e, (hq n e).2⟩, fun n e => ⟨cd n e, (hd n e).2⟩,
    fun l e => localShape_of_string (cl l e)⟩

/-! ## Canonical strings -/

/-- C12. For a version whose numbers are `int`s that are not negative, whose release is not
empty, whose pre-release label is `a`, `b` or `rc`, and whose local part consists of
non-empty alphanumeric segments joined by single `-`, `_` or `.`: `Version::parse` of the
display form succeeds and returns the version itself, field for field, so that the display
form of the result is the display form again. -/
theorem C12_canonical_fixed_point (v : Version) (hint : v.isInt) (hc : v.canonical) :
    Version.parse v.to_string = .ok v ∧
    (Version.parse v.to_string).map Version.to_string = .ok v.to_string := by
  have h := parse_to_string (wellFormed_of_canonical hint hc)
  exact ⟨h, by rw [h]; rfl⟩

theorem C12_canonical_fixed_point_witness :
    Version.to_string ⟨1, [1, 0, 0], some (['r', 'c'], 5), some 2, some 3, some "Ubuntu-1".toList⟩ =
        "1!1.0.0rc5.post2.dev3+Ubuntu-1".toList ∧
      Version.parse
          (Version.to_string
            ⟨1, [1, 0, 0], some (['r', 'c'], 5), some 2, some 3, some "Ubuntu-1".toList⟩) =
        .ok ⟨1, [1, 0, 0], some (['r', 'c'], 5), some 2, some 3, some "Ubuntu-1".toList⟩ ∧
      (Version.parse
          (Version.to_string
            ⟨1, [1, 0, 0], some (['r', 'c'], 5), some 2, some 3, some "Ubuntu-1".toList⟩)).map
          Version.to_string =
        .ok (Version.to_string
          ⟨1, [1, 0, 0], some (['r', 'c'], 5), some 2, some 3, some "Ubuntu-1".toList⟩) :=
  ⟨by decide,
    C12_canonical_fixed_point
      ⟨1, [1, 0, 0], some (['r', 'c'], 5), some 2, some 3, some "Ubuntu-1".toList⟩
      (by simp [Version.isInt, isIntValue, INT_MIN, INT_MAX])
      ⟨by decide, by decide, by decide, by simp, by simp, by simp, by
        intro l hl
        simp only [Option.some.injEq] at hl
        subst hl
        exact ⟨"Ubuntu".toList, [('-', ['1'])], by decide, by decide, by decide, by decide⟩⟩⟩

/-! ## Matching a parsed range -/

theorem parseTrimmed_version {s t : Str} {r : Range} (h : Range.parseTrimmed s t = .ok r) :
    ∃ ver, Version.parse ver = .ok r.version := by
  simp only [Range.parseTrimmed, bind, Except.bind] at h
  split at h
  · cases h
  · rename_i x _
    obtain ⟨op, ver⟩ := x
    simp only at h
    split at h
    · cases h
    · split at h
      · cases h
      · rename_i v hv
        simp only [pure, Except.pure, Except.ok.injEq] at h
        subst h
        exact ⟨ver, hv⟩

theorem rangeParse_version {s : Str} {r : Range} (h : Range.parse s = .ok r) :
    ∃ ver, Version.parse ver = .ok r.version := by
  rw [Range.parse_eq] at h
  split at h
  · exact parseTrimmed_version h
  · cases h

theorem incrIndex_lt {rel : List Int} (h : rel ≠ []) :
    (if rel.length > 1 then rel.length - 1 else 0) < rel.length := by
  have : 0 < rel.length := List.length_pos.mpr h
  split_ifs <;> omega

/-- The increment of the `~=` branch on a release that is not empty and whose last segment
is an `int` below `INT_MAX`. -/
theorem incrStep_ok {rel : List Int} (hne : rel ≠ [])
    (hlast : ∀ x, rel.getLast? = some x → INT_MIN ≤ x ∧ x < INT_MAX) :
    ∃ hi, (if rel.length > 1 then incrAt rel (rel.length - 1) else incrAt rel 0) = .ok hi := by
  obtain ⟨init, x, rfl⟩ : ∃ init x, rel = init ++ [x] := by
    rcases List.eq_nil_or_concat rel with h | ⟨p, x, h⟩
    · exact absurd h hne
    · exact ⟨p, x, by rw [h, List.concat_eq_append]⟩
  obtain ⟨h1, h2⟩ := hlast x (by simp)
  by_cases hl : (init ++ [x]).length > 1
  · rw [if_pos hl, incrAt_last init x h1 h2]; exact ⟨_, rfl⟩
  · rw [if_neg hl, incrAt_zero init x h1 h2 hl]; exact ⟨_, rfl⟩

theorem matches_returns (r : Range) (v : Version)
    (hp : Version.parse r.version.to_string = .ok r.version) (hne : r.version.release ≠ [])
    (hlast : r.op = .Compatible →
      ∀ x, r.version.release.getLast? = some x → INT_MIN ≤ x ∧ x < INT_MAX) :
    ∃ b, Range.«matches» r v = .ok b := by
  unfold Range.«matches»
  split
  · exact ⟨_, rfl⟩
  · exact ⟨_, rfl⟩
  · exact ⟨_, rfl⟩
  · exact ⟨_, rfl⟩
  · exact ⟨_, rfl⟩
  · exact ⟨_, rfl⟩
  · rename_i hop
    obtain ⟨hi, e⟩ := incrStep_ok hne (hlast hop)
    simp only [hp, bind, Except.bind]
    by_cases hl : r.version.release.length > 1
    · rw [if_pos hl] at e ⊢
      rw [e]; exact ⟨_, rfl⟩
    · rw [if_neg hl] at e ⊢
      rw [e]; exact ⟨_, rfl⟩

/-- C20 (the claim fails). `Range::parse` returns the range `~=2147483647`, and on it
`Range::matches` increments a release segment equal to `INT_MAX`: the overflow of an `int`
has no defined behaviour, and the call does not return a boolean. The re-parse succeeds and
the index is in bounds. -/
theorem C20_counterexample :
    Range.parse "~=2147483647".toList = .ok ⟨.Compatible, { release := [2147483647] }⟩ ∧
    Version.parse (Version.to_string { release := [2147483647] }) =
      .ok { release := [2147483647] } ∧
    incrAt [2147483647] 0 = .error .signed_overflow ∧
    Range.«matches» ⟨.Compatible, { release := [2147483647] }⟩ { release := [1] } =
      .error .signed_overflow ∧
    ¬ ∃ b, Range.«matches» ⟨.Compatible, { release := [2147483647] }⟩ { release := [1] } =
      .ok b := by
  refine ⟨by decide, by decide, by decide, by decide, ?_⟩
  rintro ⟨b, hb⟩
  have h : Range.«matches» ⟨.Compatible, { release := [2147483647] }⟩ { release := [1] } =
      .error .signed_overflow := by decide
  rw [h] at hb
  cases hb

/-- C20 (amended). For a range that `Range::parse` returns and any version, provided that
for the operator `~=` the last release segment of the bound is below `INT_MAX`:
`Range::matches` returns a boolean. The display form of the bound parses again (to the bound
itself), the release element that is incremented exists (its index is below the size of the
release), and in the `~=` branch the increment is carried out. -/
theorem C20_matches_returns (s : Str) (r : Range) (v : Version) (h : Range.parse s = .ok r)
    (hlast : r.op = .Compatible → ∀ x, r.version.release.getLast? = some x → x < INT_MAX) :
    (∃ b, Range.«matches» r v = .ok b) ∧
    Version.parse r.version.to_string = .ok r.version ∧
    (if r.version.release.length > 1 then r.version.release.length - 1 else 0) <
      r.version.release.length ∧
    (r.op = .Compatible →
      ∃ hi, (if r.version.release.length > 1 then
          incrAt r.version.release (r.version.release.length - 1)
        else incrAt r.version.release 0) = .ok hi) := by
  obtain ⟨ver, hver⟩ := rangeParse_version h
  have hwf := parse_wellFormed hver
  have hp := parse_to_string hwf
  have hne := hwf.2.1.1
  have hlast' : r.op = .Compatible →
      ∀ x, r.version.release.getLast? = some x → INT_MIN ≤ x ∧ x < INT_MAX := by
    intro hop x hx
    refine ⟨?_, hlast hop x hx⟩
    have hmem : x ∈ r.version.release := List.mem_of_getLast?_eq_some hx
    have := (hwf.2.1.2 x hmem).1
    unfold INT_MIN
    omega
  exact ⟨matches_returns r v hp hne hlast', hp, incrIndex_lt hne,
    fun hop => incrStep_ok hne (hlast' hop)⟩

theorem C20_matches_returns_witness :
    Range.parse " ~=2.2.post1".toList = .ok ⟨.Compatible, { release := [2, 2], post := some 1 }⟩ ∧
      Range.«matches» ⟨.Compatible, { release := [2, 2], post := some 1 }⟩ { release := [2, 5] } =
        .ok false ∧
      Range.parse ">=2147483647".toList = .ok ⟨.Gte, { release := [2147483647] }⟩ ∧
      ((∃ b, Range.«matches» ⟨.Compatible, { release := [2, 2], post := some 1 }⟩
        { release := [2, 5] } = .ok b) ∧
      Version.parse (Version.to_string { release := [2, 2], post := some 1 }) =
        .ok { release := [2, 2], post := some 1 } ∧
      (if ([2, 2] : List Int).length > 1 then ([2, 2] : List Int).length - 1 else 0) <
        ([2, 2] : List Int).length ∧
      (Operator.Compatible = .Compatible →
        ∃ hi, (if ([2, 2] : List Int).length > 1 then
            incrAt [2, 2] (([2, 2] : List Int).length - 1)
          else incrAt [2, 2] 0) = .ok hi)) :=
  ⟨by decide, by decide, by decide, C20_matches_returns " ~=2.2.post1".toList
    ⟨.Compatible, { release := [2, 2], post := some 1 }⟩ { release := [2, 5] } (by decide)
    (by
      intro _ x hx
      have e : x = 2 := by simpa using hx.symm
      rw [e]; decide)⟩

/-! ## Recognising the operator of a range -/

theorem plus_digit_head {w r : Str} {c : Caps} {u : Thread}
    (hu : u ∈ matchR true w (.plus .digit) r c) : ∃ x xs, r = x :: xs ∧ x.isDigit = true := by
  obtain ⟨h1, h2, _⟩ := plus_mem (matchR_digit true w) hu
  have hs := matchR_split true w _ _ _ _ hu
  obtain ⟨x, xs, e⟩ := List.exists_cons_of_ne_nil h1
  rw [e] at hs
  exact ⟨x, xs ++ u.rest, by simpa using hs, h2 x (by rw [e]; simp)⟩

/-- A string that matches `VERSION_REGEX` starts with a digit or with the letter `v`. -/
theorem regex_match_head {s : Str} {m : Caps} (h : regex_match true VERSION_REGEX s = some m) :
    ∃ x xs, s = x :: xs ∧ (x.isDigit = true ∨ chrOk true 'v' x = true) := by
  unfold regex_match at h
  obtain ⟨u, hu, _⟩ := Option.map_eq_some'.mp h
  have hu' := List.mem_of_find?_eq_some hu
  obtain ⟨t0, ht0, x0, hx0, _⟩ := mem_seq.mp hu'
  have e0 : t0.rest = s := by
    simp [matchR] at ht0
    rw [ht0]
  rw [e0] at hx0
  obtain ⟨t1, ht1, x1, hx1, _⟩ := mem_seq.mp hx0
  rcases mem_opt.mp ht1 with hv | hv
  · obtain ⟨x, xs, e, hx, _⟩ := mem_oneChar.mp hv
    exact ⟨x, xs, e, Or.inr hx⟩
  have e1 : t1.rest = s := by rw [hv]
  rw [e1] at hx1
  obtain ⟨t2, ht2, x2, hx2, _⟩ := mem_seq.mp hx1
  rcases mem_opt.mp ht2 with he | he
  · obtain ⟨t, ht, _⟩ := mem_seq.mp he
    obtain ⟨t', ht', _⟩ := mem_group.mp ht
    obtain ⟨x, xs, e, hx⟩ := plus_digit_head ht'
    exact ⟨x, xs, e, Or.inl hx⟩
  have e2 : t2.rest = s := by rw [he]
  rw [e2] at hx2
  obtain ⟨t3, ht3, _⟩ := mem_seq.mp hx2
  obtain ⟨t, ht, _⟩ := mem_group.mp ht3
  obtain ⟨t', ht', _⟩ := mem_seq.mp ht
  obtain ⟨x, xs, e, hx⟩ := plus_digit_head ht'
  exact ⟨x, xs, e, Or.inl hx⟩

theorem parse_head {s : Str} {v : Version} (h : Version.parse s = .ok v) :
    ∃ x xs, s = x :: xs ∧ x ≠ '=' := by
  unfold Version.parse at h
  split at h
  · cases h
  · rename_i m hm
    obtain ⟨x, xs, e, hx⟩ := regex_match_head hm
    refine ⟨x, xs, e, ?_⟩
    rintro rfl
    rcases hx with hx | hx <;> exact absurd hx (by decide)

theorem ltrim_blank_append (w t : Str) (hw : ∀ c ∈ w, c = ' ' ∨ c = '\t')
    (ht : ∀ x xs, t = x :: xs → isBlankChar x = false) : ltrim (w ++ t) = t := by
  induction w with
  | nil =>
    cases t with
    | nil => rfl
    | cons x xs => simp [ltrim, List.dropWhile_cons, ht x xs rfl]
  | cons c cs ih =>
    have hc : isBlankChar c = true := by
      rcases hw c (by simp) with rfl | rfl <;> decide
    simp only [ltrim, List.cons_append, List.dropWhile_cons, hc, if_true]
    exact ih (fun x hx => hw x (by simp [hx]))

theorem opSymbol_head (o : Operator) :
    ∃ x xs, opSymbol o = x :: xs ∧ isBlankChar x = false := by
  cases o <;> exact ⟨_, _, rfl, by decide⟩

theorem parseTrimmed_symbol (o : Operator) (p s : Str) (v : Version)
    (hs : Version.parse s = .ok v) :
    Range.parseTrimmed p (opSymbol o ++ s) = .ok ⟨o, v⟩ := by
  obtain ⟨x, xs, rfl, hx⟩ := parse_head hs
  have hx' : ¬ ('=' = x) := fun e => hx e.symm
  have h2 : ¬ (xs.length + 1 + 1 + 1 < 2) := by omega
  have h1 : ¬ (xs.length + 1 + 1 < 1) := by omega
  have hsplit : splitOp p (opSymbol o ++ x :: xs) = .ok (opSymbol o, x :: xs) := by
    cases o <;>
      simp [splitOp, startsWith, opSymbol, substr, hx', bind, Except.bind, pure, Except.pure,
        List.isPrefixOf, h1, h2]
  have hop : parse_op (opSymbol o) = .ok o := by cases o <;> rfl
  simp only [Range.parseTrimmed, hsplit, hop, hs, bind, Except.bind, pure, Except.pure]

/-- C11. For each of the seven operators, every run `w` of spaces and tabs and every string
`s` that `Version::parse` accepts, `Range::parse` of `w`, the symbol of the operator and `s`
returns the range with that operator (a two-character symbol is not cut at its first
character) and with the version that `Version::parse` returns for `s`. The symbol of an
operator is the one that `Range::to_string` writes for it. -/
theorem C11_range_parse (o : Operator) (w s : Str) (v : Version)
    (hw : ∀ c ∈ w, c = ' ' ∨ c = '\t') (hs : Version.parse s = .ok v) :
    Range.parse (w ++ (opSymbol o ++ s)) = .ok ⟨o, v⟩ ∧
    Range.to_string ⟨o, v⟩ = opSymbol o ++ v.to_string := by
  refine ⟨?_, by cases o <;> rfl⟩
  obtain ⟨x, xs, e, hx⟩ := opSymbol_head o
  have hl : ltrim (w ++ (opSymbol o ++ s)) = opSymbol o ++ s := by
    apply ltrim_blank_append w _ hw
    intro y ys hy
    rw [e] at hy
    simp only [List.cons_append, List.cons.injEq] at hy
    rw [← hy.1]; exact hx
  have hnb : (find_first_not_of (w ++ (opSymbol o ++ s)) [' ', '\t']).isSome = true := by
    rw [nonblank_iff_trim]
    simp only [decide_eq_true_eq, trim, hl]
    intro hr
    have : (opSymbol o ++ s).reverse.dropWhile isBlankChar = [] := by
      simpa [rtrim] using hr
    rw [e] at this
    simp only [List.cons_append, List.reverse_cons] at this
    rw [List.dropWhile_eq_nil_iff] at this
    have := this x (by simp)
    rw [hx] at this
    exact absurd this (by simp)
  rw [Range.parse_nonblank _ hnb, hl]
  exact parseTrimmed_symbol o _ s v hs

theorem C11_range_parse_witness :
    Version.parse "v1.0rc1".toList = .ok { release := [1, 0], pre := some (['r', 'c'], 1) } ∧
      opSymbol .Gte = ">=".toList ∧
      Range.parse (" \t ".toList ++ (opSymbol .Gte ++ "v1.0rc1".toList)) =
        .ok ⟨.Gte, { release := [1, 0], pre := some (['r', 'c'], 1) }⟩ ∧
      Range.to_string ⟨.Gte, { release := [1, 0], pre := some (['r', 'c'], 1) }⟩ =
        opSymbol .Gte ++
          Version.to_string { release := [1, 0], pre := some (['r', 'c'], 1) } :=
  ⟨by decide, rfl, C11_range_parse .Gte " \t ".toList "v1.0rc1".toList
    { release := [1, 0], pre := some (['r', 'c'], 1) }
    (by decide) (by decide)⟩

/-! ## A release followed by a tail -/

theorem segs_dot {segs : List (Char × Str)} (h : Segs (fun x => x == '.') Char.isDigit segs) :
    Segs (chrOk true '.') Char.isDigit segs := by
  intro p hp
  obtain ⟨h1, h2, h3⟩ := h p hp
  have e : p.1 = '.' := by simpa using h1
  exact ⟨by rw [e]; exact chrOk_self '.', h2, h3⟩

/-- Behind the first run of digits of a release comes a dot or the head of the tail. -/
theorem relShape_next {segs : List (Char × Str)}
    (hsegs : Segs (fun x => x == '.') Char.isDigit segs) {T : Str}
    (hT : ∀ x xs, T = x :: xs → x.isDigit = false ∧ x ≠ '!') :
    ∀ y ys, joinTail segs ++ T = y :: ys → y.isDigit = false ∧ y ≠ '!' := by
  intro y ys e
  cases segs with
  | nil => exact hT y ys (by simpa [joinTail] using e)
  | cons q qs =>
    obtain ⟨z, s'⟩ := q
    have hz : z = '.' := by simpa using (hsegs (z, s') (by simp)).1
    simp only [joinTail, List.cons_append, List.cons.injEq] at e
    rw [← e.1, hz]
    exact ⟨by decide, by decide⟩

theorem first_release_shape {w R : Str} (hR : RelShape R) (T : Str) (c : Caps)
    (hT : ∀ x xs, T = x :: xs → x.isDigit = false ∧ x ≠ '!')
    (hdot : matchR true w (.seq (.chr '.') (.plus .digit)) T c = []) :
    First true w reRelease (R ++ T) c R T (setCap c 2 R) := by
  obtain ⟨d0, segs, rfl, hne, hd0, hsegs⟩ := hR
  have hnext := relShape_next hsegs hT
  have h1 := plus_first (matchR_digit true w) (joinTail segs ++ T) c hne hd0
    (fun y ys e => (hnext y ys e).1)
  have h2 := star_segs_first (matchR_chr true w '.') (matchR_digit true w)
    (fun y hy => by rw [chrOk_nonletter (by decide) hy]; decide) c
    (fun x xs e => (hT x xs e).1) hdot (segs_dot hsegs)
  have := First.group (i := 2) (First.seq h1 h2)
  simpa using this

/-- In front of a release without epoch the attempt to read an epoch fails: there is no
`!` behind the first run of digits. -/
theorem first_epoch_none_shape {w R : Str} (hR : RelShape R) (T : Str) (c : Caps)
    (hT : ∀ x xs, T = x :: xs → x.isDigit = false ∧ x ≠ '!') :
    First true w reEpoch (R ++ T) c [] (R ++ T) c := by
  apply First.opt_skip
  rw [List.eq_nil_iff_forall_not_mem]
  intro u hu
  obtain ⟨t, ht, x, hx, _⟩ := mem_seq.mp hu
  obtain ⟨t', ht', rfl⟩ := mem_group.mp ht
  obtain ⟨h1, h2, _⟩ := plus_mem (matchR_digit true w) ht'
  have hsplit := matchR_split true w _ _ _ _ ht'
  obtain ⟨y, ys, hy, hbang, _⟩ := mem_oneChar.mp hx
  simp only at hy
  have hy' : y = '!' := chrOk_nonletter (by decide) hbang
  subst hy'
  rw [hy] at hsplit
  obtain ⟨d0, segs, rfl, hne, hd0, hsegs⟩ := hR
  rw [List.append_assoc] at hsplit
  have hnext := relShape_next hsegs hT
  rcases List.append_eq_append_iff.mp hsplit with ⟨a', e1, e2⟩ | ⟨c', e1, e2⟩
  · cases a' with
    | nil =>
      simp only [List.nil_append] at e2
      exact (hnext '!' ys e2).2 rfl
    | cons q qs =>
      simp only [List.cons_append] at e2
      have hq : q.isDigit = true := h2 q (by rw [e1]; simp)
      rw [(hnext q _ e2).1] at hq
      exact absurd hq (by simp)
  · cases c' with
    | nil =>
      simp only [List.nil_append] at e2
      exact (hnext '!' ys e2.symm).2 rfl
    | cons q qs =>
      simp only [List.cons_append, List.cons.injEq] at e2
      have : ('!' : Char).isDigit = true := hd0 '!' (by rw [e1, ← e2.1]; simp)
      exact absurd this (by decide)

theorem relShape_head {R : Str} (hR : RelShape R) :
    ∃ d ds, R = d :: ds ∧ d.isDigit = true := by
  obtain ⟨d0, segs, rfl, hne, hd0, _⟩ := hR
  obtain ⟨d, ds, rfl⟩ := List.exists_cons_of_ne_nil hne
  exact ⟨d, ds ++ joinTail segs, rfl, hd0 d (by simp)⟩

/-- The match of a release followed by a tail `T`, once the pre-release part and the parts
behind it are known to match `T` with the sub-matches `m`. -/
theorem regex_match_release_tail {R T : Str} (hR : RelShape R)
    (hT : ∀ x xs, T = x :: xs → x.isDigit = false ∧ x ≠ '!')
    (hdot : ∀ c, matchR true (R ++ T) (.seq (.chr '.') (.plus .digit)) T c = []) {m : Caps}
    (hK : First true (R ++ T) (.seq rePre (.seq rePost (.seq reDev (.seq reLocal .eol)))) T
      (setCap (fun _ => none) 2 R) T [] m) :
    regex_match true VERSION_REGEX (R ++ T) = some m := by
  have h0 : First true (R ++ T) .bol (R ++ T) (fun _ => none) [] (R ++ T) (fun _ => none) :=
    ⟨[], by simp [matchR]⟩
  have h1 : First true (R ++ T) reV (R ++ T) (fun _ => none) [] (R ++ T) (fun _ => none) := by
    obtain ⟨d, ds, e, hd⟩ := relShape_head hR
    rw [e, List.cons_append]
    exact first_v hd _ _
  have h2 := first_epoch_none_shape (w := R ++ T) hR T (fun _ => none) hT
  have h3 := first_release_shape (w := R ++ T) hR T (fun _ => none) hT (hdot _)
  obtain ⟨tl, e⟩ := First.seq h0 (First.seq h1 (First.seq h2 (First.seq h3 hK)))
  unfold regex_match
  rw [show matchR true (R ++ T) VERSION_REGEX (R ++ T) (fun _ => none) = _ from e]
  simp

/-! ## From the sub-matches behind a release to the version -/

theorem ofMatch_withRelease {m : Caps} {R : Str} (h1 : m 1 = none) (h2 : m 2 = some R)
    (h10 : m 10 = none) {p : Option (Str × Int)} {q d : Option Int} (hp : parsePre m = .ok p)
    (hq : parsePost m = .ok q) (hd : parseDev m = .ok d) :
    Version.ofMatch m = withRelease R p q d := by
  unfold Version.ofMatch withRelease
  simp only [parseEpoch, parseRelease, h1, h2, hp, hq, hd, h10, Option.getD_some]

theorem parse_release_tail {R T : Str} (hR : RelShape R)
    (hT : ∀ x xs, T = x :: xs → x.isDigit = false ∧ x ≠ '!')
    (hdot : ∀ c, matchR true (R ++ T) (.seq (.chr '.') (.plus .digit)) T c = []) {m : Caps}
    (hK : First true (R ++ T) (.seq rePre (.seq rePost (.seq reDev (.seq reLocal .eol)))) T
      (setCap (fun _ => none) 2 R) T [] m)
    (h1 : m 1 = none) (h2 : m 2 = some R) (h10 : m 10 = none) {p : Option (Str × Int)}
    {q d : Option Int} (hp : parsePre m = .ok p) (hq : parsePost m = .ok q)
    (hd : parseDev m = .ok d) :
    Version.parse (R ++ T) = withRelease R p q d := by
  unfold Version.parse
  rw [regex_match_release_tail hR hT hdot hK]
  exact ofMatch_withRelease h1 h2 h10 hp hq hd

/-! ## The tails `.dev`, `.post` and the empty tail -/

/-- A run of digits at the end of the input: the optional separator is skipped and the
group takes the digits. -/
theorem First.sepDigits_end {w : Str} (i : Nat) {ds : Str} (hds : allDigits ds) (c : Caps) :
    First true w (.seq (.opt reSep) (.group i (.star .digit))) ds c ds [] (setCap c i ds) := by
  have h1 : First true w (.opt reSep) ds c [] ds c := by
    apply First.optSep_skip
    intro x xs hx
    exact digit_not_sep x (hds x (by rw [hx]; simp))
  have h2 := First.group (i := i) (star_first (matchR_digit true w) [] c hds
    (by intro x xs e; cases e))
  rw [List.append_nil] at h2
  have := First.seq h1 h2
  simpa using this

theorem first_dev_end {w : Str} {ds : Str} (hds : allDigits ds) (c : Caps) :
    First true w reDev ('.' :: 'd' :: 'e' :: 'v' :: ds) c ('.' :: 'd' :: 'e' :: 'v' :: ds) []
      (setCap (setCap c 8 ['d', 'e', 'v']) 9 ds) := by
  have h1 : First true w (.opt reSep) ('.' :: 'd' :: 'e' :: 'v' :: ds) c ['.']
      ('d' :: 'e' :: 'v' :: ds) c := First.optSep_take _ c (by decide)
  have h2 := First.group (i := 8) (First.word (w := w) ['d', 'e', 'v'] ds c)
  have h3 := First.sepDigits_end (w := w) 9 hds (setCap c 8 ['d', 'e', 'v'])
  exact First.opt (First.seq h1 (First.seq h2 h3))

theorem first_post_end {w : Str} {ds : Str} (hds : allDigits ds) (c : Caps) :
    First true w rePost ('.' :: 'p' :: 'o' :: 's' :: 't' :: ds) c
      ('.' :: 'p' :: 'o' :: 's' :: 't' :: ds) []
      (setCap (setCap c 6 ['p', 'o', 's', 't']) 7 ds) := by
  have h0 : matchR true w (.seq (.chr '-') (.group 5 (.plus .digit)))
      ('.' :: 'p' :: 'o' :: 's' :: 't' :: ds) c = [] := by
    simp [matchR, oneChar_cons, chrOk]
  have h1 : First true w (.opt reSep) ('.' :: 'p' :: 'o' :: 's' :: 't' :: ds) c
      ['.'] ('p' :: 'o' :: 's' :: 't' :: ds) c := First.optSep_take _ c (by decide)
  have h2 : First true w rePostLabel ('p' :: 'o' :: 's' :: 't' :: ds) c
      ['p', 'o', 's', 't'] ds (setCap c 6 ['p', 'o', 's', 't']) :=
    First.group (First.alt_left (First.word (w := w) ['p', 'o', 's', 't'] ds c))
  have h3 := First.sepDigits_end (w := w) 7 hds (setCap c 6 ['p', 'o', 's', 't'])
  exact First.opt (First.alt_right h0 (First.seq h1 (First.seq h2 h3)))

/-- The end of the input behind the pre-release part. -/
theorem first_K6_end {w : Str} (c : Caps) :
    First true w (.seq rePost (.seq reDev (.seq reLocal .eol))) [] c [] [] c := by
  have := first_K6 (w := w) none (by simp) none (by simp) none (by simp) c
  simpa [showPost, showDev, showLocal, setOpt] using this

/-- The end of the input behind the post part. -/
theorem first_K7_end {w : Str} (c : Caps) :
    First true w (.seq reDev (.seq reLocal .eol)) [] c [] [] c := by
  have := first_K7 (w := w) none (by simp) none (by simp) c
  simpa [showDev, showLocal, setOpt] using this

/-- The end of the input behind the dev part. -/
theorem first_K8_end {w : Str} (c : Caps) :
    First true w (.seq reLocal .eol) [] c [] [] c := by
  have := first_K8 (w := w) none (by simp) c
  simpa [showLocal, setOpt] using this

theorem stoiOrZero_digits {ds : Str} (hds : allDigits ds) (hn : (readNat ds : Int) ≤ INT_MAX) :
    stoiOrZero (some ds) = .ok (readNat ds : Int) := by
  unfold stoiOrZero
  by_cases h : ds = []
  · subst h; simp [readNat]
  · simp only [ne_eq, h, not_false_eq_true, if_true]
    rw [stoi_digits h hds, if_neg (by omega)]

theorem parse_release_only {R : Str} (hR : RelShape R) :
    Version.parse R = withRelease R none none none := by
  have hK : First true (R ++ []) (.seq rePre (.seq rePost (.seq reDev (.seq reLocal .eol)))) []
      (setCap (fun _ => none) 2 R) [] [] (setCap (fun _ => none) 2 R) := by
    have := first_K5 (w := R ++ []) none (by simp) none (by simp) none (by simp) none (by simp)
      (setCap (fun _ => none) 2 R)
    simpa [showPre, showPost, showDev, showLocal, setOpt] using this
  have := parse_release_tail (T := []) (p := none) (q := none) (d := none) hR
    (by intro x xs e; cases e) (by intro c; simp [matchR, oneChar_nil]) hK
    (by simp [setCap_apply]) (by simp [setCap_apply]) (by simp [setCap_apply])
    (by simp [parsePre, setCap_apply])
    (by simp [parsePost, setCap_apply]) (by simp [parseDev, setCap_apply])
  simpa using this

theorem parse_release_dev {R ds : Str} (hR : RelShape R) (hds : allDigits ds)
    (hn : (readNat ds : Int) ≤ INT_MAX) :
    Version.parse (R ++ '.' :: 'd' :: 'e' :: 'v' :: ds) =
      withRelease R none none (some (readNat ds : Int)) := by
  have hTQ : TailQ ('.' :: 'd' :: 'e' :: 'v' :: ds) := Or.inl (Or.inr ⟨ds, rfl⟩)
  have hTD : TailD ('.' :: 'd' :: 'e' :: 'v' :: ds) := Or.inr ⟨ds, rfl⟩
  have hK := First.seq (first_pre_none (w := R ++ '.' :: 'd' :: 'e' :: 'v' :: ds)
      (setCap (fun _ => none) 2 R) hTQ)
    (First.seq (first_post_none _ hTD) (First.seq (first_dev_end hds _) (first_K8_end _)))
  simp only [List.nil_append, List.append_nil] at hK
  apply parse_release_tail hR _ _ hK
  · simp [setCap_apply]
  · simp [setCap_apply]
  · simp [setCap_apply]
  · simp [parsePre, setCap_apply]
  · simp [parsePost, setCap_apply]
  · simp only [parseDev, setCap_apply]
    simp [stoiOrZero_digits hds hn]
  · intro x xs e
    simp only [List.cons.injEq] at e
    rw [← e.1]; exact ⟨by decide, by decide⟩
  · intro c
    simp [matchR, oneChar_cons, andThen, chrOk]

theorem parse_release_post {R ds : Str} (hR : RelShape R) (hds : allDigits ds)
    (hn : (readNat ds : Int) ≤ INT_MAX) :
    Version.parse (R ++ '.' :: 'p' :: 'o' :: 's' :: 't' :: ds) =
      withRelease R none (some (readNat ds : Int)) none := by
  have hTQ : TailQ ('.' :: 'p' :: 'o' :: 's' :: 't' :: ds) := Or.inr ⟨ds, rfl⟩
  have hK := First.seq (first_pre_none (w := R ++ '.' :: 'p' :: 'o' :: 's' :: 't' :: ds)
      (setCap (fun _ => none) 2 R) hTQ)
    (First.seq (first_post_end hds _) (first_K7_end _))
  simp only [List.nil_append, List.append_nil] at hK
  apply parse_release_tail hR _ _ hK
  · simp [setCap_apply]
  · simp [setCap_apply]
  · simp [setCap_apply]
  · simp [parsePre, setCap_apply]
  · simp only [parsePost, setCap_apply]
    simp [stoiOrZero_digits hds hn]
  · simp [parseDev, setCap_apply]
  · intro x xs e
    simp only [List.cons.injEq] at e
    rw [← e.1]; exact ⟨by decide, by decide⟩
  · intro c
    simp [matchR, oneChar_cons, andThen, chrOk]

/-! ## The first thread that the rest of the pattern can complete -/

theorem FirstLive.head {D : Str → Prop} {l : List Thread} {t : Thread}
    (h : ∃ tl, l = t :: tl) : FirstLive D l t := by
  obtain ⟨tl, e⟩ := h
  exact ⟨[], tl, by simpa using e, by simp⟩

theorem FirstLive.append_left {D : Str → Prop} {l : List Thread} {t : Thread}
    (l' : List Thread) (h : FirstLive D l t) : FirstLive D (l ++ l') t := by
  obtain ⟨l1, l2, e, hd⟩ := h
  exact ⟨l1, l2 ++ l', by rw [e]; simp, hd⟩

theorem FirstLive.append_right {D : Str → Prop} {l l' : List Thread} {t : Thread}
    (hl : ∀ x ∈ l, D x.rest) (h : FirstLive D l' t) : FirstLive D (l ++ l') t := by
  obtain ⟨l1, l2, e, hd⟩ := h
  refine ⟨l ++ l1, l2, by rw [e]; simp, ?_⟩
  intro x hx
  rcases List.mem_append.mp hx with hx | hx
  · exact hl x hx
  · exact hd x hx

theorem FirstLive.map {D : Str → Prop} {l : List Thread} {t : Thread} (g : Thread → Thread)
    (hg : ∀ x, (g x).rest = x.rest) (h : FirstLive D l t) : FirstLive D (l.map g) (g t) := by
  obtain ⟨l1, l2, e, hd⟩ := h
  refine ⟨l1.map g, l2.map g, by rw [e]; simp, ?_⟩
  intro x hx
  obtain ⟨y, hy, rfl⟩ := List.mem_map.mp hx
  rw [hg]; exact hd y hy

theorem FirstLive.flatMap {D1 D : Str → Prop} {l : List Thread} {t u : Thread}
    {f : Thread → List Thread} (h : FirstLive D1 l t)
    (hdead : ∀ x, D1 x.rest → ∀ y ∈ f x, D y.rest) (hu : FirstLive D (f t) u) :
    FirstLive D (l.flatMap f) u := by
  obtain ⟨l1, l2, e, hd⟩ := h
  obtain ⟨m1, m2, e', hd'⟩ := hu
  refine ⟨l1.flatMap f ++ m1, m2 ++ l2.flatMap f, by rw [e]; simp [e'], ?_⟩
  intro x hx
  rcases List.mem_append.mp hx with hx | hx
  · obtain ⟨a, ha, hxa⟩ := List.mem_flatMap.mp hx
    exact hdead a (hd a ha) x hxa
  · exact hd' x hx

theorem FirstLive.live_opt {D : Str → Prop} {ic : Bool} {w : Str} {a : Regex} {r : Str} {c : Caps}
    {t : Thread} (h : FirstLive D (matchR ic w a r c) t) :
    FirstLive D (matchR ic w (.opt a) r c) t :=
  FirstLive.append_left _ h

theorem FirstLive.live_alt_left {D : Str → Prop} {ic : Bool} {w : Str} {a b : Regex} {r : Str}
    {c : Caps} {t : Thread} (h : FirstLive D (matchR ic w a r c) t) :
    FirstLive D (matchR ic w (.alt a b) r c) t :=
  FirstLive.append_left _ h

theorem FirstLive.live_alt_right {D : Str → Prop} {ic : Bool} {w : Str} {a b : Regex} {r : Str}
    {c : Caps} {t : Thread} (hl : ∀ x ∈ matchR ic w a r c, D x.rest)
    (h : FirstLive D (matchR ic w b r c) t) : FirstLive D (matchR ic w (.alt a b) r c) t :=
  FirstLive.append_right hl h

theorem FirstLive.live_group {D : Str → Prop} {ic : Bool} {w : Str} {i : Nat} {a : Regex} {r : Str}
    {c : Caps} {k1 r1 : Str} {c1 : Caps} (h : FirstLive D (matchR ic w a r c) ⟨k1, r1, c1⟩) :
    FirstLive D (matchR ic w (.group i a) r c) ⟨k1, r1, setCap c1 i k1⟩ :=
  FirstLive.map (fun t => ⟨t.taken, t.rest, setCap t.caps i t.taken⟩) (fun _ => rfl) h

theorem FirstLive.live_seq {D1 D : Str → Prop} {ic : Bool} {w : Str} {a b : Regex} {r : Str}
    {c : Caps} {k1 r1 : Str} {c1 : Caps} {k2 r2 : Str} {c2 : Caps}
    (h1 : FirstLive D1 (matchR ic w a r c) ⟨k1, r1, c1⟩)
    (hdead : ∀ Y c' y, D1 Y → y ∈ matchR ic w b Y c' → D y.rest)
    (h2 : FirstLive D (matchR ic w b r1 c1) ⟨k2, r2, c2⟩) :
    FirstLive D (matchR ic w (.seq a b) r c) ⟨k1 ++ k2, r2, c2⟩ := by
  refine FirstLive.flatMap (f := fun t => andThen t (matchR ic w b)) h1 ?_ ?_
  · intro x hx y hy
    obtain ⟨z, hz, rfl⟩ := mem_andThen.mp hy
    exact hdead _ _ z hx hz
  · exact FirstLive.map (fun u => ⟨k1 ++ u.taken, u.rest, u.caps⟩) (fun _ => rfl) h2

/-- The first thread of `a` that `b` can complete, followed by the first thread of `b`, is
the first thread of the sequence. -/
theorem First.of_live {ic : Bool} {w : Str} {a b : Regex} {r : Str} {c : Caps}
    {k1 r1 : Str} {c1 : Caps} {k2 r2 : Str} {c2 : Caps}
    (h1 : FirstLive (fun Y => ∀ c', matchR ic w b Y c' = []) (matchR ic w a r c) ⟨k1, r1, c1⟩)
    (h2 : First ic w b r1 c1 k2 r2 c2) : First ic w (.seq a b) r c (k1 ++ k2) r2 c2 := by
  obtain ⟨l1, l2, e, hd⟩ := h1
  obtain ⟨tl, e2⟩ := h2
  have h0 : l1.flatMap (fun t => andThen t (matchR ic w b)) = [] := by
    rw [List.flatMap_eq_nil_iff]
    intro x hx
    simp [andThen, hd x hx]
  refine ⟨tl.map (fun u => ⟨k1 ++ u.taken, u.rest, u.caps⟩) ++
    l2.flatMap (fun t => andThen t (matchR ic w b)), ?_⟩
  show (matchR ic w a r c).flatMap (fun t => andThen t (matchR ic w b)) = _
  rw [e, List.flatMap_append, h0, List.flatMap_cons]
  simp [andThen, e2]

/-! ## Words in any mix of upper and lower case -/

theorem chrOk_lower {p x q : Char} (h : x.toLower = q) : chrOk true p x = (q == p.toLower) := by
  simp [chrOk, h]

/-- A character whose lower-case form is `p` is `p` or the character 32 places before. -/
theorem lower_cases {x p : Char} (h : x.toLower = p) :
    x = p ∨ x = Char.ofNat (p.toNat - 32) := by
  have h' := congrArg Char.toNat h
  rw [toLower_toNat] at h'
  by_cases hu : 65 ≤ x.toNat ∧ x.toNat ≤ 90
  · rw [if_pos hu] at h'
    right
    rw [← h', Nat.add_sub_cancel, Char.ofNat_toNat]
  · rw [if_neg hu] at h'
    exact Or.inl (char_eq_of_toNat h')

theorem matchR_word_hit {w : Str} : ∀ (p L : Str) (r : Str) (c : Caps),
    List.Forall₂ (fun q x => chrOk true q x = true) p L →
    matchR true w (Regex.word p) (L ++ r) c = [⟨L, r, c⟩]
  | [], L, r, c, h => by
    cases h
    simp [Regex.word, matchR]
  | [q], L, r, c, h => by
    cases h with
    | cons hx ht =>
      cases ht
      simp [Regex.word, matchR, oneChar_cons, hx]
  | q :: q' :: ps, L, r, c, h => by
    cases h with
    | cons hx ht =>
      rename_i x L'
      have ih := matchR_word_hit (w := w) (q' :: ps) L' r c ht
      simp only [Regex.word, matchR, List.cons_append, oneChar_cons, hx, if_true,
        List.flatMap_cons, List.flatMap_nil, List.append_nil, andThen]
      rw [ih]
      simp

theorem matchR_word_miss {w : Str} (q : Char) (ps : Str) (x : Char) (xs : Str) (c : Caps)
    (h : chrOk true q x = false) : matchR true w (Regex.word (q :: ps)) (x :: xs) c = [] := by
  cases ps with
  | nil => simp [Regex.word, matchR, oneChar_cons, h]
  | cons q' ps => simp [Regex.word, matchR, oneChar_cons, h]

/-! ## A label that is the beginning of a longer label -/

theorem badHead_cases {Y : Str} (h : BadHead Y) :
    ∃ y ys, Y = y :: ys ∧ (y = 'l' ∨ y = 'L' ∨ y = 'e' ∨ y = 'E' ∨ y = 'v' ∨ y = 'V') := by
  obtain ⟨y, ys, e, hy⟩ := h
  refine ⟨y, ys, e, ?_⟩
  rcases hy with hy | hy | hy <;> rcases lower_cases hy with h | h <;>
    · subst h
      decide

/-- On an input that starts with `l`, `e` or `v` the post, dev and local parts are skipped
and the end of the input is not reached. -/
theorem K6_dead {w Y : Str} (h : BadHead Y) (c : Caps) :
    matchR true w (.seq rePost (.seq reDev (.seq reLocal .eol))) Y c = [] := by
  obtain ⟨y, ys, rfl, hy⟩ := badHead_cases h
  rcases hy with rfl | rfl | rfl | rfl | rfl | rfl <;>
    simp [matchR, rePost, reDev, reLocal, reSep, rePostLabel, Regex.word, oneChar_cons, andThen,
      chrOk, itemOk]

/-- On such an input the optional separator and the digits behind a label take nothing. -/
theorem sepDigits_bad {w Y : Str} (h : BadHead Y) (c : Caps) (y : Thread)
    (hy : y ∈ matchR true w (.seq (.opt reSep) (.group 4 (.star .digit))) Y c) : y.rest = Y := by
  obtain ⟨x, xs, rfl, hx⟩ := badHead_cases h
  rcases hx with rfl | rfl | rfl | rfl | rfl | rfl <;>
    · simp [matchR, reSep, oneChar_cons, andThen, chrOk, itemOk, starAux] at hy
      rw [hy]

theorem toLower_idem (x : Char) : x.toLower.toLower = x.toLower := by
  apply char_eq_of_toNat
  rw [toLower_toNat x.toLower, toLower_toNat x]
  split_ifs <;> omega

theorem spelled_forall : ∀ L : Str,
    List.Forall₂ (fun q x => chrOk true q x = true) (L.map Char.toLower) L
  | [] => List.Forall₂.nil
  | x :: xs => List.Forall₂.cons (by simp [chrOk, toLower_idem]) (spelled_forall xs)

theorem dead_shorter {w : Str} (p L1 Y : Str) (c : Caps)
    (hsp : List.Forall₂ (fun q x => chrOk true q x = true) p L1) (hY : BadHead Y) :
    ∀ x ∈ matchR true w (Regex.word p) (L1 ++ Y) c, BadHead x.rest := by
  intro x hx
  rw [matchR_word_hit p L1 Y c hsp, List.mem_singleton] at hx
  rw [hx]; exact hY

theorem dead_miss {w : Str} (q : Char) (ps : Str) (x : Char) (xs : Str) (c : Caps)
    (h : chrOk true q x = false) :
    ∀ y ∈ matchR true w (Regex.word (q :: ps)) (x :: xs) c, BadHead y.rest := by
  intro y hy
  rw [matchR_word_miss q ps x xs c h] at hy
  cases hy

theorem live_word {w : Str} (p L r : Str) (c : Caps)
    (hsp : List.Forall₂ (fun q x => chrOk true q x = true) p L) :
    FirstLive BadHead (matchR true w (Regex.word p) (L ++ r) c) ⟨L, r, c⟩ :=
  FirstLive.head ⟨[], matchR_word_hit p L r c hsp⟩

/-- The label of the input `L ++ N`, where `L` spells one of the eight labels and `N` is a
run of digits: the alternatives before the label fail or stop in front of `l`, `e` or `v`. -/
theorem first_label_alias {w : Str} {base can : Str} (hb : (base, can) ∈ preAliases) {L : Str}
    (hL : spells L base) (N : Str) (c : Caps) :
    FirstLive BadHead (matchR true w rePreLabel (L ++ N) c) ⟨L, N, setCap c 3 L⟩ := by
  have hsp := spelled_forall L
  rw [show L.map Char.toLower = base from hL] at hsp
  apply FirstLive.live_group
  simp only [preAliases, List.mem_cons, Prod.mk.injEq, List.mem_singleton, List.not_mem_nil,
    or_false] at hb
  rcases hb with ⟨rfl, _⟩ | ⟨rfl, _⟩ | ⟨rfl, _⟩ | ⟨rfl, _⟩ | ⟨rfl, _⟩ | ⟨rfl, _⟩ | ⟨rfl, _⟩ |
    ⟨rfl, _⟩
  · -- a
    exact FirstLive.live_alt_left (live_word ['a'] L N c hsp)
  · -- alpha
    obtain ⟨c1, c2, L2, rfl, h1, h2⟩ : ∃ c1 c2 L2, L = c1 :: c2 :: L2 ∧
        chrOk true 'a' c1 = true ∧ c2.toLower = 'l' := by
      cases hsp with
      | cons h1 ht =>
        cases ht with
        | cons h2 ht2 => exact ⟨_, _, _, rfl, h1, by simpa [chrOk] using h2⟩
    have hc1 : c1.toLower = 'a' := by simpa [chrOk] using h1
    refine FirstLive.live_alt_right (dead_shorter ['a'] [c1] (c2 :: L2 ++ N) c
      (List.Forall₂.cons h1 List.Forall₂.nil) ⟨c2, _, rfl, Or.inl h2⟩) ?_
    refine FirstLive.live_alt_right (dead_miss 'b' [] c1 _ c (by simp [chrOk, hc1])) ?_
    refine FirstLive.live_alt_right (dead_miss 'c' [] c1 _ c (by simp [chrOk, hc1])) ?_
    refine FirstLive.live_alt_right (dead_miss 'r' ['c'] c1 _ c (by simp [chrOk, hc1])) ?_
    exact FirstLive.live_alt_left (live_word ['a', 'l', 'p', 'h', 'a'] _ N c hsp)
  · -- b
    obtain ⟨c1, L1, rfl, h1⟩ : ∃ c1 L1, L = c1 :: L1 ∧ c1.toLower = 'b' := by
      cases hsp with
      | cons h1 ht => exact ⟨_, _, rfl, by simpa [chrOk] using h1⟩
    refine FirstLive.live_alt_right (dead_miss 'a' [] c1 _ c (by simp [chrOk, h1])) ?_
    exact FirstLive.live_alt_left (live_word ['b'] _ N c hsp)
  · -- beta
    obtain ⟨c1, c2, L2, rfl, h1, h2⟩ : ∃ c1 c2 L2, L = c1 :: c2 :: L2 ∧
        chrOk true 'b' c1 = true ∧ c2.toLower = 'e' := by
      cases hsp with
      | cons h1 ht =>
        cases ht with
        | cons h2 ht2 => exact ⟨_, _, _, rfl, h1, by simpa [chrOk] using h2⟩
    have hc1 : c1.toLower = 'b' := by simpa [chrOk] using h1
    refine FirstLive.live_alt_right (dead_miss 'a' [] c1 _ c (by simp [chrOk, hc1])) ?_
    refine FirstLive.live_alt_right (dead_shorter ['b'] [c1] (c2 :: L2 ++ N) c
      (List.Forall₂.cons h1 List.Forall₂.nil) ⟨c2, _, rfl, Or.inr (Or.inl h2)⟩) ?_
    refine FirstLive.live_alt_right (dead_miss 'c' [] c1 _ c (by simp [chrOk, hc1])) ?_
    refine FirstLive.live_alt_right (dead_miss 'r' ['c'] c1 _ c (by simp [chrOk, hc1])) ?_
    refine FirstLive.live_alt_right (dead_miss 'a' ['l', 'p', 'h', 'a'] c1 _ c
      (by simp [chrOk, hc1])) ?_
    exact FirstLive.live_alt_left (live_word ['b', 'e', 't', 'a'] _ N c hsp)
  · -- c
    obtain ⟨c1, L1, rfl, h1⟩ : ∃ c1 L1, L = c1 :: L1 ∧ c1.toLower = 'c' := by
      cases hsp with
      | cons h1 ht => exact ⟨_, _, rfl, by simpa [chrOk] using h1⟩
    refine FirstLive.live_alt_right (dead_miss 'a' [] c1 _ c (by simp [chrOk, h1])) ?_
    refine FirstLive.live_alt_right (dead_miss 'b' [] c1 _ c (by simp [chrOk, h1])) ?_
    exact FirstLive.live_alt_left (live_word ['c'] _ N c hsp)
  · -- rc
    obtain ⟨c1, L1, rfl, h1⟩ : ∃ c1 L1, L = c1 :: L1 ∧ c1.toLower = 'r' := by
      cases hsp with
      | cons h1 ht => exact ⟨_, _, rfl, by simpa [chrOk] using h1⟩
    refine FirstLive.live_alt_right (dead_miss 'a' [] c1 _ c (by simp [chrOk, h1])) ?_
    refine FirstLive.live_alt_right (dead_miss 'b' [] c1 _ c (by simp [chrOk, h1])) ?_
    refine FirstLive.live_alt_right (dead_miss 'c' [] c1 _ c (by simp [chrOk, h1])) ?_
    exact FirstLive.live_alt_left (live_word ['r', 'c'] _ N c hsp)
  · -- pre
    obtain ⟨c1, L1, rfl, h1⟩ : ∃ c1 L1, L = c1 :: L1 ∧ c1.toLower = 'p' := by
      cases hsp with
      | cons h1 ht => exact ⟨_, _, rfl, by simpa [chrOk] using h1⟩
    refine FirstLive.live_alt_right (dead_miss 'a' [] c1 _ c (by simp [chrOk, h1])) ?_
    refine FirstLive.live_alt_right (dead_miss 'b' [] c1 _ c (by simp [chrOk, h1])) ?_
    refine FirstLive.live_alt_right (dead_miss 'c' [] c1 _ c (by simp [chrOk, h1])) ?_
    refine FirstLive.live_alt_right (dead_miss 'r' ['c'] c1 _ c (by simp [chrOk, h1])) ?_
    refine FirstLive.live_alt_right (dead_miss 'a' ['l', 'p', 'h', 'a'] c1 _ c
      (by simp [chrOk, h1])) ?_
    refine FirstLive.live_alt_right (dead_miss 'b' ['e', 't', 'a'] c1 _ c (by simp [chrOk, h1])) ?_
    exact FirstLive.live_alt_left (live_word ['p', 'r', 'e'] _ N c hsp)
  · -- preview
    obtain ⟨c1, c2, c3, c4, L4, rfl, h1, h2, h3, h4⟩ : ∃ c1 c2 c3 c4 L4,
        L = c1 :: c2 :: c3 :: c4 :: L4 ∧ chrOk true 'p' c1 = true ∧ chrOk true 'r' c2 = true ∧
          chrOk true 'e' c3 = true ∧ c4.toLower = 'v' := by
      cases hsp with
      | cons h1 ht =>
        cases ht with
        | cons h2 ht2 =>
          cases ht2 with
          | cons h3 ht3 =>
            cases ht3 with
            | cons h4 ht4 => exact ⟨_, _, _, _, _, rfl, h1, h2, h3, by simpa [chrOk] using h4⟩
    have hc1 : c1.toLower = 'p' := by simpa [chrOk] using h1
    refine FirstLive.live_alt_right (dead_miss 'a' [] c1 _ c (by simp [chrOk, hc1])) ?_
    refine FirstLive.live_alt_right (dead_miss 'b' [] c1 _ c (by simp [chrOk, hc1])) ?_
    refine FirstLive.live_alt_right (dead_miss 'c' [] c1 _ c (by simp [chrOk, hc1])) ?_
    refine FirstLive.live_alt_right (dead_miss 'r' ['c'] c1 _ c (by simp [chrOk, hc1])) ?_
    refine FirstLive.live_alt_right (dead_miss 'a' ['l', 'p', 'h', 'a'] c1 _ c
      (by simp [chrOk, hc1])) ?_
    refine FirstLive.live_alt_right (dead_miss 'b' ['e', 't', 'a'] c1 _ c (by simp [chrOk, hc1])) ?_
    refine FirstLive.live_alt_right (dead_shorter ['p', 'r', 'e'] [c1, c2, c3] (c4 :: L4 ++ N) c
      (List.Forall₂.cons h1 (List.Forall₂.cons h2 (List.Forall₂.cons h3 List.Forall₂.nil)))
      ⟨c4, _, rfl, Or.inr (Or.inr h4)⟩) ?_
    exact live_word ['p', 'r', 'e', 'v', 'i', 'e', 'w'] _ N c hsp

/-! ## A release followed by a pre-release label and its digits -/

/-- The first character of a spelling of a label is a letter. -/
theorem alias_head {base can : Str} (hb : (base, can) ∈ preAliases) {L : Str}
    (hL : spells L base) :
    ∃ x xs, L = x :: xs ∧ x.isDigit = false ∧ x ≠ '!' ∧ isSepChar x = false ∧
      chrOk true '.' x = false := by
  simp only [preAliases, List.mem_cons, Prod.mk.injEq, List.mem_singleton, List.not_mem_nil,
    or_false] at hb
  have key : ∀ x : Char, (x.toLower = 'a' ∨ x.toLower = 'b' ∨ x.toLower = 'c' ∨
      x.toLower = 'r' ∨ x.toLower = 'p') →
      x.isDigit = false ∧ x ≠ '!' ∧ isSepChar x = false ∧ chrOk true '.' x = false := by
    intro x hx
    rcases hx with h | h | h | h | h <;> rcases lower_cases h with rfl | rfl <;>
      exact ⟨by decide, by decide, by decide, by decide⟩
  unfold spells at hL
  rcases hb with ⟨rfl, _⟩ | ⟨rfl, _⟩ | ⟨rfl, _⟩ | ⟨rfl, _⟩ | ⟨rfl, _⟩ | ⟨rfl, _⟩ | ⟨rfl, _⟩ |
    ⟨rfl, _⟩ <;>
  · cases L with
    | nil => simp at hL
    | cons x xs =>
      simp only [List.map_cons, List.cons.injEq] at hL
      exact ⟨x, xs, rfl, key x (by simp [hL.1])⟩

/-- The pre-release part `L ++ N` at the end of the input, `L` a spelling of a label and `N`
a run of digits. -/
theorem first_pre_alias {w : Str} {base can : Str} (hb : (base, can) ∈ preAliases) {L : Str}
    (hL : spells L base) {N : Str} (hN : allDigits N) (c : Caps) :
    First true w (.seq rePre (.seq rePost (.seq reDev (.seq reLocal .eol)))) (L ++ N) c
      (L ++ N) [] (setCap (setCap c 3 L) 4 N) := by
  obtain ⟨x, xs, e, _, _, hsep, _⟩ := alias_head hb hL
  have hlab := first_label_alias (w := w) hb hL N c
  have hC : FirstLive
      (fun Y => ∀ c', matchR true w (.seq rePost (.seq reDev (.seq reLocal .eol))) Y c' = [])
      (matchR true w (.seq (.opt reSep) (.group 4 (.star .digit))) N (setCap c 3 L))
      ⟨N, [], setCap (setCap c 3 L) 4 N⟩ :=
    FirstLive.head (First.sepDigits_end 4 hN _)
  have hB := FirstLive.live_seq hlab
    (fun Y c' y hY hy => by
      intro c''
      rw [sepDigits_bad hY c' y hy]
      exact K6_dead hY c'') hC
  have hS : FirstLive (fun _ => False) (matchR true w (.opt reSep) (L ++ N) c)
      ⟨[], L ++ N, c⟩ := by
    apply FirstLive.head
    apply First.optSep_skip
    intro y ys hy
    rw [e] at hy
    simp only [List.cons_append, List.cons.injEq] at hy
    rw [← hy.1]; exact hsep
  have hA := FirstLive.live_opt (FirstLive.live_seq hS (fun _ _ _ h _ => h.elim) hB)
  have := First.of_live hA (first_K6_end (w := w) _)
  simpa [rePre] using this

theorem normalize_alias {base can : Str} (hb : (base, can) ∈ preAliases) {L : Str}
    (hL : spells L base) : normalize_pre_label L = can := by
  simp only [preAliases, List.mem_cons, Prod.mk.injEq, List.mem_singleton, List.not_mem_nil,
    or_false] at hb
  unfold spells at hL
  unfold normalize_pre_label
  rcases hb with h | h | h | h | h | h | h | h <;>
    · obtain ⟨rfl, rfl⟩ := h
      simp [hL]

theorem parse_release_alias {R : Str} (hR : RelShape R) {base can : Str}
    (hb : (base, can) ∈ preAliases) {L : Str} (hL : spells L base) {N : Str}
    (hN : allDigits N) (hn : (readNat N : Int) ≤ INT_MAX) :
    Version.parse (R ++ (L ++ N)) = withRelease R (some (can, (readNat N : Int))) none none := by
  obtain ⟨x, xs, e, hdig, hbang, _, hdot⟩ := alias_head hb hL
  have hK := first_pre_alias (w := R ++ (L ++ N)) hb hL hN (setCap (fun _ => none) 2 R)
  apply parse_release_tail hR _ _ hK
  · simp [setCap_apply]
  · simp [setCap_apply]
  · simp [setCap_apply]
  · simp only [parsePre, setCap_apply]
    simp [stoiOrZero_digits hN hn, normalize_alias hb hL]
  · simp [parsePost, setCap_apply]
  · simp [parseDev, setCap_apply]
  · intro y ys hy
    rw [e] at hy
    simp only [List.cons_append, List.cons.injEq] at hy
    rw [← hy.1]; exact ⟨hdig, hbang⟩
  · intro c
    rw [e]
    simp [matchR, oneChar_cons, hdot]

/-- A release string that `Version::parse` accepts yields a version with that release and
nothing else. -/
theorem withRelease_of_parse {R : Str} (hR : RelShape R) {v : Version}
    (hv : Version.parse R = .ok v) (p : Option (Str × Int)) (q d : Option Int) :
    v = { release := v.release } ∧
      withRelease R p q d = .ok { release := v.release, pre := p, post := q, dev := d } := by
  rw [parse_release_only hR] at hv
  unfold withRelease at hv ⊢
  cases h : stoiAll (getlines '.' R) with
  | error e => rw [h] at hv; cases hv
  | ok rel =>
    rw [h] at hv
    simp only [Except.ok.injEq] at hv
    subst hv
    exact ⟨rfl, rfl⟩

/-! ## Omitted numbers and label aliases -/

theorem relShape_example : RelShape "1.0".toList :=
  ⟨['1'], [('.', ['0'])], rfl, by decide, by unfold allDigits; decide, by unfold Segs; decide⟩

/-- C16. For a release string `R` (runs of digits joined by dots): `Version::parse` ends in
the same way on `R.dev` and `R.dev0`, on `R.post` and `R.post0`, and on `Ra` and `Ra0`; and
when `Version::parse` accepts `R`, with result `v`, the first two return `v` with `dev`
present and 0, the next two `v` with `post` present and 0, and the last two `v` with the
pre-release `(a, 0)`. -/
theorem C16_implicit_zero (R : Str) (hR : RelShape R) :
    (Version.parse (R ++ ".dev".toList) = Version.parse (R ++ ".dev0".toList) ∧
      Version.parse (R ++ ".post".toList) = Version.parse (R ++ ".post0".toList) ∧
      Version.parse (R ++ "a".toList) = Version.parse (R ++ "a0".toList)) ∧
    ∀ v, Version.parse R = .ok v →
      (Version.parse (R ++ ".dev".toList) = .ok { v with dev := some 0 } ∧
        Version.parse (R ++ ".dev0".toList) = .ok { v with dev := some 0 }) ∧
      (Version.parse (R ++ ".post".toList) = .ok { v with post := some 0 } ∧
        Version.parse (R ++ ".post0".toList) = .ok { v with post := some 0 }) ∧
      (Version.parse (R ++ "a".toList) = .ok { v with pre := some (['a'], 0) } ∧
        Version.parse (R ++ "a0".toList) = .ok { v with pre := some (['a'], 0) }) := by
  have h0 : allDigits [] := allDigits_nil
  have h1 : allDigits ['0'] := by unfold allDigits; decide
  have hd0 : Version.parse (R ++ ".dev".toList) = withRelease R none none (some 0) :=
    parse_release_dev hR h0 (by decide)
  have hd1 : Version.parse (R ++ ".dev0".toList) = withRelease R none none (some 0) :=
    parse_release_dev hR h1 (by decide)
  have hp0 : Version.parse (R ++ ".post".toList) = withRelease R none (some 0) none :=
    parse_release_post hR h0 (by decide)
  have hp1 : Version.parse (R ++ ".post0".toList) = withRelease R none (some 0) none :=
    parse_release_post hR h1 (by decide)
  have hmem : ((['a'] : Str), (['a'] : Str)) ∈ preAliases := by decide
  have hsp : spells ['a'] ['a'] := rfl
  have ha0 : Version.parse (R ++ "a".toList) = withRelease R (some (['a'], 0)) none none :=
    parse_release_alias hR hmem hsp h0 (by decide)
  have ha1 : Version.parse (R ++ "a0".toList) = withRelease R (some (['a'], 0)) none none :=
    parse_release_alias hR hmem hsp h1 (by decide)
  refine ⟨⟨by rw [hd0, hd1], by rw [hp0, hp1], by rw [ha0, ha1]⟩, ?_⟩
  intro v hv
  obtain ⟨e, _⟩ := withRelease_of_parse hR hv none none none
  rw [(withRelease_of_parse hR hv _ _ _).2] at hd0 hd1 hp0 hp1 ha0 ha1
  rw [e]
  exact ⟨⟨hd0, hd1⟩, ⟨hp0, hp1⟩, ⟨ha0, ha1⟩⟩

theorem C16_implicit_zero_witness :
    RelShape "1.0".toList ∧ Version.parse "1.0".toList = .ok { release := [1, 0] } ∧
    Version.parse "1.0.dev".toList = .ok { release := [1, 0], dev := some 0 } ∧
    Version.parse "1.0.post".toList = .ok { release := [1, 0], post := some 0 } ∧
    Version.parse "1.0a".toList = .ok { release := [1, 0], pre := some (['a'], 0) } ∧
    ((Version.parse ("1.0".toList ++ ".dev".toList) =
        Version.parse ("1.0".toList ++ ".dev0".toList) ∧
      Version.parse ("1.0".toList ++ ".post".toList) =
        Version.parse ("1.0".toList ++ ".post0".toList) ∧
      Version.parse ("1.0".toList ++ "a".toList) = Version.parse ("1.0".toList ++ "a0".toList)) ∧
    ∀ v, Version.parse "1.0".toList = .ok v →
      (Version.parse ("1.0".toList ++ ".dev".toList) = .ok { v with dev := some 0 } ∧
        Version.parse ("1.0".toList ++ ".dev0".toList) = .ok { v with dev := some 0 }) ∧
      (Version.parse ("1.0".toList ++ ".post".toList) = .ok { v with post := some 0 } ∧
        Version.parse ("1.0".toList ++ ".post0".toList) = .ok { v with post := some 0 }) ∧
      (Version.parse ("1.0".toList ++ "a".toList) = .ok { v with pre := some (['a'], 0) } ∧
        Version.parse ("1.0".toList ++ "a0".toList) = .ok { v with pre := some (['a'], 0) })) :=
  ⟨relShape_example, by decide, by decide, by decide, by decide,
    C16_implicit_zero "1.0".toList relShape_example⟩

/-- C15 (the claim fails). `1.0` is a release string that `Version::parse` accepts,
`preview` is a label and `2147483648` a digit string, and `Version::parse` of
`1.0preview2147483648` does not succeed: the number does not fit the `int` of the
pre-release. -/
theorem C15_counterexample :
    RelShape "1.0".toList ∧ Version.parse "1.0".toList = .ok { release := [1, 0] } ∧
    ("preview".toList, "rc".toList) ∈ preAliases ∧ spells "preview".toList "preview".toList ∧
    allDigits "2147483648".toList ∧ readNat "2147483648".toList = 2147483648 ∧
    Version.parse ("1.0".toList ++ ("preview".toList ++ "2147483648".toList)) =
      .error .out_of_range :=
  ⟨relShape_example, by decide, by decide, by unfold spells; decide,
    by unfold allDigits; decide, by decide, by decide⟩

/-- C15 (amended). For a release string `R` (runs of digits joined by dots) that
`Version::parse` accepts, with result `v`, a spelling `L` in any mix of upper and lower case
of one of the eight labels, and a run of digits `N` (possibly empty) whose value `n` is at
most `INT_MAX`: `Version::parse` of `R`, `L`, `N` returns `v` with the pre-release
`(canon L, n)`, where `canon` maps `a`, `alpha` to `a`, `b`, `beta` to `b` and `c`, `rc`,
`pre`, `preview` to `rc`; its display form is the release of `v`, `canon L` and `n`. -/
theorem C15_alias_normalization (R L N base can : Str) (v : Version) (hR : RelShape R)
    (hv : Version.parse R = .ok v) (hb : (base, can) ∈ preAliases) (hL : spells L base)
    (hN : allDigits N) (hn : (readNat N : Int) ≤ INT_MAX) :
    Version.parse (R ++ (L ++ N)) = .ok { v with pre := some (can, (readNat N : Int)) } ∧
    Version.to_string { v with pre := some (can, (readNat N : Int)) } =
      showRelease v.release ++ (can ++ showInt (readNat N : Int)) := by
  have h := parse_release_alias hR hb hL hN hn
  obtain ⟨e, h2⟩ := withRelease_of_parse hR hv (some (can, (readNat N : Int))) none none
  rw [h2] at h
  rw [e]
  exact ⟨h, by simp [Version.to_string, showEpoch, showPre, showPost, showDev, showLocal]⟩

theorem C15_alias_normalization_witness :
    RelShape "1.0".toList ∧ Version.parse "1.0".toList = .ok { release := [1, 0] } ∧
    String.mk (Version.to_string { release := [1, 0], pre := some ("rc".toList, 3) }) =
      "1.0rc3" ∧
    Version.parse ("1.0".toList ++ ("PreView".toList ++ "3".toList)) =
      .ok { ({ release := [1, 0] } : Version) with
        pre := some ("rc".toList, (readNat "3".toList : Int)) } ∧
    Version.to_string { ({ release := [1, 0] } : Version) with
        pre := some ("rc".toList, (readNat "3".toList : Int)) } =
      showRelease ({ release := [1, 0] } : Version).release ++
        ("rc".toList ++ showInt (readNat "3".toList : Int)) :=
  ⟨relShape_example, by decide, by decide,
    C15_alias_normalization "1.0".toList "PreView".toList "3".toList "preview".toList
      "rc".toList { release := [1, 0] } relShape_example (by decide) (by decide)
      (by unfold spells; decide) (by unfold allDigits; decide) (by decide)⟩

end Pep440
